import Mathlib

/-!
Shallow embedding of the l0vest0rm/hll HyperLogLog library (a Go port of
java-hll) together with proofs about the claims of its specification.

Modelling conventions:
* Go `uint64` / `uint32` / `byte` values are natural numbers; every operation
  that can wrap in Go is followed by an explicit `% 2^64` (resp. `% 2^32`,
  `% 256`).  Bit operations (`&&&`, `|||`, `^^^`, `<<<`, `>>>`) act on `Nat`,
  with an explicit truncation where Go would discard high bits.
* Go slices become `List Nat` / `List Bool`; reads use `getD` and writes use
  `List.set`.  An out-of-bounds access (a Go runtime panic) is tracked
  separately where a claim is about it.
* Go `float64` quantities (the estimator constants) are modelled as exact
  rationals; decimal literals such as `0.673` become the corresponding exact
  rational.  The claims settled here depend only on signs and on comparisons
  that are far from the rounding error of `float64`.
* Loops become fueled recursions; the fuel is always large enough for the
  loop bounds appearing in the source.
* Go functions that can `panic` or return `error` are modelled with the
  `Res` result type below (`ok` / `err` / `crash`).
-/

namespace Hllv

/-- 2^64, the modulus of Go `uint64` arithmetic. -/
def U64 : Nat := 2 ^ 64

/-- 2^32, the modulus of Go `uint32` arithmetic. -/
def U32 : Nat := 2 ^ 32

/-- The all-ones 64-bit word, used to model Go's unary complement `^x`. -/
def u64ones : Nat := 2 ^ 64 - 1

/-- Result of a Go function: a value, a returned `error`, or a `panic`. -/
inductive Res (α : Type) where
  | ok (a : α)
  | err (msg : String)
  | crash (msg : String)
deriving DecidableEq, Repr

/-- Whether a `Res` is a returned Go `error`. -/
def Res.isErr {α : Type} : Res α → Bool
  | .err _ => true
  | _ => false

/-- Whether a `Res` is a Go `panic`. -/
def Res.isCrash {α : Type} : Res α → Bool
  | .crash _ => true
  | _ => false

/-- The value of an `ok` result, if any. -/
def Res.get? {α : Type} : Res α → Option α
  | .ok a => some a
  | _ => none

/-! ### util.go -/

/-- `util.go` `murmur3Hash64`: the 64-bit MurmurHash3 finaliser
(wrapping multiplication modelled by `% 2^64`). -/
def murmur3Hash64 (x0 : Nat) : Nat :=
  let x1 := x0 ^^^ (x0 >>> 33)
  let x2 := (x1 * 0xff51afd7ed558ccd) % U64
  let x3 := x2 ^^^ (x2 >>> 33)
  let x4 := (x3 * 0xc4ceb9fe1a85ec53) % U64
  x4 ^^^ (x4 >>> 33)

/-- `util.go` `murmur3Hash32`: the 32-bit MurmurHash3 finaliser. -/
def murmur3Hash32 (x0 : Nat) : Nat :=
  let x1 := x0 ^^^ (x0 >>> 16)
  let x2 := (x1 * 0x85ebca6b) % U32
  let x3 := x2 ^^^ (x2 >>> 13)
  let x4 := (x3 * 0xc2b2ae35) % U32
  x4 ^^^ (x4 >>> 16)

/-- `util.go` `PW_MASK`, indexed by register width. -/
def PW_MASK : List Nat :=
  [0x8000000000000000,
   0xffffffffffffffff,
   0xfffffffffffffffc,
   0xffffffffffffffc0,
   0xffffffffffffc000,
   0xffffffffc0000000,
   0xc000000000000000,
   0xc000000000000000,
   0xc000000000000000]

/-- `util.go` `pwMaxMask`. -/
def pwMaxMask (registerSizeInBits : Nat) : Nat :=
  PW_MASK.getD registerSizeInBits 0

/-- `util.go` `LEAST_SIGNIFICANT_BIT`: 256-entry lookup table
(the entry for 0 is −1). -/
def LEAST_SIGNIFICANT_BIT : List Int :=
  [-1, 0, 1, 0, 2, 0, 1, 0, 3, 0, 1, 0, 2, 0, 1, 0,
    4, 0, 1, 0, 2, 0, 1, 0, 3, 0, 1, 0, 2, 0, 1, 0,
    5, 0, 1, 0, 2, 0, 1, 0, 3, 0, 1, 0, 2, 0, 1, 0,
    4, 0, 1, 0, 2, 0, 1, 0, 3, 0, 1, 0, 2, 0, 1, 0,
    6, 0, 1, 0, 2, 0, 1, 0, 3, 0, 1, 0, 2, 0, 1, 0,
    4, 0, 1, 0, 2, 0, 1, 0, 3, 0, 1, 0, 2, 0, 1, 0,
    5, 0, 1, 0, 2, 0, 1, 0, 3, 0, 1, 0, 2, 0, 1, 0,
    4, 0, 1, 0, 2, 0, 1, 0, 3, 0, 1, 0, 2, 0, 1, 0,
    7, 0, 1, 0, 2, 0, 1, 0, 3, 0, 1, 0, 2, 0, 1, 0,
    4, 0, 1, 0, 2, 0, 1, 0, 3, 0, 1, 0, 2, 0, 1, 0,
    5, 0, 1, 0, 2, 0, 1, 0, 3, 0, 1, 0, 2, 0, 1, 0,
    4, 0, 1, 0, 2, 0, 1, 0, 3, 0, 1, 0, 2, 0, 1, 0,
    6, 0, 1, 0, 2, 0, 1, 0, 3, 0, 1, 0, 2, 0, 1, 0,
    4, 0, 1, 0, 2, 0, 1, 0, 3, 0, 1, 0, 2, 0, 1, 0,
    5, 0, 1, 0, 2, 0, 1, 0, 3, 0, 1, 0, 2, 0, 1, 0,
    4, 0, 1, 0, 2, 0, 1, 0, 3, 0, 1, 0, 2, 0, 1, 0]

/-- `util.go` `leastSignificantBit`: zero-indexed least significant set bit,
`-1` when the value is zero, via the byte-at-a-time table scan. -/
def leastSignificantBit (value : Nat) : Int :=
  if value = 0 then -1
  else if value &&& 0xFF ≠ 0 then
    LEAST_SIGNIFICANT_BIT.getD ((value >>> 0) &&& 0xFF) 0 + 0
  else if value &&& 0xFFFF ≠ 0 then
    LEAST_SIGNIFICANT_BIT.getD ((value >>> 8) &&& 0xFF) 0 + 8
  else if value &&& 0xFFFFFF ≠ 0 then
    LEAST_SIGNIFICANT_BIT.getD ((value >>> 16) &&& 0xFF) 0 + 16
  else if value &&& 0xFFFFFFFF ≠ 0 then
    LEAST_SIGNIFICANT_BIT.getD ((value >>> 24) &&& 0xFF) 0 + 24
  else if value &&& 0xFFFFFFFFFF ≠ 0 then
    LEAST_SIGNIFICANT_BIT.getD ((value >>> 32) &&& 0xFF) 0 + 32
  else if value &&& 0xFFFFFFFFFFFF ≠ 0 then
    LEAST_SIGNIFICANT_BIT.getD ((value >>> 40) &&& 0xFF) 0 + 40
  else if value &&& 0xFFFFFFFFFFFFFF ≠ 0 then
    LEAST_SIGNIFICANT_BIT.getD ((value >>> 48) &&& 0xFF) 0 + 48
  else
    LEAST_SIGNIFICANT_BIT.getD ((value >>> 56) &&& 0xFF) 0 + 56

/-- `util.go` `nextPowerOfTwo`. -/
def nextPowerOfTwo (x0 : Nat) : Nat :=
  if x0 = 0 then 1
  else
    let x := x0 - 1
    let x := x ||| (x >>> 1)
    let x := x ||| (x >>> 2)
    let x := x ||| (x >>> 4)
    let x := x ||| (x >>> 8)
    let x := x ||| (x >>> 16)
    (x ||| (x >>> 32)) + 1

/-- Floor of log base 2 (fuel-based so that it reduces in the kernel;
fuel 64 covers every 64-bit value; `log2floor 64 n = Nat.log2 n` for
`n < 2^64`).  This models Go's `uint(math.Log2(float64(x)))` for the
arguments the library passes (powers of two and small products, where the
`float64` `log2` never rounds across an integer). -/
def log2floor : Nat → Nat → Nat
  | 0, _ => 0
  | fuel + 1, n => if 2 ≤ n then log2floor fuel (n / 2) + 1 else 0

/-- `uint(math.Log2(float64(x)))` as used by the source. -/
def log2u (n : Nat) : Nat := log2floor 64 n

/-- `util.go` `maxFill` with the load factor fixed at the only value the
library ever passes, `DEFAULT_LOAD_FACTOR = 0.75`:
`min(ceil(n * 0.75), n - 1)`.  For `n ≤ 2^30` the `float64` product and
ceiling are exact, so `ceil(3n/4) = (3n + 3) / 4` is a faithful model. -/
def maxFill (n : Nat) : Nat :=
  min ((3 * n + 3) / 4) (n - 1)

/-- `util.go` `arraySize` with the load factor fixed at `0.75`:
`max(2, nextPowerOfTwo(ceil(expected / 0.75)))`.  `ceil(4e/3) = (4e + 2)/3`
matches the `float64` computation for every size below the `2^30` limit;
the `panic` for results above `2^30` is not modelled (all sizes reached in
this development are tiny). -/
def arraySize (expected : Nat) : Nat :=
  max 2 (nextPowerOfTwo ((4 * expected + 2) / 3))

/-- The global `TWO_TO_L` table of `util.go`, modelled as a function from
`(regWidth, log2m)` to the stored rational (the flat Go array is indexed by
`REG_WIDTH_INDEX_MULTIPLIER * regWidth + log2m` with multiplier 31, which is
injective on the parameter ranges, so the pair view is faithful). -/
abbrev TwoToL := Nat → Nat → ℚ

/-- The all-zero table: the initial value of the Go package-level array
`TWO_TO_L` before any call to `Init`. -/
def zeroTwoToL : TwoToL := fun _ _ => 0

/-- The table produced by `util.go` `Init`:
`2^((2^regWidth - 1 - 1) + log2m)` for parameters in range
(`math.Pow(2, totalBits)` is exact in `float64` for these exponents),
untouched (zero) outside the ranges. -/
def twoToLInit : TwoToL := fun regWidth log2m =>
  if 1 ≤ regWidth ∧ regWidth ≤ 8 ∧ 4 ≤ log2m ∧ log2m ≤ 30 then
    (2 : ℚ) ^ ((2 ^ regWidth - 1 - 1) + log2m)
  else 0

/-- `util.go` `alphaMSquared` on an exact-rational model of `float64`.
The Go `switch` lets cases 1, 2 and 4 fall through to `return 0`;
case 8 panics in Go and is given the (unreachable) value 0 here —
every caller passes `m = 2^log2m ≥ 16`. -/
def alphaMSquared (m : ℚ) : ℚ :=
  if m = 16 then 0.673 * m * m
  else if m = 32 then 0.697 * m * m
  else if m = 64 then 0.709 * m * m
  else if m = 1 ∨ m = 2 ∨ m = 4 ∨ m = 8 then 0
  else (0.7213 / (1 + 1.079 / m)) * m * m

/-- `util.go` `smallEstimatorCutoff`: `(m * 5) / 2`. -/
def smallEstimatorCutoff (m : Nat) : ℚ := (m * 5 : ℚ) / 2

/-- `util.go` `largeEstimatorCutoff`, reading the given state of the global
`TWO_TO_L` table. -/
def largeEstimatorCutoff (tbl : TwoToL) (log2m registerSizeInBits : Nat) : ℚ :=
  tbl registerSizeInBits log2m / 30

/-! ### LongHashSet (the open-addressed set backing EXPLICIT storage) -/

/-- The `LongHashSet` of the source (deserializer.go, second section): an
open-addressed linear-probing set of 64-bit keys.  The load factor is fixed
at the only value ever used, `DEFAULT_LOAD_FACTOR = 0.75`. -/
structure LongHashSet where
  key : List Nat
  used : List Bool
  n : Nat
  maxFill : Nat
  mask : Nat
  size : Nat
deriving DecidableEq, Repr

/-- `NewLongHashSet()`: table sized from `DEFAULT_INITIAL_SIZE = 16`.
The `error` returns of the Go constructor concern only out-of-range load
factors and cannot fire for the fixed factor `0.75`. -/
def NewLongHashSet : LongHashSet :=
  let n := arraySize 16
  { key := List.replicate n 0, used := List.replicate n false,
    n := n, maxFill := maxFill n, mask := n - 1, size := 0 }

/-- The probe loop of `LongHashSet.Add`: scan from `pos`, advancing by
`(pos + 1) &&& mask`, until the key is found (no change, `false`) or an
unused slot is found (install the key there, `true`).  The fuel bounds the
walk; the Go loop relies on a free slot always existing, and with fuel `n`
the walk visits every slot, so exhaustion (returning the set unchanged)
is unreachable whenever a free slot exists. -/
def LongHashSet.probeAdd (s : LongHashSet) (k : Nat) : Nat → Nat → LongHashSet × Bool
  | 0, _ => (s, false)
  | fuel + 1, pos =>
    if s.used.getD pos false then
      if s.key.getD pos 0 = k then (s, false)
      else s.probeAdd k fuel ((pos + 1) &&& s.mask)
    else
      ({ s with key := s.key.set pos k, used := s.used.set pos true }, true)

/-- The probe loop of `LongHashSet.rehash`'s reinsertion (which, unlike
`Add`, never compares keys): scan to the first unused slot and install. -/
def LongHashSet.probeIns (s : LongHashSet) (k : Nat) : Nat → Nat → LongHashSet
  | 0, _ => s
  | fuel + 1, pos =>
    if s.used.getD pos false then s.probeIns k fuel ((pos + 1) &&& s.mask)
    else { s with key := s.key.set pos k, used := s.used.set pos true }

/-- The keys of the set in ascending slot order (the traversal order of
`LongHashSet.rehash`, which scans `i` upward over used slots). -/
def LongHashSet.elemsAsc (s : LongHashSet) : List Nat :=
  (List.range s.n).filterMap
    (fun i => if s.used.getD i false then some (s.key.getD i 0) else none)

/-- `LongHashSet.rehash`: build a fresh table of size `newN` and reinsert.
The Go loop migrates exactly `size` keys scanning slots upward, hence the
`take s.size` (equal to all of `elemsAsc` for consistent tables, where the
number of used slots is `size`). -/
def LongHashSet.rehash (s : LongHashSet) (newN : Nat) : LongHashSet :=
  let base : LongHashSet :=
    { key := List.replicate newN 0, used := List.replicate newN false,
      n := newN, maxFill := Hllv.maxFill newN, mask := newN - 1, size := s.size }
  (s.elemsAsc.take s.size).foldl
    (fun t k => t.probeIns k t.n (murmur3Hash64 (k ^^^ t.mask) &&& t.mask)) base

/-- `LongHashSet.Add`, returning the new set and whether the key was new:
probe from the hashed start; on insertion rehash when `size ≥ maxFill`,
then increment `size`. -/
def LongHashSet.addB (s : LongHashSet) (k : Nat) : LongHashSet × Bool :=
  let pos := murmur3Hash64 (k ^^^ s.mask) &&& s.mask
  match s.probeAdd k s.n pos with
  | (s', false) => (s', false)
  | (s', true) =>
    let s'' := if s'.size ≥ s'.maxFill then s'.rehash (arraySize (s'.size + 1)) else s'
    ({ s'' with size := s''.size + 1 }, true)

/-- `LongHashSet.Add` with the boolean result discarded (as every caller in
the source discards it). -/
def LongHashSet.add (s : LongHashSet) (k : Nat) : LongHashSet := (s.addB k).1

/-- The keys of the set in descending slot order: the output order of
`LongHashSetIterator` (which starts at the top slot and walks down),
for consistent tables (used-slot count = `size`). -/
def LongHashSet.elems (s : LongHashSet) : List Nat :=
  ((List.range s.n).reverse).filterMap
    (fun i => if s.used.getD i false then some (s.key.getD i 0) else none)

/-- `LongHashSet.Clone` (a deep copy in Go; the identity on the
functional model). -/
def LongHashSet.Clone (s : LongHashSet) : LongHashSet := s

/-- Number of used slots (for stating table-consistency invariants). -/
def LongHashSet.usedCount (s : LongHashSet) : Nat :=
  s.used.count true

/-- The downward scan in `NewLongHashSetIterator`'s constructor:
`for !used[pos] { pos -= 1 }`.  `pos` is unsigned in Go, so stepping below
slot 0 wraps around and the following index read panics; that case is
`none` (the fuel covers the `pos + 1` possible steps, so exhaustion is
exactly the wrap, which is unreachable for consistent tables). -/
def LongHashSet.scanDown (s : LongHashSet) : Nat → Nat → Option Nat
  | 0, _ => none
  | fuel + 1, pos =>
    if s.used.getD pos false then some pos
    else if pos = 0 then none
    else s.scanDown fuel (pos - 1)

/-- `LongHashSetIterator` (deserializer.go lines 301–347): a cursor over a
`LongHashSet`, emitting `key[pos]` while counting `c` down from `size`. -/
structure LongHashSetIterator where
  pos : Nat
  c : Nat
deriving DecidableEq, Repr

/-- `NewLongHashSetIterator`: `c = size` and `pos = n`; when `c ≠ 0`, step
to `n - 1` and scan down to the first used slot. -/
def NewLongHashSetIterator (s : LongHashSet) : Option LongHashSetIterator :=
  if s.size = 0 then some ⟨s.n, s.size⟩
  else (s.scanDown s.n (s.n - 1)).map (fun p => ⟨p, s.size⟩)

/-- The walk at the end of `LongHashSetIterator.Next`:
`for pos != 0 { pos -= 1; if used[pos] { break } }` — stops at the next
used slot below, or at slot 0. -/
def LongHashSet.nextWalk (s : LongHashSet) : Nat → Nat
  | 0 => 0
  | pos + 1 => if s.used.getD pos false then pos else s.nextWalk pos

/-- `LongHashSetIterator.Next`: `none` is the "no more element" panic;
otherwise decrement `c`, return `key[pos]`, and walk `pos` down while
elements remain.  Past the last used slot the cursor rests at slot 0, so
when `size` exceeds the occupancy (the state the rehash off-by-one leaves
behind) the final call returns the junk word `key[0]`. -/
def LongHashSetIterator.next (s : LongHashSet) (it : LongHashSetIterator) :
    Option (Nat × LongHashSetIterator) :=
  if it.c = 0 then none
  else
    let c := it.c - 1
    let retVal := s.key.getD it.pos 0
    let pos := if c ≠ 0 then s.nextWalk it.pos else it.pos
    some (retVal, ⟨pos, c⟩)

/-! ### Int2ByteHashMap (the open-addressed map backing SPARSE storage) -/

/-- `int2byte_hashmap.go` `Int2ByteHashMap`: open-addressed linear-probing
map from 32-bit register indices to byte register values, load factor fixed
at `0.75`. -/
structure Int2ByteHashMap where
  key : List Nat
  value : List Nat
  used : List Bool
  n : Nat
  maxFill : Nat
  mask : Nat
  size : Nat
deriving DecidableEq, Repr

/-- `NewInt2ByteHashMap()`. -/
def NewInt2ByteHashMap : Int2ByteHashMap :=
  let n := arraySize 16
  { key := List.replicate n 0, value := List.replicate n 0,
    used := List.replicate n false,
    n := n, maxFill := maxFill n, mask := n - 1, size := 0 }

/-- The probe loop of `Int2ByteHashMap.put`: overwrite the value if the key
is found (`false` = not newly inserted), otherwise install at the first
unused slot (`true`). -/
def Int2ByteHashMap.probePut (s : Int2ByteHashMap) (k v : Nat) :
    Nat → Nat → Int2ByteHashMap × Bool
  | 0, _ => (s, false)
  | fuel + 1, pos =>
    if s.used.getD pos false then
      if s.key.getD pos 0 = k then ({ s with value := s.value.set pos v }, false)
      else s.probePut k v fuel ((pos + 1) &&& s.mask)
    else
      ({ s with
          key := s.key.set pos k, value := s.value.set pos v,
          used := s.used.set pos true }, true)

/-- The probe loop of `Int2ByteHashMap.rehash`'s reinsertion (no key
comparison). -/
def Int2ByteHashMap.probeIns (s : Int2ByteHashMap) (k v : Nat) :
    Nat → Nat → Int2ByteHashMap
  | 0, _ => s
  | fuel + 1, pos =>
    if s.used.getD pos false then s.probeIns k v fuel ((pos + 1) &&& s.mask)
    else { s with
      key := s.key.set pos k, value := s.value.set pos v,
      used := s.used.set pos true }

/-- The (key, value) pairs in ascending slot order (the rehash traversal). -/
def Int2ByteHashMap.entriesAsc (s : Int2ByteHashMap) : List (Nat × Nat) :=
  (List.range s.n).filterMap
    (fun i => if s.used.getD i false then
        some (s.key.getD i 0, s.value.getD i 0) else none)

/-- `Int2ByteHashMap.rehash`. -/
def Int2ByteHashMap.rehash (s : Int2ByteHashMap) (newN : Nat) : Int2ByteHashMap :=
  let base : Int2ByteHashMap :=
    { key := List.replicate newN 0, value := List.replicate newN 0,
      used := List.replicate newN false,
      n := newN, maxFill := Hllv.maxFill newN, mask := newN - 1, size := s.size }
  (s.entriesAsc.take s.size).foldl
    (fun t e => t.probeIns e.1 e.2 t.n (murmur3Hash32 (e.1 ^^^ t.mask) &&& t.mask)) base

/-- `Int2ByteHashMap.put` (the returned old value is discarded by every
caller in the source and is not modelled). -/
def Int2ByteHashMap.put (s : Int2ByteHashMap) (k v : Nat) : Int2ByteHashMap :=
  let pos := murmur3Hash32 (k ^^^ s.mask) &&& s.mask
  match s.probePut k v s.n pos with
  | (s', false) => s'
  | (s', true) =>
    let s'' := if s'.size ≥ s'.maxFill then s'.rehash (arraySize (s'.size + 1)) else s'
    { s'' with size := s''.size + 1 }

/-- The probe loop of `Int2ByteHashMap.get` (0 when the key is absent). -/
def Int2ByteHashMap.probeGet (s : Int2ByteHashMap) (k : Nat) : Nat → Nat → Nat
  | 0, _ => 0
  | fuel + 1, pos =>
    if s.used.getD pos false then
      if s.key.getD pos 0 = k then s.value.getD pos 0
      else s.probeGet k fuel ((pos + 1) &&& s.mask)
    else 0

/-- `Int2ByteHashMap.get`. -/
def Int2ByteHashMap.get (s : Int2ByteHashMap) (k : Nat) : Nat :=
  s.probeGet k s.n (murmur3Hash32 (k ^^^ s.mask) &&& s.mask)

/-- The (key, value) pairs in descending slot order: the output order of
`Int2ByteHashMapIterator` for consistent tables. -/
def Int2ByteHashMap.entries (s : Int2ByteHashMap) : List (Nat × Nat) :=
  ((List.range s.n).reverse).filterMap
    (fun i => if s.used.getD i false then
        some (s.key.getD i 0, s.value.getD i 0) else none)

/-- `Int2ByteHashMap.Clone` (identity on the functional model). -/
def Int2ByteHashMap.Clone (s : Int2ByteHashMap) : Int2ByteHashMap := s

/-- Number of used slots. -/
def Int2ByteHashMap.usedCount (s : Int2ByteHashMap) : Nat :=
  s.used.count true

/-! ### BitVector (schema_version.go, second section / part_003) -/

/-- `BitVector`: `count` registers of `registerWidth` bits, packed LSB-first
in ascending register order into 64-bit words. -/
structure BitVector where
  words : List Nat
  registerWidth : Nat
  count : Nat
  registerMask : Nat
deriving DecidableEq, Repr

/-- `NewBitVector`.  `registerMask = (1 <<< width) - 1` agrees with the Go
wrapping computation also at `width = 64` (where Go computes `0 - 1`,
wrapping to `2^64 - 1`). -/
def NewBitVector (width count : Nat) : BitVector :=
  { words := List.replicate (((width * count) + 63) >>> 6) 0,
    registerWidth := width, count := count,
    registerMask := (1 <<< width) - 1 }

/-- The register read shared by `getRegister` and `setMaxRegister`
(`NOTE: matches getRegister()` in the source): single-word or straddling
two words.  Go's `&` binds tighter than `|`, so in the straddle case the
mask applies only to the second word's contribution. -/
def BitVector.getRegister (bv : BitVector) (registerIndex : Nat) : Nat :=
  let bitIndex := registerIndex * bv.registerWidth
  let firstWordIndex := bitIndex >>> 6
  let secondWordIndex := (bitIndex + bv.registerWidth - 1) >>> 6
  let bitRemainder := bitIndex &&& 63
  if firstWordIndex = secondWordIndex then
    (bv.words.getD firstWordIndex 0 >>> bitRemainder) &&& bv.registerMask
  else
    (bv.words.getD firstWordIndex 0 >>> bitRemainder) |||
      ((bv.words.getD secondWordIndex 0 <<< (64 - bitRemainder)) % U64) &&& bv.registerMask

/-- `BitVector.setMaxRegister`: read the current value as `getRegister`
does; if the new value is strictly greater, clear then set the register's
bits (split across two words when it straddles); return whether
`value ≥ current`. -/
def BitVector.setMaxRegister (bv : BitVector) (registerIndex value : Nat) :
    BitVector × Bool :=
  let bitIndex := registerIndex * bv.registerWidth
  let firstWordIndex := bitIndex >>> 6
  let secondWordIndex := (bitIndex + bv.registerWidth - 1) >>> 6
  let bitRemainder := bitIndex &&& 63
  let registerValue :=
    if firstWordIndex = secondWordIndex then
      (bv.words.getD firstWordIndex 0 >>> bitRemainder) &&& bv.registerMask
    else
      (bv.words.getD firstWordIndex 0 >>> bitRemainder) |||
        ((bv.words.getD secondWordIndex 0 <<< (64 - bitRemainder)) % U64) &&& bv.registerMask
  let words' :=
    if value > registerValue then
      if firstWordIndex = secondWordIndex then
        let w0 := bv.words.getD firstWordIndex 0
        let w0 := (w0 &&& (u64ones ^^^ ((bv.registerMask <<< bitRemainder) % U64))) |||
          ((value <<< bitRemainder) % U64)
        bv.words.set firstWordIndex w0
      else
        let w0 := bv.words.getD firstWordIndex 0
        let w0 := (w0 &&& ((1 <<< bitRemainder) - 1)) ||| ((value <<< bitRemainder) % U64)
        let w1 := bv.words.getD secondWordIndex 0
        let w1 := (w1 &&& (u64ones ^^^ (bv.registerMask >>> (64 - bitRemainder)))) |||
          (value >>> (64 - bitRemainder))
        (bv.words.set firstWordIndex w0).set secondWordIndex w1
    else bv.words
  ({ bv with words := words' }, decide (value ≥ registerValue))

/-- Modelled from the spec: `BitVector.setRegister` is called by
`NewHllFromBytes` (part_001 line 929) but its definition is not among the
files under src/.  Spec §4.D: "`set_register(i, v)` — write a register,
clearing the old bits first; symmetric straddle handling", and the source
comments on `setMaxRegister`'s write path state `NOTE: matches
setRegister()`; accordingly this is that write path, performed
unconditionally. -/
def BitVector.setRegister (bv : BitVector) (registerIndex value : Nat) : BitVector :=
  let bitIndex := registerIndex * bv.registerWidth
  let firstWordIndex := bitIndex >>> 6
  let secondWordIndex := (bitIndex + bv.registerWidth - 1) >>> 6
  let bitRemainder := bitIndex &&& 63
  let words' :=
    if firstWordIndex = secondWordIndex then
      let w0 := bv.words.getD firstWordIndex 0
      let w0 := (w0 &&& (u64ones ^^^ ((bv.registerMask <<< bitRemainder) % U64))) |||
        ((value <<< bitRemainder) % U64)
      bv.words.set firstWordIndex w0
    else
      let w0 := bv.words.getD firstWordIndex 0
      let w0 := (w0 &&& ((1 <<< bitRemainder) - 1)) ||| ((value <<< bitRemainder) % U64)
      let w1 := bv.words.getD secondWordIndex 0
      let w1 := (w1 &&& (u64ones ^^^ (bv.registerMask >>> (64 - bitRemainder)))) |||
        (value >>> (64 - bitRemainder))
      (bv.words.set firstWordIndex w0).set secondWordIndex w1
  { bv with words := words' }

/-- `BitVector.Clone` (identity on the functional model). -/
def BitVector.Clone (bv : BitVector) : BitVector := bv

/-- `bigEndianAscendingWordSerializer`: writes fixed-width words MSB-first
into a byte buffer, after `bytePadding` leading bytes. -/
structure bigEndianAscendingWordSerializer where
  wordLength : Nat
  wordCount : Nat
  bytes : List Nat
  bitsLeftInByte : Nat
  byteIndex : Nat
  wordsWritten : Nat
deriving DecidableEq, Repr

/-- `newBigEndianAscendingWordSerializer2`.  The Go constructor panics for
`wordLength` outside `[1, 64]`; every call below satisfies the bound and the
round-trip theorem carries it as a hypothesis. -/
def newBigEndianAscendingWordSerializer2 (wordLength wordCount bytePadding : Nat) :
    bigEndianAscendingWordSerializer :=
  let bitsRequired := wordLength * wordCount
  let bytesRequired :=
    if bitsRequired % 8 ≠ 0 then bitsRequired / 8 + 1 + bytePadding
    else bitsRequired / 8 + bytePadding
  { wordLength := wordLength, wordCount := wordCount,
    bytes := List.replicate bytesRequired 0,
    bitsLeftInByte := 8, byteIndex := bytePadding, wordsWritten := 0 }

/-- `newBigEndianAscendingWordSerializer` (padding fixed at the 3 header
bytes). -/
def newBigEndianAscendingWordSerializer (wordLength wordCount : Nat) :
    bigEndianAscendingWordSerializer :=
  newBigEndianAscendingWordSerializer2 wordLength wordCount 3

/-- The bit-packing loop of `writeWord`.  Each pass writes
`min(bitsLeftInByte, bitsLeftInWord) ≥ 1` bits, so fuel equal to the
initial `bitsLeftInWord` always suffices; `byte(alignedBits)` is the
low-8-bit truncation. -/
def writeWordLoop (word : Nat) :
    Nat → bigEndianAscendingWordSerializer → Nat → bigEndianAscendingWordSerializer
  | 0, s, _ => s
  | fuel + 1, s, bitsLeftInWord =>
    if bitsLeftInWord = 0 then s
    else
      let s := if s.bitsLeftInByte = 0 then
        { s with byteIndex := s.byteIndex + 1, bitsLeftInByte := 8 } else s
      let consumedMask : Nat :=
        if bitsLeftInWord = 64 then 0xffffffffffffffff else (1 <<< bitsLeftInWord) - 1
      let numberOfBitsToWrite :=
        if s.bitsLeftInByte < bitsLeftInWord then s.bitsLeftInByte else bitsLeftInWord
      let bitsInByteRemainingAfterWrite := s.bitsLeftInByte - numberOfBitsToWrite
      let remainingBitsOfWordToWrite := word &&& consumedMask
      let bitsThatTheByteCanAccept :=
        if numberOfBitsToWrite < bitsLeftInWord then
          remainingBitsOfWordToWrite >>> (bitsLeftInWord - s.bitsLeftInByte)
        else remainingBitsOfWordToWrite
      let alignedBits := (bitsThatTheByteCanAccept <<< bitsInByteRemainingAfterWrite) % U64
      let newByte := s.bytes.getD s.byteIndex 0 ||| (alignedBits % 256)
      writeWordLoop word fuel
        { s with bytes := s.bytes.set s.byteIndex newByte,
                 bitsLeftInByte := bitsInByteRemainingAfterWrite }
        (bitsLeftInWord - numberOfBitsToWrite)

/-- `writeWord`.  When the promised word count is already reached the Go
method returns an error and leaves the state unchanged; that is modelled by
returning the state unchanged. -/
def bigEndianAscendingWordSerializer.writeWord
    (s : bigEndianAscendingWordSerializer) (word : Nat) :
    bigEndianAscendingWordSerializer :=
  if s.wordsWritten = s.wordCount then s
  else
    let s' := writeWordLoop word s.wordLength s s.wordLength
    { s' with wordsWritten := s'.wordsWritten + 1 }

/-- `getBytes`: panics (modelled as `none`) unless all

promised words have been written. -/
def bigEndianAscendingWordSerializer.getBytes
    (s : bigEndianAscendingWordSerializer) : Option (List Nat) :=
  if s.wordsWritten < s.wordCount then none else some s.bytes

/-! ### deserializer.go -/

/-- `bigEndianAscendingWordDeserializer`. -/
structure bigEndianAscendingWordDeserializer where
  wordLength : Nat
  bytes : List Nat
  bytePadding : Nat
  wordCount : Nat
deriving DecidableEq, Repr

/-- `newBigEndianAscendingWordDeserializer`:
`wordCount = (len(bytes) − bytePadding) · 8 / wordLength`. -/
def newBigEndianAscendingWordDeserializer
    (wordLength bytePadding : Nat) (bytes : List Nat) :
    bigEndianAscendingWordDeserializer :=
  { wordLength := wordLength, bytes := bytes, bytePadding := bytePadding,
    wordCount := ((bytes.length - bytePadding) * 8) / wordLength }

/-- The middle-byte loop of `readWord2`: push whole bytes onto the
accumulator (`BYTE_MASK` is the byte mask `0xff`). -/
def middleBytesLoop (d : bigEndianAscendingWordDeserializer)
    (firstByteIndex : Nat) : Nat → Nat → Nat → Nat
  | 0, _, value => value
  | cnt + 1, i, value =>
    let middleByte := d.bytes.getD (firstByteIndex + i + 1) 0 &&& 255
    middleBytesLoop d firstByteIndex cnt (i + 1) (((value <<< 8) % U64) ||| middleByte)

/-- `readWord2`: read the word at `position`; `none` models the
"Word out of bounds of backing array." panic. -/
def bigEndianAscendingWordDeserializer.readWord2
    (d : bigEndianAscendingWordDeserializer) (position : Nat) : Option Nat :=
  let firstBitIndex := position * d.wordLength
  let firstByteIndex := d.bytePadding + firstBitIndex / 8
  let firstByteSkipBits := firstBitIndex % 8
  let lastBitIndex := firstBitIndex + d.wordLength - 1
  let lastByteIndex := d.bytePadding + lastBitIndex / 8
  let bitsAfterByteBoundary := (lastBitIndex + 1) % 8
  let lastByteBitsToConsume :=
    if bitsAfterByteBoundary = 0 then 8 else bitsAfterByteBoundary
  if d.bytes.length ≤ lastByteIndex then none
  else
    let bitsRemainingInFirstByte := 8 - firstByteSkipBits
    let bitsToConsumeInFirstByte :=
      if bitsRemainingInFirstByte < d.wordLength then bitsRemainingInFirstByte
      else d.wordLength
    let firstByte := d.bytes.getD firstByteIndex 0
    let firstByte := firstByte &&& ((1 <<< bitsRemainingInFirstByte) - 1)
    let firstByte := firstByte >>> (bitsRemainingInFirstByte - bitsToConsumeInFirstByte)
    if firstByteIndex = lastByteIndex then some firstByte
    else
      let middleByteCount := lastByteIndex - firstByteIndex - 1
      let value := middleBytesLoop d firstByteIndex middleByteCount 0 firstByte
      let lastByte := d.bytes.getD lastByteIndex 0 &&& 255
      let lastByte := lastByte >>> (8 - lastByteBitsToConsume)
      some (((value <<< lastByteBitsToConsume) % U64) ||| lastByte)

/-! ### Header codec (schema_version.go, first section) -/

/-- Wire type ordinals and parameters (part_001 constants). -/
def UNDEFINED : Nat := 0

/-- Wire ordinal of the EMPTY representation. -/
def EMPTY : Nat := 1

/-- Wire ordinal of the EXPLICIT representation. -/
def EXPLICIT : Nat := 2

/-- Wire ordinal of the SPARSE representation. -/
def SPARSE : Nat := 3

/-- Wire ordinal of the FULL representation. -/
def FULL : Nat := 4

/-- `MAXIMUM_EXPLICIT_THRESHOLD = 1 << (18 - 1)`. -/
def MAXIMUM_EXPLICIT_THRESHOLD : Nat := 1 <<< 17

/-- `SCHEMA_VERSION`. -/
def SCHEMA_VERSION : Nat := 1

/-- `HEADER_BYTE_COUNT`. -/
def HEADER_BYTE_COUNT : Nat := 3

/-- `EXPLICIT_OFF` sentinel. -/
def EXPLICIT_OFF : Nat := 0

/-- `EXPLICIT_AUTO` sentinel. -/
def EXPLICIT_AUTO : Nat := 63

/-- `packVersionByte`. -/
def packVersionByte (schemaVersion typeOrdinal : Nat) : Nat :=
  ((0xF &&& schemaVersion) <<< 4) ||| (0xF &&& typeOrdinal)

/-- `packParametersByte`. -/
def packParametersByte (registerWidth registerCountLog2 : Nat) : Nat :=
  (((registerWidth - 1) &&& 0x7) <<< 5) ||| (registerCountLog2 &&& 0x1F)

/-- `packCutoffByte`. -/
def packCutoffByte (explicitCutoff : Nat) (sparseEnabled : Bool) : Nat :=
  (if sparseEnabled then 1 <<< 6 else 0) ||| (0x3F &&& explicitCutoff)

/-- `sparseEnabled`. -/
def sparseEnabled (cutoffByte : Nat) : Bool :=
  ((cutoffByte >>> 6) &&& 1) = 1

/-- `explicitCutoff`. -/
def explicitCutoff (cutoffByte : Nat) : Nat := cutoffByte &&& 0x3F

/-- `typeOrdinal`. -/
def typeOrdinal (versionByte : Nat) : Nat := versionByte &&& 0xF

/-- `registerWidth`. -/
def registerWidth (parametersByte : Nat) : Nat :=
  ((parametersByte >>> 5) &&& 0x7) + 1

/-- `registerCountLog2`. -/
def registerCountLog2 (parametersByte : Nat) : Nat := parametersByte &&& 0x1F

/-! ### The Hll estimator (part_001) -/

/-- The active representation.  The Go struct keeps three pointer fields of
which exactly one is non-nil for each `hllType`; the sum type captures that
discipline (claims about states where the discipline is broken — nil
dereferences — are not in scope). -/
inductive HllStorage where
  | emptyS
  | explicitS (s : LongHashSet)
  | sparseS (m : Int2ByteHashMap)
  | fullS (bv : BitVector)
deriving DecidableEq, Repr

/-- The `Hll` struct of part_001; `float64` members are exact rationals. -/
structure Hll where
  storage : HllStorage
  log2m : Nat
  regwidth : Nat
  explicitOff : Bool
  explicitAuto : Bool
  explicitThreshold : Nat
  shortWordLength : Nat
  sparseOff : Bool
  sparseThreshold : Nat
  m : Nat
  mBitsMask : Nat
  valueMask : Nat
  pwMaxMask : Nat
  alphaMSquared : ℚ
  smallEstimatorCutoff : ℚ
  largeEstimatorCutoff : ℚ
deriving DecidableEq, Repr

/-- The current type ordinal, determined by the active storage. -/
def Hll.hllType (h : Hll) : Nat :=
  match h.storage with
  | .emptyS => EMPTY
  | .explicitS _ => EXPLICIT
  | .sparseS _ => SPARSE
  | .fullS _ => FULL

/-- `Hll.initializeStorage`: install fresh storage for the given type
ordinal; any other ordinal (including `UNDEFINED = 0`) panics. -/
def Hll.initStorage (h : Hll) (hllType : Nat) : Res Hll :=
  if hllType = EMPTY then .ok { h with storage := .emptyS }
  else if hllType = EXPLICIT then .ok { h with storage := .explicitS NewLongHashSet }
  else if hllType = SPARSE then .ok { h with storage := .sparseS NewInt2ByteHashMap }
  else if hllType = FULL then
    .ok { h with storage := .fullS (NewBitVector h.regwidth h.m) }
  else .crash "Unsupported HLL type"

/-- `NewHll2`, parameterised by the current state of the global `TWO_TO_L`
table (Go reads the package-level array inside `largeEstimatorCutoff`).
`uint(math.Log2(x))` is `log2u x` (the float `log2` of these arguments
is nowhere near an integer from below, so the truncation is the floor). -/
def NewHll2 (tbl : TwoToL) (log2m regwidth : Nat) (expthresh : Int)
    (sparseon : Bool) (hllType : Nat) : Res Hll :=
  if log2m < 4 ∨ 30 < log2m then .err "log2m out of range"
  else if regwidth < 1 ∨ 8 < regwidth then .err "regwidth out of range"
  else
    let m := 1 <<< log2m
    let eRes : Res (Bool × Bool × Nat) :=
      if expthresh = -1 then
        let fullRepresentationSize := (regwidth * m + 7) / 8
        let numLongs := fullRepresentationSize / 8
        .ok (true, false,
          if numLongs > MAXIMUM_EXPLICIT_THRESHOLD then MAXIMUM_EXPLICIT_THRESHOLD
          else numLongs)
      else if expthresh = 0 then .ok (false, true, 0)
      else if 0 < expthresh ∧ expthresh ≤ 18 then
        .ok (false, false, 1 <<< (expthresh.toNat - 1))
      else .err "expthresh out of range"
    match eRes with
    | .err msg => .err msg
    | .crash msg => .crash msg
    | .ok (eAuto, eOff, eThresh) =>
      let shortWordLength := regwidth + log2m
      let sOff := !sparseon
      let sThresh := if sOff then 0 else 1 <<< (log2u (m * regwidth) / shortWordLength)
      let base : Hll :=
        { storage := .emptyS, log2m := log2m, regwidth := regwidth,
          explicitOff := eOff, explicitAuto := eAuto, explicitThreshold := eThresh,
          shortWordLength := shortWordLength, sparseOff := sOff,
          sparseThreshold := sThresh, m := m, mBitsMask := m - 1,
          valueMask := (1 <<< regwidth) - 1, pwMaxMask := pwMaxMask regwidth,
          alphaMSquared := alphaMSquared (m : ℚ),
          smallEstimatorCutoff := smallEstimatorCutoff m,
          largeEstimatorCutoff := largeEstimatorCutoff tbl log2m regwidth }
      base.initStorage hllType

/-- `NewHll`: the only constructor that calls `Init` (which populates the
global `TWO_TO_L` table), then delegates to `NewHll2(log2m, regwidth, -1,
true, EMPTY)`. -/
def NewHll (log2m regwidth : Nat) : Res Hll :=
  NewHll2 twoToLInit log2m regwidth (-1) true EMPTY

/-- The `p(w)` computation, textually identical in `addRawProbabilistic`
and `addRawSparseProbabilistic`: 0 for a zero substream, otherwise
`byte(1 + lsb(substream | pwMaxMask))`. -/
def Hll.pw (h : Hll) (rawValue : Nat) : Nat :=
  let substreamValue := rawValue >>> h.log2m
  if substreamValue = 0 then 0
  else (1 + leastSignificantBit (substreamValue ||| h.pwMaxMask)).toNat % 256

/-- The body of `addRawSparseProbabilistic` seen as the in-place update it
performs on the sparse map: put `p(w)` at the register index when it beats
the current value, otherwise leave the map untouched. -/
def Hll.sparseUpdate (h : Hll) (sp : Int2ByteHashMap) (rawValue : Nat) : Int2ByteHashMap :=
  let p_w := h.pw rawValue
  if p_w = 0 then sp
  else
    let j := rawValue &&& h.mBitsMask
    let currentValue := sp.get j
    if p_w > currentValue then sp.put j p_w else sp

/-- `Hll.addRawSparseProbabilistic` (callers guarantee SPARSE storage;
the non-SPARSE arm, a nil dereference in Go, is the identity here). -/
def Hll.addRawSparseProbabilistic (h : Hll) (rawValue : Nat) : Hll :=
  match h.storage with
  | .sparseS sp => { h with storage := .sparseS (h.sparseUpdate sp rawValue) }
  | _ => h

/-- The body of `addRawProbabilistic` seen as the in-place update it
performs on the bit vector: `setMaxRegister` unless `p(w)` is zero. -/
def Hll.fullUpdate (h : Hll) (bv : BitVector) (rawValue : Nat) : BitVector :=
  let p_w := h.pw rawValue
  if p_w = 0 then bv
  else
    let j := rawValue &&& h.mBitsMask
    (bv.setMaxRegister j p_w).1

/-- `Hll.addRawProbabilistic` (callers guarantee FULL storage). -/
def Hll.addRawProbabilistic (h : Hll) (rawValue : Nat) : Hll :=
  match h.storage with
  | .fullS bv => { h with storage := .fullS (h.fullUpdate bv rawValue) }
  | _ => h

/-- `Hll.Add` (part_001 lines 273–334): the four-state insertion with
promotion.  Promotion replays traverse the superseded table in its
iterator's order (`elems` / `entries`, descending slot order). -/
def Hll.add (h : Hll) (rawValue : Nat) : Hll :=
  match h.storage with
  | .emptyS =>
    if h.explicitThreshold > 0 then
      { h with storage := .explicitS (NewLongHashSet.add rawValue) }
    else if !h.sparseOff then
      Hll.addRawSparseProbabilistic { h with storage := .sparseS NewInt2ByteHashMap } rawValue
    else
      Hll.addRawProbabilistic
        { h with storage := .fullS (NewBitVector h.regwidth h.m) } rawValue
  | .explicitS es =>
    let es' := es.add rawValue
    if es'.size > h.explicitThreshold then
      if !h.sparseOff then
        es'.elems.foldl Hll.addRawSparseProbabilistic
          { h with storage := .sparseS NewInt2ByteHashMap }
      else
        es'.elems.foldl Hll.addRawProbabilistic
          { h with storage := .fullS (NewBitVector h.regwidth h.m) }
    else { h with storage := .explicitS es' }
  | .sparseS sp =>
    let sp' := h.sparseUpdate sp rawValue
    if sp'.size > h.sparseThreshold then
      let bv := sp'.entries.foldl
        (fun bv e => (bv.setMaxRegister e.1 (sp'.get e.1)).1)
        (NewBitVector h.regwidth h.m)
      { h with storage := .fullS bv }
    else { h with storage := .sparseS sp' }
  | .fullS _ => h.addRawProbabilistic rawValue

/-- `Hll.Cardinality` on the exact representations: 0 for EMPTY, the set
size for EXPLICIT.  The SPARSE/FULL estimates go through `float64`
transcendentals (`math.Log`) and are not given a numeric model; their
branch structure is modelled by `Hll.cardinalityBranch` below. -/
def Hll.cardinality (h : Hll) : Option Nat :=
  match h.storage with
  | .emptyS => some 0
  | .explicitS es => some es.size
  | _ => none

/-- `Hll.homogeneousUnion` (same-type merge; the mixed arms are never
reached because `Union` dispatches on equal type ordinals). -/
def Hll.homogeneousUnion (h other : Hll) : Hll :=
  match h.storage, other.storage with
  | .emptyS, _ => h
  | .explicitS _, .explicitS oes => oes.elems.foldl Hll.add h
  | .sparseS sp, .sparseS osp =>
    let sp' := osp.entries.foldl (fun acc e =>
      let registerValue := osp.get e.1
      let currentRegisterValue := acc.get e.1
      if registerValue > currentRegisterValue then acc.put e.1 registerValue
      else acc) sp
    if sp'.size > h.sparseThreshold then
      let bv := sp'.entries.foldl
        (fun bv e => (bv.setMaxRegister e.1 (sp'.get e.1)).1)
        (NewBitVector h.regwidth h.m)
      { h with storage := .fullS bv }
    else { h with storage := .sparseS sp' }
  | .fullS bv, .fullS obv =>
    let bv' := (List.range h.m).foldl
      (fun acc i => (acc.setMaxRegister i (obv.getRegister i)).1) bv
    { h with storage := .fullS bv' }
  | _, _ => h

/-- `Hll.heterogenousUnion` (part_001 lines 578–745), arm by arm.  The
same-type arms are never reached (the dispatcher sends those to the
homogeneous union). -/
def Hll.heterogenousUnion (h other : Hll) : Hll :=
  match h.storage, other.storage with
  | .emptyS, .explicitS oes =>
    if oes.size ≤ h.explicitThreshold then
      { h with storage := .explicitS oes.Clone }
    else
      let h' : Hll :=
        if !h.sparseOff then { h with storage := .sparseS NewInt2ByteHashMap }
        else { h with storage := .fullS (NewBitVector h.regwidth h.m) }
      oes.elems.foldl Hll.add h'
  | .emptyS, .sparseS osp =>
    if !h.sparseOff then { h with storage := .sparseS osp.Clone }
    else
      let bv := osp.entries.foldl
        (fun bv e => (bv.setMaxRegister e.1 (osp.get e.1)).1)
        (NewBitVector h.regwidth h.m)
      { h with storage := .fullS bv }
  | .emptyS, .fullS obv => { h with storage := .fullS obv.Clone }
  | .emptyS, .emptyS => h
  | _, .emptyS => h
  | .explicitS es, .sparseS osp =>
    let h' : Hll :=
      if !h.sparseOff then { h with storage := .sparseS osp.Clone }
      else
        let bv := osp.entries.foldl
          (fun bv e => (bv.setMaxRegister e.1 (osp.get e.1)).1)
          (NewBitVector h.regwidth h.m)
        { h with storage := .fullS bv }
    es.elems.foldl Hll.add h'
  | .explicitS es, .fullS obv =>
    es.elems.foldl Hll.add { h with storage := .fullS obv.Clone }
  | .explicitS _, .explicitS _ => h
  | .sparseS _, .explicitS oes => oes.elems.foldl Hll.add h
  | .sparseS sp, .fullS obv =>
    let bv := sp.entries.foldl
      (fun bv e => (bv.setMaxRegister e.1 (sp.get e.1)).1) obv.Clone
    { h with storage := .fullS bv }
  | .sparseS _, .sparseS _ => h
  | .fullS _, .explicitS oes => oes.elems.foldl Hll.add h
  | .fullS bv, .sparseS osp =>
    let bv' := osp.entries.foldl
      (fun acc e => (acc.setMaxRegister e.1 (osp.get e.1)).1) bv
    { h with storage := .fullS bv' }
  | .fullS _, .fullS _ => h

/-- `Hll.Union`: no compatibility check of any kind — dispatch on whether
the type ordinals agree and merge. -/
def Hll.union (h other : Hll) : Hll :=
  if h.hllType = other.hllType then h.homogeneousUnion other
  else h.heterogenousUnion other

/-- Modelled from the spec: `NewBitVectorIterator` (used by the FULL case
of `Hll.ToBytes`) is not among the files under src/.  Spec §4.H: "FULL: one
`regwidth`-bit word per register, in ascending register-index order
(produced by iterating the BitVector)". -/
def BitVector.registersAsc (bv : BitVector) : List Nat :=
  (List.range bv.count).map bv.getRegister

/-- `writeMetadata` (schema_version.go lines 228–243): pack the three
header bytes in place.  For a non-auto, non-off threshold (always a power
of two) `int(math.Log2(t) + 1) = log2u t + 1` exactly. -/
def writeMetadata (bytes : List Nat) (h : Hll) : List Nat :=
  let explicitCutoffValue : Nat :=
    if h.explicitOff then EXPLICIT_OFF
    else if h.explicitAuto then EXPLICIT_AUTO
    else log2u h.explicitThreshold + 1
  ((bytes.set 0 (packVersionByte SCHEMA_VERSION h.hllType)).set 1
    (packParametersByte h.regwidth h.log2m)).set 2
    (packCutoffByte explicitCutoffValue (!h.sparseOff))

/-- The `for it.HasNext() { serializer.writeWord(it.Next()) }` loop of the
EXPLICIT arm of `ToBytes`.  `HasNext` is `c ≠ 0` and each `Next`
decrements `c`, so fuel `c` runs the loop to completion; exhaustion
(`none`) is unreachable for the fuel the caller supplies. -/
def LongHashSet.iterWriteLoop (s : LongHashSet) :
    Nat → LongHashSetIterator → bigEndianAscendingWordSerializer →
    Option bigEndianAscendingWordSerializer
  | 0, it, ser => if it.c = 0 then some ser else none
  | fuel + 1, it, ser =>
    if it.c = 0 then some ser
    else match LongHashSetIterator.next s it with
      | none => none
      | some (k, it') => s.iterWriteLoop fuel it' (ser.writeWord k)

/-- The EXPLICIT arm of `Hll.ToBytes`: a serializer promised
`size` 64-bit words, filled by the `HasNext`-guarded iterator loop.  The
loop is driven by the iterator's counter (initialised to `size`), not by
the table occupancy, so it always writes exactly `size` words — including
the junk word the iterator emits when the rehash off-by-one has left only
`size - 1` occupied slots. -/
def explicitToBytesPayload (es : LongHashSet) : Option (List Nat) :=
  match NewLongHashSetIterator es with
  | none => none
  | some it =>
    (es.iterWriteLoop it.c it
      (newBigEndianAscendingWordSerializer 64 es.size)).bind
      bigEndianAscendingWordSerializer.getBytes

/-- `Hll.ToBytes`: serialize the payload for the active representation,
then write the three header bytes.  `none` models the (unreachable)
`getBytes` panic. -/
def Hll.toBytes (h : Hll) : Option (List Nat) :=
  let payload : Option (List Nat) :=
    match h.storage with
    | .emptyS => some (List.replicate HEADER_BYTE_COUNT 0)
    | .explicitS es => explicitToBytesPayload es
    | .sparseS sp =>
      (sp.entries.foldl (fun ser e =>
        let registerValue := sp.get e.1
        ser.writeWord ((e.1 <<< h.regwidth) ||| registerValue))
        (newBigEndianAscendingWordSerializer h.shortWordLength sp.size)).getBytes
    | .fullS bv =>
      (bv.registersAsc.foldl bigEndianAscendingWordSerializer.writeWord
        (newBigEndianAscendingWordSerializer h.regwidth h.m)).getBytes
  payload.map (fun b => writeMetadata b h)

/-- `NewHllFromBytes` (part_001 lines 832–937), parameterised by the state
of the global `TWO_TO_L` table: this constructor does NOT call `Init`; it
delegates directly to `NewHll2`. -/
def NewHllFromBytes (tbl : TwoToL) (bytes : List Nat) : Res Hll :=
  if bytes.length < HEADER_BYTE_COUNT then .err "too short bytes"
  else
    let versionByte := bytes.getD 0 0
    let parametersByte := bytes.getD 1 0
    let cutoffByte := bytes.getD 2 0
    let hType := typeOrdinal versionByte
    let explicitCutoffValue := explicitCutoff cutoffByte
    let eOff := explicitCutoffValue = EXPLICIT_OFF
    let eAuto := explicitCutoffValue = EXPLICIT_AUTO
    let log2ExplicitCutoff : Int :=
      if eOff ∨ eAuto then -1 else (explicitCutoffValue : Int) - 1
    let rw := registerWidth parametersByte
    let l2m := registerCountLog2 parametersByte
    let sparseon := sparseEnabled cutoffByte
    let expthresh : Int :=
      if eAuto then -1 else if eOff then 0 else log2ExplicitCutoff + 1
    match NewHll2 tbl l2m rw expthresh sparseon hType with
    | .err msg => .err msg
    | .crash msg => .crash msg
    | .ok hll =>
      if hll.hllType = EMPTY then .ok hll
      else
        let wordLength :=
          match hll.storage with
          | .explicitS _ => 64
          | .sparseS _ => hll.shortWordLength
          | _ => hll.regwidth
        let d := newBigEndianAscendingWordDeserializer wordLength HEADER_BYTE_COUNT bytes
        match (List.range d.wordCount).mapM d.readWord2 with
        | none => .crash "Word out of bounds of backing array."
        | some ws =>
          match hll.storage with
          | .explicitS es =>
            .ok { hll with storage := .explicitS (ws.foldl LongHashSet.add es) }
          | .sparseS sp =>
            .ok { hll with storage := .sparseS (ws.foldl (fun acc shortWord =>
              let registerValue := shortWord &&& hll.valueMask
              if registerValue ≠ 0 then acc.put (shortWord >>> hll.regwidth) registerValue
              else acc) sp) }
          | .fullS bv =>
            let bv' := ws.enum.foldl (fun acc iw => acc.setRegister iw.1 iw.2) bv
            .ok { hll with storage := .fullS bv' }
          | .emptyS => .ok hll

/-! ### Rank monotonicity (C5) -/

/-- `addRawSparseProbabilistic` never changes the representation type. -/
theorem addRawSparse_hllType (h : Hll) (v : Nat) :
    (h.addRawSparseProbabilistic v).hllType = h.hllType := by
  obtain ⟨st, _, _, _, _, _, _, _, _, _, _, _, _, _, _, _⟩ := h
  cases st <;> rfl

/-- `addRawProbabilistic` never changes the representation type. -/
theorem addRawProb_hllType (h : Hll) (v : Nat) :
    (h.addRawProbabilistic v).hllType = h.hllType := by
  obtain ⟨st, _, _, _, _, _, _, _, _, _, _, _, _, _, _, _⟩ := h
  cases st <;> rfl

/-- Replaying a list of hashes through `addRawSparseProbabilistic` keeps
the representation type. -/
theorem foldl_addRawSparse_hllType (l : List Nat) (h : Hll) :
    (l.foldl Hll.addRawSparseProbabilistic h).hllType = h.hllType := by
  induction l generalizing h with
  | nil => rfl
  | cons x xs ih => rw [List.foldl_cons, ih, addRawSparse_hllType]

/-- Replaying a list of hashes through `addRawProbabilistic` keeps the
representation type. -/
theorem foldl_addRawProb_hllType (l : List Nat) (h : Hll) :
    (l.foldl Hll.addRawProbabilistic h).hllType = h.hllType := by
  induction l generalizing h with
  | nil => rfl
  | cons x xs ih => rw [List.foldl_cons, ih, addRawProb_hllType]

/-- A single `Add` never lowers the representation type ordinal. -/
theorem add_hllType_mono (h : Hll) (v : Nat) : h.hllType ≤ (h.add v).hllType := by
  obtain ⟨st, l2, rw', eo, ea, et, swl, so, sth, mm, mb, vm, pm, am, sc, lc⟩ := h
  cases st with
  | emptyS =>
    dsimp only [Hll.add]
    split
    · dsimp only [Hll.hllType]; decide
    · split
      · rw [addRawSparse_hllType]; dsimp only [Hll.hllType]; decide
      · rw [addRawProb_hllType]; dsimp only [Hll.hllType]; decide
  | explicitS es =>
    dsimp only [Hll.add]
    split
    · split
      · rw [foldl_addRawSparse_hllType]; dsimp only [Hll.hllType]; decide
      · rw [foldl_addRawProb_hllType]; dsimp only [Hll.hllType]; decide
    · exact le_refl _
  | sparseS sp =>
    dsimp only [Hll.add]
    split
    · dsimp only [Hll.hllType]; decide
    · exact le_refl _
  | fullS bv =>
    dsimp only [Hll.add]
    rw [addRawProb_hllType]

/-- Replaying a list of hashes through `Add` never lowers the type. -/
theorem foldl_add_hllType_mono (l : List Nat) (h : Hll) :
    h.hllType ≤ (l.foldl Hll.add h).hllType := by
  induction l generalizing h with
  | nil => exact le_refl _
  | cons x xs ih =>
    exact le_trans (add_hllType_mono h x) (ih _)

/-- `homogeneousUnion` never lowers the destination's type ordinal. -/
theorem homogeneousUnion_hllType_mono (h other : Hll) :
    h.hllType ≤ (h.homogeneousUnion other).hllType := by
  obtain ⟨st, l2, rw', eo, ea, et, swl, so, sth, mm, mb, vm, pm, am, sc, lc⟩ := h
  obtain ⟨ost, _, _, _, _, _, _, _, _, _, _, _, _, _, _, _⟩ := other
  cases st <;> cases ost <;> dsimp only [Hll.homogeneousUnion] <;>
    first
    | exact le_refl _
    | exact foldl_add_hllType_mono _ _
    | (split
       · dsimp only [Hll.hllType]; decide
       · exact le_refl _)

/-- `heterogenousUnion` never lowers the destination's type ordinal. -/
theorem heterogenousUnion_hllType_mono (h other : Hll) :
    h.hllType ≤ (h.heterogenousUnion other).hllType := by
  obtain ⟨st, l2, rw', eo, ea, et, swl, so, sth, mm, mb, vm, pm, am, sc, lc⟩ := h
  obtain ⟨ost, _, _, _, _, _, _, _, _, _, _, _, _, _, _, _⟩ := other
  cases st with
  | emptyS =>
    cases ost with
    | emptyS => exact le_refl _
    | explicitS oes =>
      dsimp only [Hll.heterogenousUnion]
      split
      · dsimp only [Hll.hllType]; decide
      · refine le_trans ?_ (foldl_add_hllType_mono _ _)
        split <;> (dsimp only [Hll.hllType]; decide)
    | sparseS osp =>
      dsimp only [Hll.heterogenousUnion]
      split <;> (dsimp only [Hll.hllType]; decide)
    | fullS obv => dsimp only [Hll.heterogenousUnion, Hll.hllType]; decide
  | explicitS es =>
    cases ost with
    | emptyS => exact le_refl _
    | explicitS _ => exact le_refl _
    | sparseS osp =>
      dsimp only [Hll.heterogenousUnion]
      refine le_trans ?_ (foldl_add_hllType_mono _ _)
      split <;> (dsimp only [Hll.hllType]; decide)
    | fullS obv =>
      dsimp only [Hll.heterogenousUnion]
      refine le_trans ?_ (foldl_add_hllType_mono _ _)
      dsimp only [Hll.hllType]; decide
  | sparseS sp =>
    cases ost with
    | emptyS => exact le_refl _
    | explicitS oes => exact foldl_add_hllType_mono _ _
    | sparseS _ => exact le_refl _
    | fullS obv => dsimp only [Hll.heterogenousUnion, Hll.hllType]; decide
  | fullS bv =>
    cases ost with
    | emptyS => exact le_refl _
    | explicitS oes => exact foldl_add_hllType_mono _ _
    | sparseS osp => dsimp only [Hll.heterogenousUnion, Hll.hllType]; decide
    | fullS _ => exact le_refl _

/-- `Union` never lowers the destination's type ordinal. -/
theorem union_hllType_mono (h other : Hll) :
    h.hllType ≤ (h.union other).hllType := by
  unfold Hll.union
  split
  · exact homogeneousUnion_hllType_mono h other
  · exact heterogenousUnion_hllType_mono h other

/-- One mutating operation: an `Add` of a hash or a `Union` with another
estimator. -/
inductive HllOp where
  | addOp (v : Nat)
  | unionOp (o : Hll)

/-- Apply one operation. -/
def Hll.applyOp (h : Hll) : HllOp → Hll
  | .addOp v => h.add v
  | .unionOp o => h.union o

/-! ### Size accounting (C4) -/

/-- `getD` after `set` at a different index is unchanged. -/
theorem getD_set_ne {α : Type} (l : List α) (i j : Nat) (a d : α) (h : i ≠ j) :
    (l.set i a).getD j d = l.getD j d := by
  simp [List.getD_eq_getElem?_getD, List.getElem?_set_ne h]

/-- Changing the filter condition at (occurrences of) a single index grows
the filtered length by at most the index's multiplicity. -/
theorem filterMap_ite_length_le {α : Type} (l : List Nat) (p q : Nat → Bool)
    (f g : Nat → α) (pos : Nat) (hpq : ∀ x, x ≠ pos → q x = p x) :
    (l.filterMap (fun i => if q i then some (g i) else none)).length ≤
      (l.filterMap (fun i => if p i then some (f i) else none)).length + l.count pos := by
  induction l with
  | nil => simp
  | cons x xs ih =>
    simp only [List.filterMap_cons, List.count_cons]
    by_cases hx : x = pos
    · subst hx
      split <;> split <;> simp_all <;> omega
    · rw [hpq x hx]
      split <;> simp_all <;> omega

/-- The index list that `elems` traverses has no duplicate indices. -/
theorem count_range_reverse_le_one (n pos : Nat) :
    ((List.range n).reverse).count pos ≤ 1 := by
  have : ((List.range n).reverse).Nodup := List.nodup_reverse.2 (List.nodup_range n)
  exact List.nodup_iff_count_le_one.1 this pos

/-- `probeAdd` never touches the `size` field. -/
theorem LongHashSet.probeAdd_size (s : LongHashSet) (k : Nat) :
    ∀ fuel pos, ((s.probeAdd k fuel pos).1).size = s.size := by
  intro fuel
  induction fuel with
  | zero => intro pos; rfl
  | succ fuel ih =>
    intro pos
    unfold LongHashSet.probeAdd
    split
    · split
      · rfl
      · exact ih _
    · rfl

/-- A negative `probeAdd` leaves the set untouched. -/
theorem LongHashSet.probeAdd_false (s : LongHashSet) (k : Nat) :
    ∀ fuel pos, (s.probeAdd k fuel pos).2 = false → (s.probeAdd k fuel pos).1 = s := by
  intro fuel
  induction fuel with
  | zero => intro pos _; rfl
  | succ fuel ih =>
    intro pos
    unfold LongHashSet.probeAdd
    split
    · split
      · intro _; rfl
      · exact ih _
    · intro hcontra; cases hcontra

/-- A positive `probeAdd` changes only `key` and `used` (by a single
`set`). -/
theorem LongHashSet.probeAdd_true (s : LongHashSet) (k : Nat) :
    ∀ fuel pos, (s.probeAdd k fuel pos).2 = true →
      ∃ p, s.used.getD p false = false ∧
        (s.probeAdd k fuel pos).1 =
          { s with key := s.key.set p k, used := s.used.set p true } := by
  intro fuel
  induction fuel with
  | zero => intro pos hcontra; cases hcontra
  | succ fuel ih =>
    intro pos
    unfold LongHashSet.probeAdd
    split
    · split
      · intro hcontra; cases hcontra
      · exact ih _
    · rename_i hnot
      intro _
      exact ⟨pos, by simpa using hnot, rfl⟩

/-- `probeIns` never touches the `size` field. -/
theorem LongHashSet.probeIns_size (s : LongHashSet) (k : Nat) :
    ∀ fuel pos, (s.probeIns k fuel pos).size = s.size := by
  intro fuel
  induction fuel with
  | zero => intro pos; rfl
  | succ fuel ih =>
    intro pos
    unfold LongHashSet.probeIns
    split
    · exact ih _
    · rfl

/-- `probeIns` either leaves the set unchanged (fuel exhaustion) or does a
single `set` of `key` and `used`. -/
theorem LongHashSet.probeIns_shape (s : LongHashSet) (k : Nat) :
    ∀ fuel pos, (s.probeIns k fuel pos) = s ∨
      ∃ p, (s.probeIns k fuel pos) =
        { s with key := s.key.set p k, used := s.used.set p true } := by
  intro fuel
  induction fuel with
  | zero => intro pos; exact Or.inl rfl
  | succ fuel ih =>
    intro pos
    unfold LongHashSet.probeIns
    split
    · exact ih _
    · exact Or.inr ⟨pos, rfl⟩

/-- `elems` has the shape of a filter over the (duplicate-free) descending
index list, so a single `set` of `used`/`key` grows its length by at most
one. -/
theorem LongHashSet.elems_length_set (s : LongHashSet) (p k : Nat) :
    ({ s with key := s.key.set p k, used := s.used.set p true } : LongHashSet).elems.length ≤
      s.elems.length + 1 := by
  unfold LongHashSet.elems
  refine le_trans
    (filterMap_ite_length_le ((List.range s.n).reverse)
      (fun i => s.used.getD i false)
      (fun i => (s.used.set p true).getD i false)
      (fun i => s.key.getD i 0) (fun i => (s.key.set p k).getD i 0) p
      (fun x hx => getD_set_ne _ _ _ _ _ (fun he => hx he.symm))) ?_
  have := count_range_reverse_le_one s.n p
  beta_reduce
  omega

/-- Folding `probeIns` never touches the `size` field. -/
theorem foldl_probeIns_size (l : List Nat) (t : LongHashSet) :
    (l.foldl (fun t k => t.probeIns k t.n (murmur3Hash64 (k ^^^ t.mask) &&& t.mask)) t).size
      = t.size := by
  induction l generalizing t with
  | nil => rfl
  | cons x xs ih => rw [List.foldl_cons, ih, LongHashSet.probeIns_size]

/-- `rehash` never touches the `size` field. -/
theorem LongHashSet.rehash_size (s : LongHashSet) (newN : Nat) :
    (s.rehash newN).size = s.size := by
  unfold LongHashSet.rehash
  rw [foldl_probeIns_size]

/-- `getD` of an all-`false` list is `false` at every index. -/
theorem getD_replicate_false (n i : Nat) :
    (List.replicate n false).getD i false = false := by
  rcases Nat.lt_or_ge i n with hlt | hge
  · simp [List.getD_eq_getElem?_getD, List.getElem?_replicate, hlt]
  · simp [List.getD_eq_getElem?_getD, List.getElem?_replicate, Nat.not_lt.2 hge]

/-- A table whose `used` array is all-`false` has no elements. -/
theorem LongHashSet.elems_fresh (key : List Nat) (nn mf mk sz : Nat) :
    (⟨key, List.replicate nn false, nn, mf, mk, sz⟩ : LongHashSet).elems = [] := by
  simp [LongHashSet.elems, getD_replicate_false]

/-- Folding `probeIns` grows `elems` by at most one element per step. -/
theorem foldl_probeIns_elems_le (l : List Nat) (t : LongHashSet) :
    (l.foldl (fun t k => t.probeIns k t.n (murmur3Hash64 (k ^^^ t.mask) &&& t.mask)) t).elems.length
      ≤ t.elems.length + l.length := by
  induction l generalizing t with
  | nil => simp
  | cons x xs ih =>
    rw [List.foldl_cons]
    refine le_trans (ih _) ?_
    rcases LongHashSet.probeIns_shape t x t.n (murmur3Hash64 (x ^^^ t.mask) &&& t.mask) with
      heq | ⟨p, heq⟩
    · rw [heq]; simp
    · rw [heq]
      have := LongHashSet.elems_length_set t p x
      simp only [List.length_cons]
      omega

/-- After `rehash` at most `size` slots are occupied. -/
theorem LongHashSet.rehash_elems_le (s : LongHashSet) (newN : Nat) :
    (s.rehash newN).elems.length ≤ s.size := by
  unfold LongHashSet.rehash
  refine le_trans (foldl_probeIns_elems_le _ _) ?_
  rw [LongHashSet.elems_fresh]
  have := List.length_take_le s.size s.elemsAsc
  simp only [List.length_nil]
  omega

/-- `Add` grows `size` by at most one. -/
theorem LongHashSet.add_size_le (s : LongHashSet) (k : Nat) :
    (s.add k).size ≤ s.size + 1 := by
  unfold LongHashSet.add LongHashSet.addB
  have hsz := LongHashSet.probeAdd_size s k s.n (murmur3Hash64 (k ^^^ s.mask) &&& s.mask)
  rcases hp : s.probeAdd k s.n (murmur3Hash64 (k ^^^ s.mask) &&& s.mask) with ⟨s', b⟩
  rw [hp] at hsz
  dsimp only at hsz
  cases b
  · simp only [hp]
    omega
  · simp only [hp]
    split
    · rw [LongHashSet.rehash_size]; omega
    · omega

/-- Replacing only the `size` field leaves `elems` unchanged. -/
theorem LongHashSet.elems_set_size (t : LongHashSet) (x : Nat) :
    ({ t with size := x } : LongHashSet).elems = t.elems := rfl

/-- `Add` preserves the element-count accounting `|elems| ≤ size`. -/
theorem LongHashSet.add_elems_le (s : LongHashSet) (k : Nat)
    (hinv : s.elems.length ≤ s.size) :
    (s.add k).elems.length ≤ (s.add k).size := by
  unfold LongHashSet.add LongHashSet.addB
  have hsz := LongHashSet.probeAdd_size s k s.n (murmur3Hash64 (k ^^^ s.mask) &&& s.mask)
  rcases hp : s.probeAdd k s.n (murmur3Hash64 (k ^^^ s.mask) &&& s.mask) with ⟨s', b⟩
  rw [hp] at hsz
  dsimp only at hsz
  cases b
  · have := LongHashSet.probeAdd_false s k s.n (murmur3Hash64 (k ^^^ s.mask) &&& s.mask)
    rw [hp] at this
    simp only [hp]
    have h0 : s' = s := this rfl
    rw [h0]
    exact hinv
  · have hshape := LongHashSet.probeAdd_true s k s.n (murmur3Hash64 (k ^^^ s.mask) &&& s.mask)
    rw [hp] at hshape
    obtain ⟨p, _, hshape⟩ := hshape rfl
    dsimp only at hshape
    simp only [hp]
    split
    · rw [LongHashSet.elems_set_size]
      have h1 := LongHashSet.rehash_elems_le s' (arraySize (s'.size + 1))
      have h2 := LongHashSet.rehash_size s' (arraySize (s'.size + 1))
      omega
    · rw [LongHashSet.elems_set_size]
      have h1 : s'.elems.length ≤ s.elems.length + 1 := by
        rw [hshape]; exact LongHashSet.elems_length_set s p k
      omega

/-- `probePut` never touches the `size` field. -/
theorem Int2ByteHashMap.probePut_size (s : Int2ByteHashMap) (k v : Nat) :
    ∀ fuel pos, ((s.probePut k v fuel pos).1).size = s.size := by
  intro fuel
  induction fuel with
  | zero => intro pos; rfl
  | succ fuel ih =>
    intro pos
    unfold Int2ByteHashMap.probePut
    split
    · split
      · rfl
      · exact ih _
    · rfl

/-- `probeIns` (map version) never touches the `size` field. -/
theorem Int2ByteHashMap.probeInsPair_size (s : Int2ByteHashMap) (k v : Nat) :
    ∀ fuel pos, (s.probeIns k v fuel pos).size = s.size := by
  intro fuel
  induction fuel with
  | zero => intro pos; rfl
  | succ fuel ih =>
    intro pos
    unfold Int2ByteHashMap.probeIns
    split
    · exact ih _
    · rfl

/-- Folding the map's `probeIns` never touches the `size` field. -/
theorem foldl_probeInsMap_size (l : List (Nat × Nat)) (t : Int2ByteHashMap) :
    (l.foldl (fun t e => t.probeIns e.1 e.2 t.n (murmur3Hash32 (e.1 ^^^ t.mask) &&& t.mask)) t).size
      = t.size := by
  induction l generalizing t with
  | nil => rfl
  | cons x xs ih => rw [List.foldl_cons, ih, Int2ByteHashMap.probeInsPair_size]

/-- `rehash` (map version) never touches the `size` field. -/
theorem Int2ByteHashMap.rehashMap_size (s : Int2ByteHashMap) (newN : Nat) :
    (s.rehash newN).size = s.size := by
  unfold Int2ByteHashMap.rehash
  rw [foldl_probeInsMap_size]

/-- `put` grows `size` by at most one (an overwrite leaves it unchanged). -/
theorem Int2ByteHashMap.put_size_le (s : Int2ByteHashMap) (k v : Nat) :
    (s.put k v).size ≤ s.size + 1 := by
  unfold Int2ByteHashMap.put
  have hsz := Int2ByteHashMap.probePut_size s k v s.n (murmur3Hash32 (k ^^^ s.mask) &&& s.mask)
  rcases hp : s.probePut k v s.n (murmur3Hash32 (k ^^^ s.mask) &&& s.mask) with ⟨s', b⟩
  rw [hp] at hsz
  dsimp only at hsz
  cases b
  · simp only [hp]
    omega
  · simp only [hp]
    split
    · rw [Int2ByteHashMap.rehashMap_size]; omega
    · omega

/-- The size-accounting invariant of the amended C4 claim: the EXPLICIT
set never exceeds `explicitThreshold` (and its occupied slots are bounded
by its `size` field); the SPARSE map never exceeds
`max sparseThreshold (explicitThreshold + 1)` — the weakening by
`explicitThreshold + 1` is forced by the EXPLICIT → SPARSE promotion
replay, which performs no sparse-threshold check. -/
def Hll.sizeInvB (h : Hll) : Bool :=
  match h.storage with
  | .explicitS es =>
    decide (es.size ≤ h.explicitThreshold) && decide (es.elems.length ≤ es.size)
  | .sparseS sp =>
    decide (sp.size ≤ max h.sparseThreshold (h.explicitThreshold + 1))
  | _ => true

/-- One sparse insertion grows the map by at most one entry. -/
theorem Hll.sparseUpdate_size_le (h : Hll) (sp : Int2ByteHashMap) (v : Nat) :
    (h.sparseUpdate sp v).size ≤ sp.size + 1 := by
  unfold Hll.sparseUpdate
  dsimp only
  split
  · omega
  · split
    · exact Int2ByteHashMap.put_size_le _ _ _
    · omega

/-- A replay through `addRawSparseProbabilistic` only rewrites the sparse
map, growing it by at most one entry per replayed hash. -/
theorem foldl_addRawSparse_shape (l : List Nat) (h : Hll) (sp : Int2ByteHashMap)
    (hs : h.storage = .sparseS sp) :
    ∃ sp', (l.foldl Hll.addRawSparseProbabilistic h) = { h with storage := .sparseS sp' } ∧
      sp'.size ≤ sp.size + l.length := by
  induction l generalizing h sp with
  | nil =>
    refine ⟨sp, ?_, by omega⟩
    obtain ⟨st, l2, rw', eo, ea, et, swl, so, sth, mm, mb, vm, pm, am, sc, lc⟩ := h
    cases hs
    rfl
  | cons x xs ih =>
    rw [List.foldl_cons]
    obtain ⟨st, l2, rw', eo, ea, et, swl, so, sth, mm, mb, vm, pm, am, sc, lc⟩ := h
    cases hs
    obtain ⟨sp', heq, hle⟩ := ih
      (Hll.addRawSparseProbabilistic
        ⟨HllStorage.sparseS sp, l2, rw', eo, ea, et, swl, so, sth, mm, mb, vm, pm, am, sc, lc⟩ x)
      (Hll.sparseUpdate
        ⟨HllStorage.sparseS sp, l2, rw', eo, ea, et, swl, so, sth, mm, mb, vm, pm, am, sc, lc⟩ sp x)
      rfl
    refine ⟨sp', heq, ?_⟩
    have := Hll.sparseUpdate_size_le
      ⟨HllStorage.sparseS sp, l2, rw', eo, ea, et, swl, so, sth, mm, mb, vm, pm, am, sc, lc⟩ sp x
    simp only [List.length_cons]
    omega

/-- A replay through `addRawProbabilistic` only rewrites the bit vector. -/
theorem foldl_addRawProb_shape (l : List Nat) (h : Hll) (bv : BitVector)
    (hs : h.storage = .fullS bv) :
    ∃ bv', (l.foldl Hll.addRawProbabilistic h) = { h with storage := .fullS bv' } := by
  induction l generalizing h bv with
  | nil =>
    refine ⟨bv, ?_⟩
    obtain ⟨st, l2, rw', eo, ea, et, swl, so, sth, mm, mb, vm, pm, am, sc, lc⟩ := h
    cases hs
    rfl
  | cons x xs ih =>
    rw [List.foldl_cons]
    obtain ⟨st, l2, rw', eo, ea, et, swl, so, sth, mm, mb, vm, pm, am, sc, lc⟩ := h
    cases hs
    exact ih
      (Hll.addRawProbabilistic
        ⟨HllStorage.fullS bv, l2, rw', eo, ea, et, swl, so, sth, mm, mb, vm, pm, am, sc, lc⟩ x)
      (Hll.fullUpdate
        ⟨HllStorage.fullS bv, l2, rw', eo, ea, et, swl, so, sth, mm, mb, vm, pm, am, sc, lc⟩ bv x)
      rfl

/-- `Add` preserves the size-accounting invariant. -/
theorem add_sizeInvB (h : Hll) (v : Nat) (hinv : h.sizeInvB = true) :
    (h.add v).sizeInvB = true := by
  obtain ⟨st, l2, rw', eo, ea, et, swl, so, sth, mm, mb, vm, pm, am, sc, lc⟩ := h
  cases st with
  | emptyS =>
    dsimp only [Hll.add]
    split
    · rename_i hpos
      simp only [Hll.sizeInvB, Bool.and_eq_true, decide_eq_true_eq]
      have h1 := LongHashSet.add_size_le NewLongHashSet v
      have h2 := LongHashSet.add_elems_le NewLongHashSet v (by decide)
      have hz : NewLongHashSet.size = 0 := rfl
      exact ⟨by omega, h2⟩
    · split
      · have hstep : Hll.addRawSparseProbabilistic
            ⟨HllStorage.sparseS NewInt2ByteHashMap, l2, rw', eo, ea, et, swl, so, sth,
              mm, mb, vm, pm, am, sc, lc⟩ v =
            ⟨HllStorage.sparseS (Hll.sparseUpdate
              ⟨HllStorage.sparseS NewInt2ByteHashMap, l2, rw', eo, ea, et, swl, so, sth,
                mm, mb, vm, pm, am, sc, lc⟩ NewInt2ByteHashMap v), l2, rw', eo, ea, et,
              swl, so, sth, mm, mb, vm, pm, am, sc, lc⟩ := rfl
        rw [hstep]
        simp only [Hll.sizeInvB, decide_eq_true_eq]
        have h1 := Hll.sparseUpdate_size_le
          ⟨HllStorage.sparseS NewInt2ByteHashMap, l2, rw', eo, ea, et, swl, so, sth,
            mm, mb, vm, pm, am, sc, lc⟩ NewInt2ByteHashMap v
        have hz : NewInt2ByteHashMap.size = 0 := rfl
        have hx : (Hll.sparseUpdate
            ⟨HllStorage.sparseS NewInt2ByteHashMap, l2, rw', eo, ea, et, swl, so, sth,
              mm, mb, vm, pm, am, sc, lc⟩ NewInt2ByteHashMap v).size ≤ et + 1 := by omega
        exact le_trans hx (le_max_right sth (et + 1))
      · rfl
  | explicitS es =>
    dsimp only [Hll.add]
    have hinv' : es.size ≤ et ∧ es.elems.length ≤ es.size := by
      simpa [Hll.sizeInvB, Bool.and_eq_true, decide_eq_true_eq] using hinv
    have hes1 := LongHashSet.add_size_le es v
    have hes2 := LongHashSet.add_elems_le es v hinv'.2
    split
    · rename_i hover
      split
      · obtain ⟨sp', heq, hle⟩ := foldl_addRawSparse_shape (es.add v).elems
          ⟨HllStorage.sparseS NewInt2ByteHashMap, l2, rw', eo, ea, et, swl, so, sth,
            mm, mb, vm, pm, am, sc, lc⟩ NewInt2ByteHashMap rfl
        rw [heq]
        simp only [Hll.sizeInvB, decide_eq_true_eq]
        have hz : NewInt2ByteHashMap.size = 0 := rfl
        have hx : sp'.size ≤ et + 1 := by omega
        exact le_trans hx (le_max_right sth (et + 1))
      · obtain ⟨bv', heq⟩ := foldl_addRawProb_shape (es.add v).elems
          ⟨HllStorage.fullS (NewBitVector rw' mm), l2, rw', eo, ea, et, swl, so, sth,
            mm, mb, vm, pm, am, sc, lc⟩ (NewBitVector rw' mm) rfl
        rw [heq]
        rfl
    · rename_i hnot
      simp only [Hll.sizeInvB, Bool.and_eq_true, decide_eq_true_eq]
      exact ⟨by omega, hes2⟩
  | sparseS sp =>
    dsimp only [Hll.add]
    split
    · rfl
    · rename_i hnot
      simp only [Hll.sizeInvB, decide_eq_true_eq]
      have hx : (Hll.sparseUpdate
          ⟨HllStorage.sparseS sp, l2, rw', eo, ea, et, swl, so, sth,
            mm, mb, vm, pm, am, sc, lc⟩ sp v).size ≤ sth := by omega
      exact le_trans hx (le_max_left sth (et + 1))
  | fullS bv =>
    dsimp only [Hll.add]
    rfl

/-- Replaying a list of hashes through `Add` preserves the invariant. -/
theorem foldl_add_sizeInvB (l : List Nat) (h : Hll) (hinv : h.sizeInvB = true) :
    (l.foldl Hll.add h).sizeInvB = true := by
  induction l generalizing h with
  | nil => exact hinv
  | cons x xs ih =>
    rw [List.foldl_cons]
    exact ih _ (add_sizeInvB h x hinv)

/-- `homogeneousUnion` preserves the size-accounting invariant when the
operands' thresholds agree. -/
theorem homogeneousUnion_sizeInvB (h o : Hll) (hinv : h.sizeInvB = true)
    (hst : o.sparseThreshold = h.sparseThreshold) :
    (h.homogeneousUnion o).sizeInvB = true := by
  obtain ⟨st, l2, rw', eo, ea, et, swl, so, sth, mm, mb, vm, pm, am, sc, lc⟩ := h
  obtain ⟨ost, ol2, orw, oeo, oea, oet, oswl, oso, osth, omm, omb, ovm, opm, oam, osc, olc⟩ := o
  cases st <;> cases ost <;> dsimp only [Hll.homogeneousUnion] <;>
    first
    | exact hinv
    | exact foldl_add_sizeInvB _ _ hinv
    | (split
       · rfl
       · rename_i hnot
         simp only [Hll.sizeInvB, decide_eq_true_eq]
         exact le_trans (by omega) (le_max_left sth (et + 1)))
    | rfl

/-- `heterogenousUnion` preserves the size-accounting invariant when the
operands' thresholds agree. -/
theorem heterogenousUnion_sizeInvB (h o : Hll) (hinv : h.sizeInvB = true)
    (oinv : o.sizeInvB = true) (het : o.explicitThreshold = h.explicitThreshold)
    (hst : o.sparseThreshold = h.sparseThreshold) :
    (h.heterogenousUnion o).sizeInvB = true := by
  obtain ⟨st, l2, rw', eo, ea, et, swl, so, sth, mm, mb, vm, pm, am, sc, lc⟩ := h
  obtain ⟨ost, ol2, orw, oeo, oea, oet, oswl, oso, osth, omm, omb, ovm, opm, oam, osc, olc⟩ := o
  dsimp only at het hst
  cases st with
  | emptyS =>
    cases ost with
    | emptyS => exact hinv
    | explicitS oes =>
      have oinv' : oes.size ≤ oet ∧ oes.elems.length ≤ oes.size := by
        simpa [Hll.sizeInvB, Bool.and_eq_true, decide_eq_true_eq] using oinv
      dsimp only [Hll.heterogenousUnion]
      split
      · rename_i hle
        simp only [Hll.sizeInvB, Bool.and_eq_true, decide_eq_true_eq]
        exact ⟨hle, oinv'.2⟩
      · refine foldl_add_sizeInvB _ _ ?_
        split
        · simp only [Hll.sizeInvB, decide_eq_true_eq]
          have hz : NewInt2ByteHashMap.size = 0 := rfl
          rw [hz]
          exact Nat.zero_le _
        · rfl
    | sparseS osp =>
      have oinv' : osp.size ≤ max osth (oet + 1) := by
        simpa [Hll.sizeInvB, decide_eq_true_eq] using oinv
      dsimp only [Hll.heterogenousUnion]
      split
      · simp only [Hll.sizeInvB, decide_eq_true_eq]
        rw [het, hst] at oinv'
        exact oinv'
      · rfl
    | fullS obv => rfl
  | explicitS es =>
    cases ost with
    | emptyS => exact hinv
    | explicitS _ => exact hinv
    | sparseS osp =>
      have oinv' : osp.size ≤ max osth (oet + 1) := by
        simpa [Hll.sizeInvB, decide_eq_true_eq] using oinv
      dsimp only [Hll.heterogenousUnion]
      refine foldl_add_sizeInvB _ _ ?_
      split
      · simp only [Hll.sizeInvB, decide_eq_true_eq]
        rw [het, hst] at oinv'
        exact oinv'
      · rfl
    | fullS obv =>
      dsimp only [Hll.heterogenousUnion]
      exact foldl_add_sizeInvB _ _ rfl
  | sparseS sp =>
    cases ost with
    | emptyS => exact hinv
    | explicitS oes =>
      dsimp only [Hll.heterogenousUnion]
      exact foldl_add_sizeInvB _ _ hinv
    | sparseS _ => exact hinv
    | fullS obv => rfl
  | fullS bv =>
    cases ost with
    | emptyS => exact hinv
    | explicitS oes =>
      dsimp only [Hll.heterogenousUnion]
      exact foldl_add_sizeInvB _ _ hinv
    | sparseS osp => rfl
    | fullS _ => exact hinv

/-- `Union` preserves the size-accounting invariant for operands with
matching thresholds. -/
theorem union_sizeInvB (h o : Hll) (hinv : h.sizeInvB = true)
    (oinv : o.sizeInvB = true) (het : o.explicitThreshold = h.explicitThreshold)
    (hst : o.sparseThreshold = h.sparseThreshold) :
    (h.union o).sizeInvB = true := by
  unfold Hll.union
  split
  · exact homogeneousUnion_sizeInvB h o hinv hst
  · exact heterogenousUnion_sizeInvB h o hinv oinv het hst

/-! ### Idempotence of Add on present hashes (C6) -/

/-- `>>> 6` is division by 64. -/
theorem shr6 (x : Nat) : x >>> 6 = x / 64 := by
  rw [Nat.shiftRight_eq_div_pow]

/-- `&&& 63` is reduction mod 64. -/
theorem and63 (x : Nat) : x &&& 63 = x % 64 := by
  have h := Nat.and_pow_two_sub_one_eq_mod x 6
  norm_num at h
  exact h

/-- `getD` after `set` at the written index (when it is in range). -/
theorem getD_set_self {α : Type} (l : List α) (i : Nat) (a d : α)
    (h : i < l.length) : (l.set i a).getD i d = a := by
  rw [List.getD_eq_getElem?_getD, List.getElem?_set_self (by simpa using h)]
  rfl

/-- Every `getD` of a list of 64-bit words is a 64-bit value. -/
theorem getD_lt_of_all {l : List Nat} (hall : ∀ x ∈ l, x < 2 ^ 64) (i : Nat) :
    l.getD i 0 < 2 ^ 64 := by
  rcases Nat.lt_or_ge i l.length with hlt | hge
  · refine hall _ ?_
    rw [List.getD_eq_getElem?_getD, List.getElem?_eq_getElem (by simpa using hlt)]
    exact List.getElem_mem _
  · rw [List.getD_eq_getElem?_getD, List.getElem?_eq_none (by simpa using hge)]
    norm_num

/-- `getD_lt_of_all` in the `getElem?` normal form simp produces. -/
theorem getElem?_getD_lt_of_all {l : List Nat} (hall : ∀ x ∈ l, x < 2 ^ 64)
    (i : Nat) : (l[i]?).getD 0 < 2 ^ 64 := by
  have h := getD_lt_of_all hall i
  simpa [List.getD_eq_getElem?_getD] using h

/-- `getD` at an in-range index is the indexed element. -/
theorem getD_eq_getElem {α : Type} (l : List α) (k : Nat) (d : α)
    (h : k < l.length) : l.getD k d = l[k] := by
  rw [List.getD_eq_getElem?_getD, List.getElem?_eq_getElem (by simpa using h)]
  rfl


/-- Bit `t` of the big-endian bit stream carried by a byte buffer after
`pad` padding bytes: bits are MSB-first within each byte. -/
def byteBit (bs : List Nat) (pad t : Nat) : Bool :=
  (bs.getD (pad + t / 8) 0).testBit (7 - t % 8)

/-- Bit `t` of the stream a word sequence denotes: word `k` occupies
stream bits `k*w .. k*w + w - 1`, MSB first. -/
def wordsBit (w : Nat) (ws : List Nat) (t : Nat) : Bool :=
  (ws.getD (t / w) 0).testBit (w - 1 - t % w)

/-- The middle-byte loop of `readWord2` shifts the accumulator left one
byte per middle byte and ors the byte in: its bits are the accumulator's
bits above `8*cnt`, and the middle bytes' bits (most significant byte
first) below. -/
theorem middleBytesLoop_testBit (d : bigEndianAscendingWordDeserializer)
    (fbi : Nat) :
    ∀ (cnt i value n : Nat), value < 2 ^ n → n + 8 * cnt ≤ 64 →
      middleBytesLoop d fbi cnt i value < 2 ^ (n + 8 * cnt) ∧
      ∀ j, (middleBytesLoop d fbi cnt i value).testBit j =
        if 8 * cnt ≤ j then value.testBit (j - 8 * cnt)
        else (d.bytes.getD (fbi + i + 1 + (cnt - 1 - j / 8)) 0).testBit (j % 8) := by
  intro cnt
  induction cnt with
  | zero =>
    intro i value n hv hle
    refine ⟨by simpa using hv, fun j => ?_⟩
    rw [if_pos (Nat.zero_le j)]
    rfl
  | succ c ih =>
    intro i value n hv hle
    have hsh : value <<< 8 < 2 ^ (n + 8) := by
      rw [Nat.shiftLeft_eq, Nat.pow_add]
      exact Nat.mul_lt_mul_of_lt_of_le hv (le_refl _) (by norm_num)
    have hmod : (value <<< 8) % U64 = value <<< 8 := by
      rw [show U64 = 2 ^ 64 from rfl]
      exact Nat.mod_eq_of_lt (lt_of_lt_of_le hsh
        (Nat.pow_le_pow_right (by norm_num) (by omega)))
    have hv' : ((value <<< 8) % U64) |||
        (d.bytes.getD (fbi + i + 1) 0 &&& 255) < 2 ^ (n + 8) := by
      rw [hmod]
      refine Nat.or_lt_two_pow hsh (lt_of_le_of_lt Nat.and_le_right ?_)
      calc (255 : Nat) < 2 ^ 8 := by norm_num
        _ ≤ 2 ^ (n + 8) := Nat.pow_le_pow_right (by norm_num) (by omega)
    have hrec := ih (i + 1) _ (n + 8) hv' (by omega)
    refine ⟨?_, fun j => ?_⟩
    · have := hrec.1
      rw [show middleBytesLoop d fbi (c + 1) i value =
        middleBytesLoop d fbi c (i + 1) (((value <<< 8) % U64) |||
          (d.bytes.getD (fbi + i + 1) 0 &&& 255)) from rfl]
      exact lt_of_lt_of_le this (Nat.pow_le_pow_right (by norm_num) (by omega))
    · rw [show middleBytesLoop d fbi (c + 1) i value =
        middleBytesLoop d fbi c (i + 1) (((value <<< 8) % U64) |||
          (d.bytes.getD (fbi + i + 1) 0 &&& 255)) from rfl]
      rw [hrec.2 j]
      by_cases h1 : 8 * (c + 1) ≤ j
      · rw [if_pos (by omega), if_pos h1, hmod]
        simp only [Nat.testBit_or, Nat.testBit_shiftLeft, Nat.testBit_and]
        rw [show (255 : Nat) = 2 ^ 8 - 1 from rfl, Nat.testBit_two_pow_sub_one]
        have hb8 : ¬ j - 8 * c < 8 := by omega
        have h8le : 8 ≤ j - 8 * c := by omega
        have hidx : j - 8 * c - 8 = j - 8 * (c + 1) := by omega
        simp [h8le, hb8, hidx]
      · by_cases h2 : 8 * c ≤ j
        · rw [if_pos h2, if_neg h1, hmod]
          simp only [Nat.testBit_or, Nat.testBit_shiftLeft, Nat.testBit_and]
          rw [show (255 : Nat) = 2 ^ 8 - 1 from rfl,
            Nat.testBit_two_pow_sub_one]
          have hb8 : j - 8 * c < 8 := by omega
          have h8le : ¬ 8 ≤ j - 8 * c := by omega
          have hdiv : j / 8 = c := by omega
          have hbit : j % 8 = j - 8 * c := by omega
          simp [h8le, hb8, hdiv, hbit]
        · rw [if_neg h2, if_neg h1]
          rw [show fbi + (i + 1) + 1 + (c - 1 - j / 8) =
            fbi + i + 1 + (c + 1 - 1 - j / 8) from by omega]

/-- The deserializer's first-byte extraction: mask the low
`bitsRemainingInFirstByte` bits, keep the top `btc1` of them; the result
holds stream bits `B .. B + btc1 - 1`, MSB first. -/
theorem firstByte_testBit (bs : List Nat) (pad B btc1 blb1 : Nat)
    (h8 : blb1 = 8 - B % 8) (hbtc : btc1 ≤ blb1) :
    ∀ j, ((bs.getD (pad + B / 8) 0 &&& ((1 <<< blb1) - 1)) >>>
        (blb1 - btc1)).testBit j =
      (decide (j < btc1) && byteBit bs pad (B + (btc1 - 1 - j))) := by
  intro j
  rw [show (1 <<< blb1 : Nat) = 2 ^ blb1 from Nat.one_shiftLeft blb1]
  simp only [Nat.testBit_shiftRight, Nat.testBit_and,
    Nat.testBit_two_pow_sub_one]
  unfold byteBit
  by_cases hj : j < btc1
  · rw [show pad + (B + (btc1 - 1 - j)) / 8 = pad + B / 8 from by omega,
      show 7 - (B + (btc1 - 1 - j)) % 8 = blb1 - btc1 + j from by omega]
    simp [hj, show blb1 - btc1 + j < blb1 from by omega]
  · simp [hj, show ¬ blb1 - btc1 + j < blb1 from by omega]

/-- The deserializer's last-byte extraction: the top `lastBits` bits of the
byte holding stream bit `E`; the result holds stream bits
`E - lastBits + 1 .. E`, MSB first. -/
theorem lastByte_testBit (bs : List Nat) (pad E lastBits : Nat)
    (hE : lastBits = E % 8 + 1) :
    ∀ j, ((bs.getD (pad + E / 8) 0 &&& 255) >>> (8 - lastBits)).testBit j =
      (decide (j < lastBits) && byteBit bs pad (E - j)) := by
  intro j
  simp only [Nat.testBit_shiftRight, Nat.testBit_and]
  rw [show (255 : Nat) = 2 ^ 8 - 1 from rfl, Nat.testBit_two_pow_sub_one]
  unfold byteBit
  by_cases hj : j < lastBits
  · rw [show pad + (E - j) / 8 = pad + E / 8 from by omega,
      show 7 - (E - j) % 8 = 8 - lastBits + j from by omega]
    simp [hj, show 8 - lastBits + j < 8 from by omega]
  · simp [hj, show ¬ 8 - lastBits + j < 8 from by omega]

/-- `readWord2` succeeds exactly when the word's last byte is inside the
buffer, and the value it returns carries stream bits
`k*w .. k*w + w - 1`, MSB first. -/
theorem readWord2_spec (w pad : Nat) (bs : List Nat) (k : Nat)
    (hw1 : 1 ≤ w) (hw64 : w ≤ 64)
    (hlen : pad + (k * w + w - 1) / 8 < bs.length) :
    ∃ v, (newBigEndianAscendingWordDeserializer w pad bs).readWord2 k
        = some v ∧
      v < 2 ^ w ∧
      ∀ b, v.testBit b =
        (decide (b < w) && byteBit bs pad (k * w + (w - 1 - b))) := by
  unfold newBigEndianAscendingWordDeserializer
    bigEndianAscendingWordDeserializer.readWord2
  dsimp only
  rw [if_neg (by omega)]
  by_cases hone : pad + k * w / 8 = pad + (k * w + w - 1) / 8
  · rw [if_pos hone]
    have hfit : k * w % 8 + w ≤ 8 := by omega
    rw [if_neg (by omega)]
    have hchar := firstByte_testBit bs pad (k * w) w (8 - k * w % 8)
      rfl (by omega)
    refine ⟨_, rfl, ?_, fun b => hchar b⟩
    refine Nat.lt_pow_two_of_testBit _ (fun j hj => ?_)
    rw [hchar j]
    simp [show ¬ j < w from by omega]
  · rw [if_neg hone]
    have hmulti : 8 < k * w % 8 + w := by omega
    rw [if_pos (by omega)]
    rw [show (if (k * w + w - 1 + 1) % 8 = 0 then 8
        else (k * w + w - 1 + 1) % 8) = (k * w + w - 1) % 8 + 1 from by
      split <;> omega]
    have hfb := firstByte_testBit bs pad (k * w) (8 - k * w % 8)
      (8 - k * w % 8) rfl (le_refl _)
    have hfblt : (bs.getD (pad + k * w / 8) 0 &&&
        ((1 <<< (8 - k * w % 8)) - 1)) >>>
          (8 - k * w % 8 - (8 - k * w % 8)) < 2 ^ (8 - k * w % 8) := by
      refine Nat.lt_pow_two_of_testBit _ (fun j hj => ?_)
      rw [hfb j]
      simp [show ¬ j < 8 - k * w % 8 from by omega]
    have harith : 8 - k * w % 8 +
        8 * (pad + (k * w + w - 1) / 8 - (pad + k * w / 8) - 1) +
        ((k * w + w - 1) % 8 + 1) = w := by omega
    have hmb := middleBytesLoop_testBit
      ⟨w, bs, pad, (bs.length - pad) * 8 / w⟩ (pad + k * w / 8)
      (pad + (k * w + w - 1) / 8 - (pad + k * w / 8) - 1) 0
      ((bs.getD (pad + k * w / 8) 0 &&& ((1 <<< (8 - k * w % 8)) - 1)) >>>
        (8 - k * w % 8 - (8 - k * w % 8)))
      (8 - k * w % 8) hfblt (by omega)
    dsimp only at hmb
    obtain ⟨hvlt, hvbit⟩ := hmb
    have hlb := lastByte_testBit bs pad (k * w + w - 1)
      ((k * w + w - 1) % 8 + 1) rfl
    have hlblt : (bs.getD (pad + (k * w + w - 1) / 8) 0 &&& 255) >>>
        (8 - ((k * w + w - 1) % 8 + 1)) < 2 ^ ((k * w + w - 1) % 8 + 1) := by
      refine Nat.lt_pow_two_of_testBit _ (fun j hj => ?_)
      rw [hlb j]
      simp [show ¬ j < (k * w + w - 1) % 8 + 1 from by omega]
    have hshift : (middleBytesLoop
        ⟨w, bs, pad, (bs.length - pad) * 8 / w⟩ (pad + k * w / 8)
        (pad + (k * w + w - 1) / 8 - (pad + k * w / 8) - 1) 0
        ((bs.getD (pad + k * w / 8) 0 &&& ((1 <<< (8 - k * w % 8)) - 1)) >>>
          (8 - k * w % 8 - (8 - k * w % 8)))) <<<
        ((k * w + w - 1) % 8 + 1) < 2 ^ w := by
      rw [Nat.shiftLeft_eq]
      calc _ < 2 ^ (8 - k * w % 8 +
          8 * (pad + (k * w + w - 1) / 8 - (pad + k * w / 8) - 1)) *
          2 ^ ((k * w + w - 1) % 8 + 1) :=
        Nat.mul_lt_mul_of_lt_of_le hvlt (le_refl _) (Nat.pow_pos (by norm_num))
      _ = 2 ^ w := by rw [← Nat.pow_add, harith]
    have hmod : (middleBytesLoop
        ⟨w, bs, pad, (bs.length - pad) * 8 / w⟩ (pad + k * w / 8)
        (pad + (k * w + w - 1) / 8 - (pad + k * w / 8) - 1) 0
        ((bs.getD (pad + k * w / 8) 0 &&& ((1 <<< (8 - k * w % 8)) - 1)) >>>
          (8 - k * w % 8 - (8 - k * w % 8)))) <<<
        ((k * w + w - 1) % 8 + 1) % U64 = _ := Nat.mod_eq_of_lt
      (lt_of_lt_of_le hshift (by
        rw [show U64 = 2 ^ 64 from rfl]
        exact Nat.pow_le_pow_right (by norm_num) hw64))
    refine ⟨_, rfl, ?_, ?_⟩
    · rw [hmod]
      exact Nat.or_lt_two_pow hshift (lt_of_lt_of_le hlblt
        (Nat.pow_le_pow_right (by norm_num) (by omega)))
    · intro b
      rw [Nat.testBit_or, hmod, Nat.testBit_shiftLeft, hlb b]
      by_cases hbL : b < (k * w + w - 1) % 8 + 1
      · have h1 : ¬ (k * w + w - 1) % 8 + 1 ≤ b := by omega
        rw [show k * w + w - 1 - b = k * w + (w - 1 - b) from by omega]
        simp [hbL, h1, show b < w from by omega]
      · have h1 : (k * w + w - 1) % 8 + 1 ≤ b := by omega
        by_cases hbw : b < w
        · rw [hvbit (b - ((k * w + w - 1) % 8 + 1))]
          by_cases hmid : 8 * (pad + (k * w + w - 1) / 8 -
              (pad + k * w / 8) - 1) ≤ b - ((k * w + w - 1) % 8 + 1)
          · rw [if_pos hmid, hfb _]
            have hj : b - ((k * w + w - 1) % 8 + 1) -
                8 * (pad + (k * w + w - 1) / 8 - (pad + k * w / 8) - 1) <
                8 - k * w % 8 := by omega
            rw [show k * w + (8 - k * w % 8 - 1 -
                (b - ((k * w + w - 1) % 8 + 1) -
                  8 * (pad + (k * w + w - 1) / 8 - (pad + k * w / 8) - 1)))
              = k * w + (w - 1 - b) from by omega]
            simp [hbL, h1, hj, hbw]
          · rw [if_neg hmid]
            unfold byteBit
            rw [show pad + k * w / 8 + 0 + 1 +
                (pad + (k * w + w - 1) / 8 - (pad + k * w / 8) - 1 - 1 -
                  (b - ((k * w + w - 1) % 8 + 1)) / 8)
              = pad + (k * w + (w - 1 - b)) / 8 from by omega,
              show (b - ((k * w + w - 1) % 8 + 1)) % 8 =
                7 - (k * w + (w - 1 - b)) % 8 from by omega]
            simp [hbL, h1, hbw]
        · have hvfalse : (middleBytesLoop
              ⟨w, bs, pad, (bs.length - pad) * 8 / w⟩ (pad + k * w / 8)
              (pad + (k * w + w - 1) / 8 - (pad + k * w / 8) - 1) 0
              ((bs.getD (pad + k * w / 8) 0 &&&
                ((1 <<< (8 - k * w % 8)) - 1)) >>>
                (8 - k * w % 8 - (8 - k * w % 8)))).testBit
              (b - ((k * w + w - 1) % 8 + 1)) = false :=
            Nat.testBit_eq_false_of_lt (lt_of_lt_of_le hvlt
              (Nat.pow_le_pow_right (by norm_num) (by omega)))
          simpa [hbL, h1, hbw] using hvfalse

/-- The serializer's cursor encodes the number `p` of data bits written in
one of two shapes: mid-byte (`bitsLeftInByte = 8 - p % 8`), or just after
finishing a byte (`bitsLeftInByte = 0`, to be normalized at the next
write). -/
def posForm (pad p : Nat) (s : bigEndianAscendingWordSerializer) : Prop :=
  (s.byteIndex = pad + p / 8 ∧ s.bitsLeftInByte = 8 - p % 8) ∨
  (0 < p ∧ p % 8 = 0 ∧ s.byteIndex = pad + p / 8 - 1 ∧ s.bitsLeftInByte = 0)

/-- The `consumedMask` of `writeWordLoop` is the low-`m` mask in both of
its arms. -/
theorem cmask_eq (m : Nat) :
    (if m = 64 then (0xffffffffffffffff : Nat) else (1 <<< m) - 1) =
      2 ^ m - 1 := by
  split
  · subst ‹m = 64›
    norm_num
  · rw [Nat.one_shiftLeft]

/-- A byte write does not change stream bits of other bytes. -/
theorem byteBit_set_ne (bs : List Nat) (pad i nv t : Nat)
    (h : i ≠ pad + t / 8) :
    byteBit (bs.set i nv) pad t = byteBit bs pad t := by
  unfold byteBit
  rw [getD_set_ne _ _ _ _ _ h]

/-- A byte write replaces the stream bits of the written byte. -/
theorem byteBit_set_self (bs : List Nat) (pad i nv t : Nat)
    (h : pad + t / 8 = i) (hlen : i < bs.length) :
    byteBit (bs.set i nv) pad t = nv.testBit (7 - t % 8) := by
  unfold byteBit
  rw [h, getD_set_self _ _ _ _ hlen]

/-- Bits of the aligned chunk `writeWordLoop` ors into the current byte
when the byte cannot hold the whole rest of the word
(`bitsLeftInByte < bitsLeftInWord`): the low `blb` byte bits take the top
`blb` remaining word bits. -/
theorem alignedA_testBit (u m blb c : Nat) (hblb : blb < m) (hm64 : m ≤ 64)
    (hc : c < 8) :
    (((((u &&& (if m = 64 then (0xffffffffffffffff : Nat)
        else (1 <<< m) - 1)) >>> (m - blb)) <<< (blb - blb)) % U64)
      % 256).testBit c =
    (decide (c < blb) && u.testBit (m - blb + c)) := by
  rw [cmask_eq, show U64 = 2 ^ 64 from rfl,
    show (256 : Nat) = 2 ^ 8 from rfl]
  simp only [Nat.testBit_mod_two_pow, Nat.testBit_shiftLeft,
    Nat.testBit_shiftRight, Nat.testBit_and, Nat.testBit_two_pow_sub_one]
  by_cases h1 : c < blb
  · simp [hc, h1, show m - blb + c < m from by omega,
      show c < 64 from by omega, Nat.sub_self]
  · simp [hc, h1, show ¬ m - blb + c < m from by omega,
      show c < 64 from by omega, Nat.sub_self]

/-- Bits of the aligned chunk when the current byte can take the whole
rest of the word: the `m` remaining word bits land just below the byte's
`blb` free bits. -/
theorem alignedB_testBit (u m blb c : Nat) (hblb : m ≤ blb) (hblb8 : blb ≤ 8)
    (hm1 : 1 ≤ m) (hc : c < 8) :
    ((((u &&& (if m = 64 then (0xffffffffffffffff : Nat)
        else (1 <<< m) - 1)) <<< (blb - m)) % U64) % 256).testBit c =
    (decide (blb - m ≤ c) && decide (c < blb) &&
      u.testBit (c - (blb - m))) := by
  rw [cmask_eq, show U64 = 2 ^ 64 from rfl,
    show (256 : Nat) = 2 ^ 8 from rfl]
  simp only [Nat.testBit_mod_two_pow, Nat.testBit_shiftLeft,
    Nat.testBit_shiftRight, Nat.testBit_and, Nat.testBit_two_pow_sub_one]
  by_cases h1 : blb - m ≤ c
  · by_cases h2 : c < blb
    · simp [hc, h1, h2, show c - (blb - m) < m from by omega,
        show c < 64 from by omega]
    · simp [hc, h1, h2, show ¬ c - (blb - m) < m from by omega,
        show c < 64 from by omega]
  · simp [hc, h1, show c < 64 from by omega]

/-- The stream view of `writeWordLoop`: with the cursor at bit `p` and
every stream bit from `p` on still clear, writing the low `m` bits of
`word` advances the cursor to `p + m`, fills stream bits `p .. p + m - 1`
with those bits MSB-first, and changes nothing else. -/
theorem writeWordLoop_spec (pad u : Nat) :
    ∀ (fuel m : Nat) (s : bigEndianAscendingWordSerializer) (p : Nat),
      m ≤ fuel → m ≤ 64 → posForm pad p s →
      p + m ≤ 8 * (s.bytes.length - pad) →
      (∀ t, p ≤ t → byteBit s.bytes pad t = false) →
      (writeWordLoop u fuel s m).bytes.length = s.bytes.length ∧
      (writeWordLoop u fuel s m).wordLength = s.wordLength ∧
      (writeWordLoop u fuel s m).wordCount = s.wordCount ∧
      (writeWordLoop u fuel s m).wordsWritten = s.wordsWritten ∧
      posForm pad (p + m) (writeWordLoop u fuel s m) ∧
      (∀ t, t < p → byteBit (writeWordLoop u fuel s m).bytes pad t =
        byteBit s.bytes pad t) ∧
      (∀ b, b < m → byteBit (writeWordLoop u fuel s m).bytes pad (p + b) =
        u.testBit (m - 1 - b)) ∧
      (∀ t, p + m ≤ t →
        byteBit (writeWordLoop u fuel s m).bytes pad t = false) := by
  intro fuel
  induction fuel with
  | zero =>
    intro m s p hfuel hm64 hpf hroom hclear
    have hm0 : m = 0 := by omega
    subst hm0
    exact ⟨rfl, rfl, rfl, rfl, hpf, fun t ht => rfl,
      fun b hb => absurd hb (by omega), fun t ht => hclear t (by omega)⟩
  | succ fu ih =>
    intro m s p hfuel hm64 hpf hroom hclear
    by_cases hm0 : m = 0
    · subst hm0
      rw [show writeWordLoop u (fu + 1) s 0 = s from by
        rw [writeWordLoop, if_pos rfl]]
      exact ⟨rfl, rfl, rfl, rfl, hpf, fun t ht => rfl,
        fun b hb => absurd hb (by omega), fun t ht => hclear t (by omega)⟩
    · have hm1 : 1 ≤ m := by omega
      have hbyte_lt : pad + p / 8 < s.bytes.length := by omega
      have hnorm : (if s.bitsLeftInByte = 0 then
            { s with byteIndex := s.byteIndex + 1, bitsLeftInByte := 8 }
            else s).byteIndex = pad + p / 8 ∧
          (if s.bitsLeftInByte = 0 then
            { s with byteIndex := s.byteIndex + 1, bitsLeftInByte := 8 }
            else s).bitsLeftInByte = 8 - p % 8 ∧
          (if s.bitsLeftInByte = 0 then
            { s with byteIndex := s.byteIndex + 1, bitsLeftInByte := 8 }
            else s).bytes = s.bytes ∧
          (if s.bitsLeftInByte = 0 then
            { s with byteIndex := s.byteIndex + 1, bitsLeftInByte := 8 }
            else s).wordLength = s.wordLength ∧
          (if s.bitsLeftInByte = 0 then
            { s with byteIndex := s.byteIndex + 1, bitsLeftInByte := 8 }
            else s).wordCount = s.wordCount ∧
          (if s.bitsLeftInByte = 0 then
            { s with byteIndex := s.byteIndex + 1, bitsLeftInByte := 8 }
            else s).wordsWritten = s.wordsWritten := by
        rcases hpf with ⟨hbi, hbl⟩ | ⟨hp0, hp8, hbi, hbl⟩
        · rw [if_neg (by omega)]
          exact ⟨hbi, hbl, rfl, rfl, rfl, rfl⟩
        · rw [if_pos hbl]
          refine ⟨?_, ?_, rfl, rfl, rfl, rfl⟩
          · dsimp only
            omega
          · dsimp only
            omega
      rw [writeWordLoop, if_neg hm0]
      dsimp only
      generalize hgen : (if s.bitsLeftInByte = 0 then
          { s with byteIndex := s.byteIndex + 1, bitsLeftInByte := 8 }
          else s) = s1 at hnorm ⊢
      obtain ⟨h1bi, h1bl, h1by, h1wl, h1wc, h1ww⟩ := hnorm
      rw [h1bi, h1bl, h1by]
      by_cases hA : 8 - p % 8 < m
      · rw [if_pos hA, if_pos hA]
        set NB := s.bytes.getD (pad + p / 8) 0 |||
          ((((u &&& (if m = 64 then (0xffffffffffffffff : Nat)
            else (1 <<< m) - 1)) >>> (m - (8 - p % 8))) <<<
            (8 - p % 8 - (8 - p % 8))) % U64) % 256 with hNB
        set s2 := { s1 with
          bytes := s.bytes.set (pad + p / 8) NB,
          bitsLeftInByte := 8 - p % 8 - (8 - p % 8),
          byteIndex := pad + p / 8 } with hs2
        have hs2bytes : s2.bytes = s.bytes.set (pad + p / 8) NB := rfl
        have hs2len : s2.bytes.length = s.bytes.length := by
          rw [hs2bytes]
          simp
        have hclear2 : ∀ t, p + (8 - p % 8) ≤ t →
            byteBit s2.bytes pad t = false := by
          intro t ht
          rw [hs2bytes]
          by_cases hsame : pad + t / 8 = pad + p / 8
          · exact absurd hsame (by omega)
          · rw [byteBit_set_ne _ _ _ _ _ (Ne.symm hsame)]
            exact hclear t (by omega)
        have hpf2 : posForm pad (p + (8 - p % 8)) s2 := by
          right
          refine ⟨by omega, by omega, ?_, ?_⟩
          · show s2.byteIndex = pad + (p + (8 - p % 8)) / 8 - 1
            have hx : s2.byteIndex = pad + p / 8 := rfl
            rw [hx]
            omega
          · show s2.bitsLeftInByte = 0
            have hx : s2.bitsLeftInByte = 8 - p % 8 - (8 - p % 8) := rfl
            rw [hx]
            omega
        have hroom2 : p + (8 - p % 8) + (m - (8 - p % 8)) ≤
            8 * (s2.bytes.length - pad) := by
          rw [hs2len]
          omega
        have hrec := ih (m - (8 - p % 8)) s2 (p + (8 - p % 8)) (by omega)
          (by omega) hpf2 hroom2 hclear2
        obtain ⟨r1, r2, r3, r4, r5, r6, r7, r8⟩ := hrec
        refine ⟨?_, ?_, ?_, ?_, ?_, ?_, ?_, ?_⟩
        · rw [r1, hs2len]
        · rw [r2]
          exact h1wl
        · rw [r3]
          exact h1wc
        · rw [r4]
          exact h1ww
        · have hx : p + (8 - p % 8) + (m - (8 - p % 8)) = p + m := by omega
          rw [← hx]
          exact r5
        · intro t ht
          rw [r6 t (by omega), hs2bytes]
          by_cases hsame : pad + t / 8 = pad + p / 8
          · rw [byteBit_set_self s.bytes pad (pad + p / 8) NB t hsame
              hbyte_lt, hNB, Nat.testBit_or,
              alignedA_testBit u m (8 - p % 8) (7 - t % 8) hA hm64 (by omega)]
            have hcond : ¬ 7 - t % 8 < 8 - p % 8 := by omega
            simp [hcond]
            unfold byteBit
            rw [hsame, List.getD_eq_getElem?_getD]
          · rw [byteBit_set_ne _ _ _ _ _ (Ne.symm hsame)]
        · intro b hb
          by_cases hbA : b < 8 - p % 8
          · rw [r6 (p + b) (by omega), hs2bytes,
              byteBit_set_self s.bytes pad (pad + p / 8) NB (p + b)
                (by omega) hbyte_lt,
              hNB, Nat.testBit_or,
              alignedA_testBit u m (8 - p % 8) (7 - (p + b) % 8) hA hm64
                (by omega)]
            have hold : (s.bytes.getD (pad + p / 8) 0).testBit
                (7 - (p + b) % 8) = false := by
              have hh := hclear (p + b) (by omega)
              unfold byteBit at hh
              rw [show pad + (p + b) / 8 = pad + p / 8 from by omega] at hh
              exact hh
            have hcond : 7 - (p + b) % 8 < 8 - p % 8 := by omega
            have hidx : m - (8 - p % 8) + (7 - (p + b) % 8) = m - 1 - b := by
              omega
            rw [List.getD_eq_getElem?_getD] at hold
            simp [hold, hcond, hidx]
          · have hb' := r7 (b - (8 - p % 8)) (by omega)
            rw [show p + b = p + (8 - p % 8) + (b - (8 - p % 8)) from by omega,
              hb']
            congr 1
            omega
        · intro t ht
          exact r8 t (by omega)
      · rw [if_neg hA, if_neg (show ¬ m < m from by omega)]
        set NB := s.bytes.getD (pad + p / 8) 0 |||
          (((u &&& (if m = 64 then (0xffffffffffffffff : Nat)
            else (1 <<< m) - 1)) <<< (8 - p % 8 - m)) % U64) % 256 with hNB
        set s2 := { s1 with
          bytes := s.bytes.set (pad + p / 8) NB,
          bitsLeftInByte := 8 - p % 8 - m,
          byteIndex := pad + p / 8 } with hs2
        have hs2bytes : s2.bytes = s.bytes.set (pad + p / 8) NB := rfl
        have hs2len : s2.bytes.length = s.bytes.length := by
          rw [hs2bytes]
          simp
        have hclear2 : ∀ t, p + m ≤ t → byteBit s2.bytes pad t = false := by
          intro t ht
          rw [hs2bytes]
          by_cases hsame : pad + t / 8 = pad + p / 8
          · rw [byteBit_set_self s.bytes pad (pad + p / 8) NB t hsame
              hbyte_lt, hNB, Nat.testBit_or,
              alignedB_testBit u m (8 - p % 8) (7 - t % 8) (by omega)
                (by omega) hm1 (by omega)]
            have hcond : ¬ 8 - p % 8 - m ≤ 7 - t % 8 := by omega
            have hold : (s.bytes.getD (pad + p / 8) 0).testBit
                (7 - t % 8) = false := by
              have hh := hclear t (by omega)
              unfold byteBit at hh
              rw [hsame] at hh
              exact hh
            rw [List.getD_eq_getElem?_getD] at hold
            simp [hcond, hold]
          · rw [byteBit_set_ne _ _ _ _ _ (Ne.symm hsame)]
            exact hclear t (by omega)
        have hpf2 : posForm pad (p + m) s2 := by
          rcases Nat.lt_or_ge (p % 8 + m) 8 with hcase | hcase
          · left
            constructor
            · show s2.byteIndex = pad + (p + m) / 8
              have hx : s2.byteIndex = pad + p / 8 := rfl
              rw [hx]
              omega
            · show s2.bitsLeftInByte = 8 - (p + m) % 8
              have hx : s2.bitsLeftInByte = 8 - p % 8 - m := rfl
              rw [hx]
              omega
          · right
            refine ⟨by omega, by omega, ?_, ?_⟩
            · show s2.byteIndex = pad + (p + m) / 8 - 1
              have hx : s2.byteIndex = pad + p / 8 := rfl
              rw [hx]
              omega
            · show s2.bitsLeftInByte = 0
              have hx : s2.bitsLeftInByte = 8 - p % 8 - m := rfl
              rw [hx]
              omega
        have hroom2 : p + m + (m - m) ≤ 8 * (s2.bytes.length - pad) := by
          rw [hs2len]
          omega
        have hrec := ih (m - m) s2 (p + m) (by omega) (by omega) hpf2
          hroom2 hclear2
        obtain ⟨r1, r2, r3, r4, r5, r6, r7, r8⟩ := hrec
        refine ⟨?_, ?_, ?_, ?_, ?_, ?_, ?_, ?_⟩
        · rw [r1, hs2len]
        · rw [r2]
          exact h1wl
        · rw [r3]
          exact h1wc
        · rw [r4]
          exact h1ww
        · have hx : p + m + (m - m) = p + m := by omega
          rw [← hx]
          exact r5
        · intro t ht
          rw [r6 t (by omega), hs2bytes]
          by_cases hsame : pad + t / 8 = pad + p / 8
          · rw [byteBit_set_self s.bytes pad (pad + p / 8) NB t hsame
              hbyte_lt, hNB, Nat.testBit_or,
              alignedB_testBit u m (8 - p % 8) (7 - t % 8) (by omega)
                (by omega) hm1 (by omega)]
            have hcond : ¬ 7 - t % 8 < 8 - p % 8 := by omega
            simp [hcond]
            unfold byteBit
            rw [hsame, List.getD_eq_getElem?_getD]
          · rw [byteBit_set_ne _ _ _ _ _ (Ne.symm hsame)]
        · intro b hb
          rw [r6 (p + b) (by omega), hs2bytes,
            byteBit_set_self s.bytes pad (pad + p / 8) NB (p + b)
              (by omega) hbyte_lt,
            hNB, Nat.testBit_or,
            alignedB_testBit u m (8 - p % 8) (7 - (p + b) % 8) (by omega)
              (by omega) hm1 (by omega)]
          have hold : (s.bytes.getD (pad + p / 8) 0).testBit
              (7 - (p + b) % 8) = false := by
            have hh := hclear (p + b) (by omega)
            unfold byteBit at hh
            rw [show pad + (p + b) / 8 = pad + p / 8 from by omega] at hh
            exact hh
          have hc1 : 8 - p % 8 - m ≤ 7 - (p + b) % 8 := by omega
          have hc2 : 7 - (p + b) % 8 < 8 - p % 8 := by omega
          have hidx : 7 - (p + b) % 8 - (8 - p % 8 - m) = m - 1 - b := by
            omega
          rw [List.getD_eq_getElem?_getD] at hold
          simp [hold, hc1, hc2, hidx]
        · intro t ht
          exact r8 t (by omega)

/-- Stream bits of a freshly allocated (all-zero) buffer are clear. -/
theorem byteBit_replicate_zero (n pad t : Nat) :
    byteBit (List.replicate n 0) pad t = false := by
  unfold byteBit
  rw [show (List.replicate n (0 : Nat)).getD (pad + t / 8) 0 = 0 from by
    rcases Nat.lt_or_ge (pad + t / 8) n with h | h
    · simp [List.getD_eq_getElem?_getD, List.getElem?_replicate, h]
    · rw [List.getD_eq_getElem?_getD, List.getElem?_eq_none
        (show (List.replicate n (0 : Nat)).length ≤ pad + t / 8 by
          simpa using h)]
      rfl]
  exact Nat.zero_testBit _

/-- `getD` at the length of the left part of an append-singleton. -/
theorem getD_append_length {α : Type} (l : List α) (x d : α) :
    (l ++ [x]).getD l.length d = x := by
  rw [List.getD_eq_getElem?_getD, List.getElem?_append_right (le_refl _)]
  simp

/-- The serializer fold: with `done` words already in the stream and the
cursor after them, folding `writeWord` over `rest` appends those words'
low `w` bits to the stream, word after word, MSB-first. -/
theorem foldl_writeWord_spec (w pad L : Nat) (hw64 : w ≤ 64) :
    ∀ (rest done : List Nat) (s : bigEndianAscendingWordSerializer),
      s.wordLength = w → s.wordCount = done.length + rest.length →
      s.wordsWritten = done.length → s.bytes.length = L →
      posForm pad (done.length * w) s →
      (done.length + rest.length) * w ≤ 8 * (L - pad) →
      (∀ i b, i < done.length → b < w →
        byteBit s.bytes pad (i * w + b) =
          (done.getD i 0).testBit (w - 1 - b)) →
      (∀ t, done.length * w ≤ t → byteBit s.bytes pad t = false) →
      (rest.foldl bigEndianAscendingWordSerializer.writeWord s).wordLength
        = w ∧
      (rest.foldl bigEndianAscendingWordSerializer.writeWord s).wordCount =
        done.length + rest.length ∧
      (rest.foldl bigEndianAscendingWordSerializer.writeWord s).wordsWritten
        = done.length + rest.length ∧
      (rest.foldl
        bigEndianAscendingWordSerializer.writeWord s).bytes.length = L ∧
      (∀ i b, i < done.length + rest.length → b < w →
        byteBit
          (rest.foldl bigEndianAscendingWordSerializer.writeWord s).bytes
          pad (i * w + b) =
          ((done ++ rest).getD i 0).testBit (w - 1 - b)) := by
  intro rest
  induction rest with
  | nil =>
    intro done s hwl hwc hww hlen hpf hroom hcontent hclear
    refine ⟨hwl, by simpa using hwc, by simpa using hww, hlen, ?_⟩
    intro i b hi hb
    rw [List.append_nil]
    exact hcontent i b (by simpa using hi) hb
  | cons x rest ih =>
    intro done s hwl hwc hww hlen hpf hroom hcontent hclear
    rw [List.foldl_cons]
    have hne : ¬ s.wordsWritten = s.wordCount := by
      rw [hww, hwc]
      simp only [List.length_cons]
      omega
    have hstep : bigEndianAscendingWordSerializer.writeWord s x =
        { writeWordLoop x w s w with
          wordsWritten := (writeWordLoop x w s w).wordsWritten + 1 } := by
      unfold bigEndianAscendingWordSerializer.writeWord
      rw [if_neg hne]
      dsimp only
      rw [hwl]
    rw [hstep]
    have hlenstep : done.length + 1 ≤ done.length + (x :: rest).length := by
      simp only [List.length_cons]
      omega
    have hmulstep : (done.length + 1) * w ≤
        (done.length + (x :: rest).length) * w :=
      Nat.mul_le_mul_right _ hlenstep
    rw [Nat.succ_mul] at hmulstep
    have hloop := writeWordLoop_spec pad x w w s (done.length * w)
      (le_refl w) hw64 hpf (by rw [hlen]; omega) hclear
    obtain ⟨q1, q2, q3, q4, q5, q6, q7, q8⟩ := hloop
    have hrec := ih (done ++ [x])
      { writeWordLoop x w s w with
        wordsWritten := (writeWordLoop x w s w).wordsWritten + 1 }
      (by
        show (writeWordLoop x w s w).wordLength = w
        rw [q2, hwl])
      (by
        show (writeWordLoop x w s w).wordCount =
          (done ++ [x]).length + rest.length
        rw [q3, hwc]
        simp only [List.length_append, List.length_cons, List.length_nil,
          List.length_singleton]
        omega)
      (by
        show (writeWordLoop x w s w).wordsWritten + 1 = (done ++ [x]).length
        rw [q4, hww]
        simp)
      (by
        show (writeWordLoop x w s w).bytes.length = L
        rw [q1, hlen])
      (by
        show posForm pad ((done ++ [x]).length * w) _
        rw [show (done ++ [x]).length = done.length + 1 from by simp,
          Nat.succ_mul]
        exact q5)
      (by
        rw [show (done ++ [x]).length + rest.length =
          done.length + (x :: rest).length from by (simp; omega)]
        exact hroom)
      (by
        intro i b hi hb
        show byteBit (writeWordLoop x w s w).bytes pad (i * w + b) = _
        rcases Nat.lt_or_ge i done.length with hid | hid
        · have hlt : i * w + b < done.length * w := by
            have h2 : (i + 1) * w ≤ done.length * w :=
              Nat.mul_le_mul_right _ (by omega)
            rw [Nat.succ_mul] at h2
            omega
          rw [q6 (i * w + b) hlt,
            List.getD_append done [x] 0 i (by omega),
            hcontent i b hid hb]
        · have hieq : i = done.length := by
            have := hi
            simp only [List.length_append, List.length_singleton] at this
            omega
          subst hieq
          rw [getD_append_length]
          exact q7 b hb)
      (by
        intro t ht
        show byteBit (writeWordLoop x w s w).bytes pad t = false
        refine q8 t ?_
        have hx : (done ++ [x]).length = done.length + 1 := by simp
        rw [hx, Nat.succ_mul] at ht
        exact ht)
    have hassoc : (done ++ [x]) ++ rest = done ++ x :: rest := by simp
    rw [hassoc] at hrec
    have hlen2 : (done ++ [x]).length + rest.length =
        done.length + (x :: rest).length := by
      simp
      omega
    rw [hlen2] at hrec
    exact hrec

/-! ### Bit-level correctness of setMaxRegister (C3) -/

/-- Bit `t` of the register file, LSB-first within each 64-bit word: the
view under which register `i` occupies bits `i*w .. i*w + w - 1`. -/
def BitVector.streamBit (bv : BitVector) (t : Nat) : Bool :=
  (bv.words.getD (t / 64) 0).testBit (t % 64)

/-- Well-formedness of a `BitVector`, as `NewBitVector` establishes it and
the register writes preserve it: a register width in 1..64, the mask the
constructor computes, enough backing words for `count` registers, and every
backing word a 64-bit value. -/
def BitVector.wfB (bv : BitVector) : Bool :=
  decide (1 ≤ bv.registerWidth) && decide (bv.registerWidth ≤ 64) &&
  decide (bv.registerMask = 2 ^ bv.registerWidth - 1) &&
  decide (bv.registerWidth * bv.count ≤ 64 * bv.words.length) &&
  bv.words.all (fun x => decide (x < 2 ^ 64))

/-- The unpacked form of `BitVector.wfB`. -/
theorem wfB_spec (bv : BitVector) (hwf : bv.wfB = true) :
    1 ≤ bv.registerWidth ∧ bv.registerWidth ≤ 64 ∧
    bv.registerMask = 2 ^ bv.registerWidth - 1 ∧
    bv.registerWidth * bv.count ≤ 64 * bv.words.length ∧
    ∀ x ∈ bv.words, x < 2 ^ 64 := by
  unfold BitVector.wfB at hwf
  simp only [Bool.and_eq_true, decide_eq_true_eq, List.all_eq_true] at hwf
  exact ⟨hwf.1.1.1.1, hwf.1.1.1.2, hwf.1.1.2, hwf.1.2, fun x hx => by
    simpa using hwf.2 x hx⟩

/-- Bits of the single-word clear-then-set write: the register window
`[r, r+w)` of the word takes the written value's bits, all other bits of
the word survive. -/
theorem writeLow_testBit (w r u w0 b : Nat) (hb : b < 64) (hu : u < 2 ^ w) :
    ((w0 &&& (u64ones ^^^ (((2 ^ w - 1) <<< r) % 2 ^ 64))) |||
      ((u <<< r) % 2 ^ 64)).testBit b =
    if r ≤ b ∧ b < r + w then u.testBit (b - r) else w0.testBit b := by
  rw [show u64ones = 2 ^ 64 - 1 from rfl]
  simp only [Nat.testBit_or, Nat.testBit_and, Nat.testBit_xor,
    Nat.testBit_mod_two_pow, Nat.testBit_shiftLeft, Nat.testBit_two_pow_sub_one]
  by_cases h1 : r ≤ b
  · by_cases h2 : b < r + w
    · rw [if_pos ⟨h1, h2⟩]
      have hmb : b - r < w := by omega
      simp [hb, h1, hmb]
    · rw [if_neg (by omega)]
      have hmb : ¬ b - r < w := by omega
      have hub : u.testBit (b - r) = false :=
        Nat.testBit_eq_false_of_lt
          (lt_of_lt_of_le hu (Nat.pow_le_pow_right (by norm_num) (by omega)))
      simp [hb, h1, hmb, hub]
  · rw [if_neg (by omega)]
    simp [hb, h1]

/-- Bits of the straddling write's first word: bits at and above `r` take
the written value's low bits, bits below `r` survive. -/
theorem writeHighFirst_testBit (r u w0 b : Nat) (hb : b < 64) :
    ((w0 &&& ((1 <<< r) - 1)) ||| ((u <<< r) % 2 ^ 64)).testBit b =
    if r ≤ b then u.testBit (b - r) else w0.testBit b := by
  rw [show (1 <<< r : Nat) = 2 ^ r from Nat.one_shiftLeft r]
  simp only [Nat.testBit_or, Nat.testBit_and, Nat.testBit_two_pow_sub_one,
    Nat.testBit_mod_two_pow, Nat.testBit_shiftLeft]
  by_cases h1 : r ≤ b
  · rw [if_pos h1]
    have h2 : ¬ b < r := by omega
    simp [hb, h1, h2]
  · rw [if_neg h1]
    have h2 : b < r := by omega
    simp [hb, h1, h2]

/-- Bits of the straddling write's second word: the low `r + w - 64` bits
take the written value's high bits, the rest survive. -/
theorem writeHighSecond_testBit (w r u w1 b : Nat) (hb : b < 64)
    (hr : r < 64) (hstr : 64 < r + w) (hu : u < 2 ^ w) :
    ((w1 &&& (u64ones ^^^ ((2 ^ w - 1) >>> (64 - r)))) |||
      (u >>> (64 - r))).testBit b =
    if b < r + w - 64 then u.testBit (64 - r + b) else w1.testBit b := by
  rw [show u64ones = 2 ^ 64 - 1 from rfl]
  simp only [Nat.testBit_or, Nat.testBit_and, Nat.testBit_xor,
    Nat.testBit_shiftRight, Nat.testBit_two_pow_sub_one]
  by_cases h1 : b < r + w - 64
  · rw [if_pos h1]
    have hin : 64 - r + b < w := by omega
    simp [hb, hin]
  · rw [if_neg h1]
    have hout : ¬ 64 - r + b < w := by omega
    have hub : u.testBit (64 - r + b) = false :=
      Nat.testBit_eq_false_of_lt
        (lt_of_lt_of_le hu (Nat.pow_le_pow_right (by norm_num) (by omega)))
    simp [hb, hout, hub]

/-- The stream view of `setRegister`: it writes the value's bits into the
register's window `[i*w, i*w + w)` and leaves every other stream bit
unchanged (the straddling case included). -/
theorem BitVector.setRegister_streamBit (bv : BitVector) (i u t : Nat)
    (hwf : bv.wfB = true) (hi : i < bv.count) (hu : u < 2 ^ bv.registerWidth) :
    (bv.setRegister i u).streamBit t =
      if i * bv.registerWidth ≤ t ∧ t < i * bv.registerWidth + bv.registerWidth
      then u.testBit (t - i * bv.registerWidth)
      else bv.streamBit t := by
  obtain ⟨hw1, hw64, hmask, hlen, hwords⟩ := wfB_spec bv hwf
  have hBw : i * bv.registerWidth + bv.registerWidth ≤ 64 * bv.words.length := by
    have h1 : (i + 1) * bv.registerWidth ≤ bv.count * bv.registerWidth :=
      Nat.mul_le_mul_right _ (Nat.succ_le_of_lt hi)
    rw [Nat.succ_mul, Nat.mul_comm bv.count] at h1
    exact le_trans h1 hlen
  unfold BitVector.streamBit BitVector.setRegister
  dsimp only
  simp only [shr6, and63, U64]
  rw [hmask]
  have hflen : i * bv.registerWidth / 64 < bv.words.length := by omega
  by_cases hss : i * bv.registerWidth / 64 =
      (i * bv.registerWidth + bv.registerWidth - 1) / 64
  · rw [if_pos hss]
    have hsingle : i * bv.registerWidth % 64 + bv.registerWidth ≤ 64 := by omega
    by_cases ht : t / 64 = i * bv.registerWidth / 64
    · rw [ht, getD_set_self _ _ _ _ hflen]
      rw [writeLow_testBit bv.registerWidth (i * bv.registerWidth % 64) u
        (bv.words.getD (i * bv.registerWidth / 64) 0) (t % 64) (by omega) hu]
      by_cases hwin : i * bv.registerWidth ≤ t ∧
          t < i * bv.registerWidth + bv.registerWidth
      · rw [if_pos (by omega), if_pos hwin,
          show t % 64 - i * bv.registerWidth % 64 = t - i * bv.registerWidth
            from by omega]
      · rw [if_neg (by omega), if_neg hwin]
    · rw [getD_set_ne _ _ _ _ _ (Ne.symm ht), if_neg (by omega)]
  · rw [if_neg hss]
    have hsec : (i * bv.registerWidth + bv.registerWidth - 1) / 64 =
        i * bv.registerWidth / 64 + 1 := by omega
    have hstr2 : 64 < i * bv.registerWidth % 64 + bv.registerWidth := by omega
    have hrlt : i * bv.registerWidth % 64 < 64 := by omega
    have hslen : i * bv.registerWidth / 64 + 1 < bv.words.length := by omega
    rw [hsec]
    by_cases ht1 : t / 64 = i * bv.registerWidth / 64
    · rw [ht1, getD_set_ne _ _ _ _ _ (by omega),
        getD_set_self _ _ _ _ hflen]
      rw [writeHighFirst_testBit (i * bv.registerWidth % 64) u
        (bv.words.getD (i * bv.registerWidth / 64) 0) (t % 64) (by omega)]
      by_cases hwin : i * bv.registerWidth ≤ t ∧
          t < i * bv.registerWidth + bv.registerWidth
      · rw [if_pos (by omega), if_pos hwin,
          show t % 64 - i * bv.registerWidth % 64 = t - i * bv.registerWidth
            from by omega]
      · rw [if_neg (by omega), if_neg hwin]
    · by_cases ht2 : t / 64 = i * bv.registerWidth / 64 + 1
      · rw [ht2, getD_set_self _ _ _ _ (by simpa using hslen)]
        rw [writeHighSecond_testBit bv.registerWidth (i * bv.registerWidth % 64)
          u (bv.words.getD (i * bv.registerWidth / 64 + 1) 0) (t % 64)
          (by omega) hrlt hstr2 hu]
        by_cases hwin : i * bv.registerWidth ≤ t ∧
            t < i * bv.registerWidth + bv.registerWidth
        · rw [if_pos (by omega), if_pos hwin,
            show 64 - i * bv.registerWidth % 64 + t % 64 =
              t - i * bv.registerWidth from by omega]
        · rw [if_neg (by omega), if_neg hwin]
      · rw [getD_set_ne _ _ _ _ _ (Ne.symm ht2),
          getD_set_ne _ _ _ _ _ (Ne.symm ht1), if_neg (by omega)]

/-- The bits of a register read: bit `b` of `getRegister j` is stream bit
`j*w + b` for `b < w`, and 0 from the register width up. -/
theorem BitVector.getRegister_testBit (bv : BitVector) (j b : Nat)
    (hwf : bv.wfB = true) :
    (bv.getRegister j).testBit b =
      (decide (b < bv.registerWidth) &&
        bv.streamBit (j * bv.registerWidth + b)) := by
  obtain ⟨hw1, hw64, hmask, hlen, hwords⟩ := wfB_spec bv hwf
  unfold BitVector.getRegister BitVector.streamBit
  dsimp only
  simp only [shr6, and63, U64]
  rw [hmask]
  by_cases hss : j * bv.registerWidth / 64 =
      (j * bv.registerWidth + bv.registerWidth - 1) / 64
  · rw [if_pos hss]
    have hsingle : j * bv.registerWidth % 64 + bv.registerWidth ≤ 64 := by omega
    simp only [Nat.testBit_and, Nat.testBit_shiftRight,
      Nat.testBit_two_pow_sub_one]
    by_cases hb : b < bv.registerWidth
    · rw [show (j * bv.registerWidth + b) / 64 = j * bv.registerWidth / 64
          from by omega,
        show (j * bv.registerWidth + b) % 64 = j * bv.registerWidth % 64 + b
          from by omega]
      simp [hb]
    · simp [hb]
  · rw [if_neg hss]
    have hstr2 : 64 < j * bv.registerWidth % 64 + bv.registerWidth := by omega
    have hsec : (j * bv.registerWidth + bv.registerWidth - 1) / 64 =
        j * bv.registerWidth / 64 + 1 := by omega
    rw [hsec]
    simp only [Nat.testBit_or, Nat.testBit_and, Nat.testBit_shiftRight,
      Nat.testBit_shiftLeft, Nat.testBit_mod_two_pow,
      Nat.testBit_two_pow_sub_one]
    by_cases hb : b < bv.registerWidth
    · by_cases hlow : j * bv.registerWidth % 64 + b < 64
      · rw [show (j * bv.registerWidth + b) / 64 = j * bv.registerWidth / 64
            from by omega,
          show (j * bv.registerWidth + b) % 64 = j * bv.registerWidth % 64 + b
            from by omega]
        have h2 : ¬ 64 - j * bv.registerWidth % 64 ≤ b := by omega
        simp [hb, h2]
      · rw [show (j * bv.registerWidth + b) / 64 =
            j * bv.registerWidth / 64 + 1 from by omega,
          show (j * bv.registerWidth + b) % 64 =
            j * bv.registerWidth % 64 + b - 64 from by omega]
        have h2 : 64 - j * bv.registerWidth % 64 ≤ b := by omega
        have hw0 : ((bv.words[j * bv.registerWidth / 64]?).getD 0).testBit
            (j * bv.registerWidth % 64 + b) = false :=
          Nat.testBit_eq_false_of_lt (lt_of_lt_of_le
            (getElem?_getD_lt_of_all hwords _)
            (Nat.pow_le_pow_right (by norm_num)
              (show 64 ≤ j * bv.registerWidth % 64 + b from by omega)))
        have hidx : b - (64 - j * bv.registerWidth % 64) =
            j * bv.registerWidth % 64 + b - 64 := by omega
        simp [hb, h2, hw0, hidx, show b < 64 from by omega]
    · have hw0 : ((bv.words[j * bv.registerWidth / 64]?).getD 0).testBit
          (j * bv.registerWidth % 64 + b) = false :=
        Nat.testBit_eq_false_of_lt (lt_of_lt_of_le
          (getElem?_getD_lt_of_all hwords _)
          (Nat.pow_le_pow_right (by norm_num)
            (show 64 ≤ j * bv.registerWidth % 64 + b from by omega)))
      simp [hb, hw0]

/-- A register read is bounded by the register width. -/
theorem BitVector.getRegister_lt (bv : BitVector) (j : Nat)
    (hwf : bv.wfB = true) : bv.getRegister j < 2 ^ bv.registerWidth :=
  Nat.lt_pow_two_of_testBit _ (fun b hb => by
    rw [BitVector.getRegister_testBit bv j b hwf]
    simp [show ¬ b < bv.registerWidth from by omega])

/-- A cleared-then-set word stays a 64-bit value (value written mod 2^64). -/
theorem clearSet_lt (a m v : Nat) (ha : a < 2 ^ 64) :
    (a &&& m) ||| (v % U64) < 2 ^ 64 :=
  Nat.or_lt_two_pow (lt_of_le_of_lt Nat.and_le_left ha)
    (by have h := Nat.mod_lt v (show 0 < U64 by norm_num [U64])
        simpa [U64] using h)

/-- A cleared-then-set word stays a 64-bit value (value itself bounded). -/
theorem clearOr_lt (a m v : Nat) (ha : a < 2 ^ 64) (hv : v < 2 ^ 64) :
    (a &&& m) ||| v < 2 ^ 64 :=
  Nat.or_lt_two_pow (lt_of_le_of_lt Nat.and_le_left ha) hv

/-- `setRegister` keeps the number of backing words. -/
theorem BitVector.setRegister_length (bv : BitVector) (i u : Nat) :
    (bv.setRegister i u).words.length = bv.words.length := by
  unfold BitVector.setRegister
  dsimp only
  split <;> simp

/-- `setRegister` preserves well-formedness. -/
theorem BitVector.setRegister_wfB (bv : BitVector) (i u : Nat)
    (hwf : bv.wfB = true) (hu : u < 2 ^ bv.registerWidth) :
    (bv.setRegister i u).wfB = true := by
  obtain ⟨hw1, hw64, hmask, hlen, hwords⟩ := wfB_spec bv hwf
  have hu64 : u < 2 ^ 64 :=
    lt_of_lt_of_le hu (Nat.pow_le_pow_right (by norm_num) hw64)
  unfold BitVector.setRegister
  dsimp only
  unfold BitVector.wfB
  dsimp only
  simp only [Bool.and_eq_true, decide_eq_true_eq, List.all_eq_true]
  refine ⟨⟨⟨⟨hw1, hw64⟩, hmask⟩, ?_⟩, ?_⟩
  · split <;> simp [hlen]
  · intro x hx
    split at hx
    · rcases List.mem_or_eq_of_mem_set hx with h | h
      · exact hwords x h
      · subst h
        exact clearSet_lt _ _ _ (getD_lt_of_all hwords _)
    · rcases List.mem_or_eq_of_mem_set hx with h | h
      · rcases List.mem_or_eq_of_mem_set h with h2 | h2
        · exact hwords x h2
        · subst h2
          exact clearSet_lt _ _ _ (getD_lt_of_all hwords _)
      · subst h
        refine clearOr_lt _ _ _ (getD_lt_of_all hwords _) ?_
        refine lt_of_le_of_lt ?_ hu64
        rw [Nat.shiftRight_eq_div_pow]
        exact Nat.div_le_self _ _

/-- Two bit vectors over 64-bit words with the same length and the same
stream bits have the same backing words. -/
theorem BitVector.words_eq_of_streamBit (bv1 bv2 : BitVector)
    (hlen : bv1.words.length = bv2.words.length)
    (h1 : ∀ x ∈ bv1.words, x < 2 ^ 64) (h2 : ∀ x ∈ bv2.words, x < 2 ^ 64)
    (hs : ∀ t, bv1.streamBit t = bv2.streamBit t) :
    bv1.words = bv2.words := by
  apply List.ext_getElem hlen
  intro k hk1 hk2
  apply Nat.eq_of_testBit_eq
  intro b
  by_cases hb : b < 64
  · have hst := hs (64 * k + b)
    unfold BitVector.streamBit at hst
    rw [show (64 * k + b) / 64 = k from by omega,
      show (64 * k + b) % 64 = b from by omega,
      getD_eq_getElem _ _ _ hk1, getD_eq_getElem _ _ _ hk2] at hst
    exact hst
  · rw [Nat.testBit_eq_false_of_lt (lt_of_lt_of_le (h1 _ (List.getElem_mem _))
        (Nat.pow_le_pow_right (by norm_num) (by omega))),
      Nat.testBit_eq_false_of_lt (lt_of_lt_of_le (h2 _ (List.getElem_mem _))
        (Nat.pow_le_pow_right (by norm_num) (by omega)))]

/-- Reading back a written register returns the written value. -/
theorem BitVector.getRegister_setRegister_self (bv : BitVector) (i u : Nat)
    (hwf : bv.wfB = true) (hi : i < bv.count) (hu : u < 2 ^ bv.registerWidth) :
    (bv.setRegister i u).getRegister i = u := by
  have hwf' := BitVector.setRegister_wfB bv i u hwf hu
  apply Nat.eq_of_testBit_eq
  intro b
  rw [BitVector.getRegister_testBit _ i b hwf',
    show (bv.setRegister i u).registerWidth = bv.registerWidth from rfl,
    BitVector.setRegister_streamBit bv i u _ hwf hi hu]
  by_cases hb : b < bv.registerWidth
  · rw [if_pos ⟨Nat.le_add_right _ _, Nat.add_lt_add_left hb _⟩,
      Nat.add_sub_cancel_left]
    simp [hb]
  · have hub : u.testBit b = false :=
      Nat.testBit_eq_false_of_lt
        (lt_of_lt_of_le hu (Nat.pow_le_pow_right (by norm_num) (by omega)))
    simp [hb, hub]

/-- A write to register `i` leaves every other register unchanged, the
straddling layouts included. -/
theorem BitVector.getRegister_setRegister_ne (bv : BitVector) (i j u : Nat)
    (hwf : bv.wfB = true) (hi : i < bv.count) (hu : u < 2 ^ bv.registerWidth)
    (hne : j ≠ i) :
    (bv.setRegister i u).getRegister j = bv.getRegister j := by
  have hwf' := BitVector.setRegister_wfB bv i u hwf hu
  apply Nat.eq_of_testBit_eq
  intro b
  rw [BitVector.getRegister_testBit _ j b hwf',
    show (bv.setRegister i u).registerWidth = bv.registerWidth from rfl,
    BitVector.setRegister_streamBit bv i u _ hwf hi hu,
    BitVector.getRegister_testBit bv j b hwf]
  by_cases hb : b < bv.registerWidth
  · have hdisj : ¬ (i * bv.registerWidth ≤ j * bv.registerWidth + b ∧
        j * bv.registerWidth + b <
          i * bv.registerWidth + bv.registerWidth) := by
      rcases Nat.lt_or_ge j i with hji | hji
      · rintro ⟨hx, -⟩
        have hm : (j + 1) * bv.registerWidth ≤ i * bv.registerWidth :=
          Nat.mul_le_mul_right _ (Nat.succ_le_of_lt hji)
        rw [Nat.succ_mul] at hm
        omega
      · have hij : i < j := lt_of_le_of_ne hji (Ne.symm hne)
        rintro ⟨-, hx⟩
        have hm : (i + 1) * bv.registerWidth ≤ j * bv.registerWidth :=
          Nat.mul_le_mul_right _ (Nat.succ_le_of_lt hij)
        rw [Nat.succ_mul] at hm
        omega
    rw [if_neg hdisj]
  · simp [hb]

/-- Writing a register's current value back is the identity on the whole
vector. -/
theorem BitVector.setRegister_getRegister_id (bv : BitVector) (i : Nat)
    (hwf : bv.wfB = true) (hi : i < bv.count) :
    bv.setRegister i (bv.getRegister i) = bv := by
  have hreg := BitVector.getRegister_lt bv i hwf
  obtain ⟨hw1, hw64, hmask, hlen, hwords⟩ := wfB_spec bv hwf
  have hwf' := BitVector.setRegister_wfB bv i (bv.getRegister i) hwf hreg
  obtain ⟨-, -, -, -, hwords'⟩ := wfB_spec _ hwf'
  have hw : (bv.setRegister i (bv.getRegister i)).words = bv.words := by
    apply BitVector.words_eq_of_streamBit _ _
      (BitVector.setRegister_length bv i _) hwords' hwords
    intro t
    rw [BitVector.setRegister_streamBit bv i _ t hwf hi hreg]
    by_cases hwin : i * bv.registerWidth ≤ t ∧
        t < i * bv.registerWidth + bv.registerWidth
    · rw [if_pos hwin, BitVector.getRegister_testBit bv i _ hwf,
        show i * bv.registerWidth + (t - i * bv.registerWidth) = t
          from by omega]
      simp [show t - i * bv.registerWidth < bv.registerWidth from by omega]
    · rw [if_neg hwin]
  calc bv.setRegister i (bv.getRegister i)
      = { bv with words := (bv.setRegister i (bv.getRegister i)).words } := rfl
    _ = bv := by rw [hw]

/-- `setMaxRegister` is exactly: write through `setRegister` when the new
value is larger, report whether the new value is at least the current. -/
theorem BitVector.setMaxRegister_eq (bv : BitVector) (i v : Nat) :
    bv.setMaxRegister i v =
      (if bv.getRegister i < v then bv.setRegister i v else bv,
       decide (bv.getRegister i ≤ v)) := by
  have key : ∀ (c : Prop) (inst : Decidable c) (W : List Nat),
      ({ bv with words := @ite _ c inst W bv.words } : BitVector) =
        @ite _ c inst { bv with words := W } bv := by
    intro c inst W
    split <;> rfl
  unfold BitVector.setMaxRegister BitVector.setRegister BitVector.getRegister
  dsimp only
  rw [key]

/-! ### Estimator-branch structure of deserialized estimators (C9) -/

/-- `setRegister` never changes the register count. -/
theorem BitVector.setRegister_count (bv : BitVector) (i v : Nat) :
    (bv.setRegister i v).count = bv.count := rfl

/-- With in-range parameters but a type ordinal outside {1..4}, `NewHll2`
panics in `initializeStorage` (it has no error return for this case). -/
theorem NewHll2_crash (tbl : TwoToL) (log2m regwidth : Nat) (expthresh : Int)
    (sparseon : Bool) (hllType : Nat)
    (hl : 4 ≤ log2m ∧ log2m ≤ 30) (hr : 1 ≤ regwidth ∧ regwidth ≤ 8)
    (he : expthresh = -1 ∨ expthresh = 0 ∨ (0 < expthresh ∧ expthresh ≤ 18))
    (ht : hllType = 0 ∨ 5 ≤ hllType) :
    (NewHll2 tbl log2m regwidth expthresh sparseon hllType).isCrash = true := by
  have hE : EMPTY = 1 := rfl
  have hX : EXPLICIT = 2 := rfl
  have hS : SPARSE = 3 := rfl
  have hF : FULL = 4 := rfl
  unfold NewHll2
  rw [if_neg (by omega), if_neg (by omega)]
  dsimp only
  rcases he with he | he | he
  · subst he
    rw [if_pos rfl]
    dsimp only
    unfold Hll.initStorage
    rw [if_neg (by omega), if_neg (by omega), if_neg (by omega), if_neg (by omega)]
    rfl
  · subst he
    rw [if_neg (by omega), if_pos rfl]
    dsimp only
    unfold Hll.initStorage
    rw [if_neg (by omega), if_neg (by omega), if_neg (by omega), if_neg (by omega)]
    rfl
  · rw [if_neg (by omega), if_neg (by omega), if_pos he]
    dsimp only
    unfold Hll.initStorage
    rw [if_neg (by omega), if_neg (by omega), if_neg (by omega), if_neg (by omega)]
    rfl

/-- The `expthresh` value `NewHllFromBytes` derives from a cutoff byte in
{0, 63} ∪ [1, 18] always lands in the range `NewHll2` accepts. -/
theorem expthresh_ranges (c : Nat)
    (hcut : c = 0 ∨ c = 63 ∨ (1 ≤ c ∧ c ≤ 18)) :
    (if c = EXPLICIT_AUTO then (-1 : Int)
     else if c = EXPLICIT_OFF then 0
     else (if c = EXPLICIT_OFF ∨ c = EXPLICIT_AUTO then (-1 : Int)
       else (c : Int) - 1) + 1) = -1 ∨
    (if c = EXPLICIT_AUTO then (-1 : Int)
     else if c = EXPLICIT_OFF then 0
     else (if c = EXPLICIT_OFF ∨ c = EXPLICIT_AUTO then (-1 : Int)
       else (c : Int) - 1) + 1) = 0 ∨
    (0 < (if c = EXPLICIT_AUTO then (-1 : Int)
      else if c = EXPLICIT_OFF then 0
      else (if c = EXPLICIT_OFF ∨ c = EXPLICIT_AUTO then (-1 : Int)
        else (c : Int) - 1) + 1) ∧
     (if c = EXPLICIT_AUTO then (-1 : Int)
      else if c = EXPLICIT_OFF then 0
      else (if c = EXPLICIT_OFF ∨ c = EXPLICIT_AUTO then (-1 : Int)
        else (c : Int) - 1) + 1) ≤ 18) := by
  have hO : EXPLICIT_OFF = 0 := rfl
  have hA : EXPLICIT_AUTO = 63 := rfl
  rcases hcut with h0 | h63 | hrange
  · rw [if_neg (by omega), if_pos (by omega)]
    right; left; rfl
  · rw [if_pos (by omega)]
    left; rfl
  · rw [if_neg (by omega), if_neg (by omega), if_neg (by omega)]
    right; right
    constructor <;> omega

/-! ### EXPLICIT exact count and serialization (C1) -/

/-- Bitwise-or never shrinks its left operand. -/
theorem le_or_self (a b : Nat) : a ≤ a ||| b :=
  Nat.le_of_testBit (fun i h => by simp [Nat.testBit_or, h])

/-- `nextPowerOfTwo` never shrinks its argument. -/
theorem nextPowerOfTwo_ge (x : Nat) : x ≤ nextPowerOfTwo x := by
  unfold nextPowerOfTwo
  by_cases hx : x = 0
  · rw [if_pos hx]; omega
  · rw [if_neg hx]
    dsimp only
    have step : ∀ (a s : Nat), x ≤ a + 1 → x ≤ (a ||| a >>> s) + 1 := fun a s h =>
      le_trans h (Nat.succ_le_succ (le_or_self a (a >>> s)))
    exact step _ 32 (step _ 16 (step _ 8 (step _ 4 (step _ 2 (step _ 1 (by omega))))))

/-- One smearing step: or-ing in a right shift by `w` widens the covered
bit window from `w` to `2·w`. -/
theorem smearStep {y z : Nat} (w : Nat)
    (hz : ∀ i, z.testBit i = true ↔ ∃ d, d < w ∧ y.testBit (i + d) = true) :
    ∀ i, (z ||| z >>> w).testBit i = true ↔
      ∃ d, d < 2 * w ∧ y.testBit (i + d) = true := by
  intro i
  rw [Nat.testBit_or, Bool.or_eq_true, Nat.testBit_shiftRight, hz, hz]
  constructor
  · rintro (⟨d, hd, h⟩ | ⟨d, hd, h⟩)
    · exact ⟨d, by omega, h⟩
    · refine ⟨w + d, by omega, ?_⟩
      rwa [show i + (w + d) = w + i + d by omega]
  · rintro ⟨d, hd, h⟩
    by_cases hdw : d < w
    · exact Or.inl ⟨d, hdw, h⟩
    · refine Or.inr ⟨d - w, by omega, ?_⟩
      rwa [show w + i + (d - w) = i + d by omega]

/-- The most significant bit of a nonzero number is set. -/
theorem testBit_log2_self (y : Nat) (hy : y ≠ 0) : y.testBit (Nat.log2 y) = true := by
  have h1 : 2 ^ Nat.log2 y ≤ y := Nat.log2_self_le hy
  have h2 : y < 2 ^ (Nat.log2 y + 1) := Nat.lt_log2_self
  have hp : 0 < 2 ^ Nat.log2 y := Nat.two_pow_pos _
  have hdiv : y / 2 ^ Nat.log2 y = 1 := by
    have hlo : 1 ≤ y / 2 ^ Nat.log2 y := (Nat.one_le_div_iff hp).2 h1
    have hhi : y / 2 ^ Nat.log2 y < 2 := by
      rw [Nat.div_lt_iff_lt_mul hp]
      calc y < 2 ^ (Nat.log2 y + 1) := h2
        _ = 2 * 2 ^ Nat.log2 y := by rw [Nat.pow_succ]; ring
    omega
  rw [Nat.testBit_to_div_mod, hdiv]
  rfl

/-- `nextPowerOfTwo` of a value up to `2^62` is a power of two. -/
theorem nextPowerOfTwo_pow (x : Nat) (hx : x ≤ 2 ^ 62) :
    ∃ k, nextPowerOfTwo x = 2 ^ k := by
  by_cases hx0 : x = 0
  · exact ⟨0, by rw [hx0]; rfl⟩
  by_cases hx1 : x = 1
  · exact ⟨0, by rw [hx1]; rfl⟩
  have hy0 : x - 1 ≠ 0 := by omega
  have hysmall : x - 1 < 2 ^ 62 := by omega
  refine ⟨Nat.log2 (x - 1) + 1, ?_⟩
  unfold nextPowerOfTwo
  rw [if_neg hx0]
  dsimp only
  set y := x - 1 with hy
  set y1 := y ||| y >>> 1 with hy1
  set y2 := y1 ||| y1 >>> 2 with hy2
  set y3 := y2 ||| y2 >>> 4 with hy3
  set y4 := y3 ||| y3 >>> 8 with hy4
  set y5 := y4 ||| y4 >>> 16 with hy5
  have c0 : ∀ i, y.testBit i = true ↔ ∃ d, d < 1 ∧ y.testBit (i + d) = true := by
    intro i
    constructor
    · intro h; exact ⟨0, by omega, by simpa using h⟩
    · rintro ⟨d, hd, h⟩
      have hd0 : d = 0 := by omega
      subst hd0; simpa using h
  have c1 := smearStep 1 c0
  rw [← hy1] at c1
  norm_num at c1
  have c2 := smearStep 2 c1
  rw [← hy2] at c2
  norm_num at c2
  have c3 := smearStep 4 c2
  rw [← hy3] at c3
  norm_num at c3
  have c4 := smearStep 8 c3
  rw [← hy4] at c4
  norm_num at c4
  have c5 := smearStep 16 c4
  rw [← hy5] at c5
  norm_num at c5
  have c6 := smearStep 32 c5
  have hL : Nat.log2 y ≤ 61 := by
    have := (Nat.log2_lt hy0).2 hysmall
    omega
  have h6 : y5 ||| y5 >>> 32 = 2 ^ (Nat.log2 y + 1) - 1 := by
    apply Nat.eq_of_testBit_eq
    intro i
    rw [Nat.testBit_two_pow_sub_one]
    rcases Nat.lt_or_ge i (Nat.log2 y + 1) with hi | hi
    · rw [(c6 i).2 ⟨Nat.log2 y - i, by omega, by
        rw [show i + (Nat.log2 y - i) = Nat.log2 y by omega]
        exact testBit_log2_self y hy0⟩]
      rw [decide_eq_true hi]
    · rw [decide_eq_false (by omega)]
      cases hb : (y5 ||| y5 >>> 32).testBit i with
      | false => rfl
      | true =>
        obtain ⟨d, hd, hbit⟩ := (c6 i).1 hb
        have hlt : y < 2 ^ (i + d) :=
          lt_of_lt_of_le Nat.lt_log2_self (Nat.pow_le_pow_right (by omega) (by omega))
        rw [Nat.testBit_eq_false_of_lt hlt] at hbit
        exact Bool.noConfusion hbit
  rw [h6]
  have hp : 0 < 2 ^ (Nat.log2 y + 1) := Nat.two_pow_pos _
  omega

/-- The array size always leaves room: `expected + 1 ≤ arraySize expected`. -/
theorem arraySize_ge (e : Nat) : e + 1 ≤ arraySize e := by
  unfold arraySize
  have h1 := nextPowerOfTwo_ge ((4 * e + 2) / 3)
  omega

/-- The size that triggers a rehash stays within the new table's load
bound. -/
theorem arraySize_maxFill_ge (e : Nat) : e ≤ Hllv.maxFill (arraySize e) := by
  unfold arraySize Hllv.maxFill
  have h1 := nextPowerOfTwo_ge ((4 * e + 2) / 3)
  omega

/-- `arraySize` of a value up to `2^60` is a power of two (with exponent
at least 1). -/
theorem arraySize_pow (e : Nat) (he : e ≤ 2 ^ 60) :
    ∃ k, 1 ≤ k ∧ arraySize e = 2 ^ k := by
  obtain ⟨k, hk⟩ := nextPowerOfTwo_pow ((4 * e + 2) / 3) (by omega)
  unfold arraySize
  rw [hk]
  cases k with
  | zero => exact ⟨1, by omega, by norm_num⟩
  | succ k =>
    refine ⟨k + 1, by omega, ?_⟩
    have : 2 ≤ 2 ^ (k + 1) := by
      calc (2 : Nat) = 2 ^ 1 := by norm_num
        _ ≤ 2 ^ (k + 1) := Nat.pow_le_pow_right (by omega) (by omega)
    omega

/-- Setting a `false` slot to `true` increments the `true` count. -/
theorem count_set_true (l : List Bool) (p : Nat) (hp : p < l.length)
    (hf : l.getD p false = false) :
    (l.set p true).count true = l.count true + 1 := by
  induction l generalizing p with
  | nil => simp at hp
  | cons a t ih =>
    cases p with
    | zero =>
      simp only [List.getD_cons_zero] at hf
      subst hf
      simp [List.count_cons]
    | succ p =>
      simp only [List.getD_cons_succ] at hf
      simp only [List.length_cons] at hp
      simp only [List.set_cons_succ, List.count_cons, ih p (by omega) hf]
      omega

/-- A `true` count short of the length forces a `false` entry. -/
theorem exists_false_of_count_lt (l : List Bool) (h : l.count true < l.length) :
    ∃ q, q < l.length ∧ l.getD q false = false := by
  by_contra hc
  push_neg at hc
  have hall : ∀ b ∈ l, true = b := by
    intro b hb
    obtain ⟨i, hi, hib⟩ := List.mem_iff_getElem.1 hb
    have hx := hc i hi
    rw [List.getD_eq_getElem?_getD, List.getElem?_eq_getElem hi] at hx
    simp only [Option.getD_some] at hx
    rw [hib] at hx
    cases b
    · exact absurd rfl hx
    · rfl
  have := List.count_eq_length.2 hall
  omega

/-- A positive `true` count yields a `true` entry. -/
theorem exists_true_of_count_pos (l : List Bool) (h : 0 < l.count true) :
    ∃ q, q < l.length ∧ l.getD q false = true := by
  have hm : true ∈ l := List.count_pos_iff.1 h
  obtain ⟨i, hi, hib⟩ := List.mem_iff_getElem.1 hm
  refine ⟨i, hi, ?_⟩
  rw [List.getD_eq_getElem?_getD, List.getElem?_eq_getElem hi]
  simpa using hib

/-- An all-`false` list has `true` count zero. -/
theorem count_replicate_false (n : Nat) :
    (List.replicate n false).count true = 0 := by
  simp [List.count_replicate]

/-- The filtered index range of a Boolean mask has the mask's `true` count
as its length (`elemsAsc` length accounting). -/
theorem filterMap_range_length {α : Type} :
    ∀ (l : List Bool) (g : Nat → α),
      ((List.range l.length).filterMap
        (fun i => if l.getD i false then some (g i) else none)).length
        = l.count true := by
  intro l
  induction l with
  | nil => intro g; simp
  | cons a t ih =>
    intro g
    rw [List.length_cons, List.range_succ_eq_map, List.filterMap_cons]
    have hcomp :
        ((fun i => if (a :: t).getD i false then some (g i) else none) ∘ Nat.succ)
          = fun i => if t.getD i false then some (g (i + 1)) else none := by
      funext i
      simp [Function.comp, List.getD_cons_succ]
    cases a with
    | false =>
      have h0 : (if (false :: t).getD 0 false then some (g 0) else none) = none := by
        simp
      rw [h0]
      dsimp only
      rw [List.filterMap_map, hcomp, ih (fun i => g (i + 1)), List.count_cons]
      simp
    | true =>
      have h0 : (if (true :: t).getD 0 false then some (g 0) else none) = some (g 0) := by
        simp
      rw [h0]
      dsimp only
      rw [List.length_cons, List.filterMap_map, hcomp, ih (fun i => g (i + 1)),
        List.count_cons]
      simp

/-- Some slot of the probe cycle starting at `pos` is free whenever the
table is not full. -/
theorem exists_cyclic_free (used : List Bool) (n pos : Nat) (hlen : used.length = n)
    (hpos : pos < n) (hcnt : used.count true < n) :
    ∃ j, j < n ∧ used.getD ((pos + j) % n) false = false := by
  obtain ⟨q, hq, hfq⟩ := exists_false_of_count_lt used (by omega)
  refine ⟨(n + q - pos) % n, Nat.mod_lt _ (by omega), ?_⟩
  have hred : (pos + (n + q - pos) % n) % n = q := by
    rw [Nat.add_mod_mod, show pos + (n + q - pos) = n + q by omega,
      Nat.add_mod_left]
    exact Nat.mod_eq_of_lt (by omega)
  rw [hred]
  exact hfq

/-- The `Add` probe walk on a table that does not contain `k` and has a
free slot in the walk's range installs `k` at a free slot. -/
theorem probeAdd_fresh (s : LongHashSet) (k kk : Nat)
    (hpow : s.n = 2 ^ kk) (hmask : s.mask = s.n - 1)
    (hfresh : ∀ i, s.used.getD i false = true → s.key.getD i 0 ≠ k) :
    ∀ fuel pos, pos < s.n →
      (∃ j, j < fuel ∧ s.used.getD ((pos + j) % s.n) false = false) →
      ∃ p, p < s.n ∧ s.used.getD p false = false ∧
        s.probeAdd k fuel pos =
          ({ s with key := s.key.set p k, used := s.used.set p true }, true) := by
  intro fuel
  induction fuel with
  | zero =>
    intro pos hpos hex
    obtain ⟨j, hj, _⟩ := hex
    omega
  | succ fuel ih =>
    intro pos hpos hex
    obtain ⟨j, hj, hfree⟩ := hex
    unfold LongHashSet.probeAdd
    by_cases hu : s.used.getD pos false = true
    · rw [if_pos hu, if_neg (hfresh pos hu)]
      have hstep : (pos + 1) &&& s.mask = (pos + 1) % s.n := by
        rw [hmask, hpow, Nat.and_pow_two_sub_one_eq_mod]
      have hj0 : j ≠ 0 := by
        intro h0
        subst h0
        rw [Nat.add_zero, Nat.mod_eq_of_lt hpos] at hfree
        rw [hu] at hfree
        exact Bool.noConfusion hfree
      have hnpos : 0 < s.n := by
        rw [hpow]; exact Nat.two_pow_pos kk
      rw [hstep]
      apply ih ((pos + 1) % s.n) (Nat.mod_lt _ hnpos)
      refine ⟨j - 1, by omega, ?_⟩
      rw [Nat.mod_add_mod, show pos + 1 + (j - 1) = pos + j by omega]
      exact hfree
    · rw [if_neg hu]
      exact ⟨pos, hpos, by
        cases hb : s.used.getD pos false
        · rfl
        · exact absurd hb hu, rfl⟩

/-- The rehash reinsertion walk installs `k` at a free slot whenever the
walk's range contains one. -/
theorem probeIns_free (s : LongHashSet) (k kk : Nat)
    (hpow : s.n = 2 ^ kk) (hmask : s.mask = s.n - 1) :
    ∀ fuel pos, pos < s.n →
      (∃ j, j < fuel ∧ s.used.getD ((pos + j) % s.n) false = false) →
      ∃ p, p < s.n ∧ s.used.getD p false = false ∧
        s.probeIns k fuel pos =
          { s with key := s.key.set p k, used := s.used.set p true } := by
  intro fuel
  induction fuel with
  | zero =>
    intro pos hpos hex
    obtain ⟨j, hj, _⟩ := hex
    omega
  | succ fuel ih =>
    intro pos hpos hex
    obtain ⟨j, hj, hfree⟩ := hex
    unfold LongHashSet.probeIns
    by_cases hu : s.used.getD pos false = true
    · rw [if_pos hu]
      have hstep : (pos + 1) &&& s.mask = (pos + 1) % s.n := by
        rw [hmask, hpow, Nat.and_pow_two_sub_one_eq_mod]
      have hj0 : j ≠ 0 := by
        intro h0
        subst h0
        rw [Nat.add_zero, Nat.mod_eq_of_lt hpos] at hfree
        rw [hu] at hfree
        exact Bool.noConfusion hfree
      have hnpos : 0 < s.n := by
        rw [hpow]; exact Nat.two_pow_pos kk
      rw [hstep]
      apply ih ((pos + 1) % s.n) (Nat.mod_lt _ hnpos)
      refine ⟨j - 1, by omega, ?_⟩
      rw [Nat.mod_add_mod, show pos + 1 + (j - 1) = pos + j by omega]
      exact hfree
    · rw [if_neg hu]
      exact ⟨pos, hpos, by
        cases hb : s.used.getD pos false
        · rfl
        · exact absurd hb hu, rfl⟩

/-- `elemsAsc` enumerates exactly the used slots, so its length is the
used-slot count. -/
theorem elemsAsc_length (s : LongHashSet) (hused : s.used.length = s.n) :
    s.elemsAsc.length = s.usedCount := by
  unfold LongHashSet.elemsAsc LongHashSet.usedCount
  rw [← hused]
  exact filterMap_range_length s.used (fun i => s.key.getD i 0)

/-- Every member of `elemsAsc` is a stored key. -/
theorem elemsAsc_mem (s : LongHashSet) (x : Nat) (hx : x ∈ s.elemsAsc) :
    ∃ i, s.used.getD i false = true ∧ s.key.getD i 0 = x := by
  unfold LongHashSet.elemsAsc at hx
  obtain ⟨i, _, hfi⟩ := List.mem_filterMap.1 hx
  by_cases hu : s.used.getD i false = true
  · rw [if_pos hu] at hfi
    exact ⟨i, hu, Option.some_injective _ hfi⟩
  · rw [if_neg hu] at hfi
    exact Option.noConfusion hfi

/-- Consistency invariant of a `LongHashSet` reachable by adding the keys
of `A` (in some order) to a fresh table: the arrays have length `n`, `n`
is a power of two with `mask = n - 1` and `maxFill` the load bound for
`n`, the number of occupied slots tracks `size` (`size` itself, or
`size - 1` after the first rehash, whose migration loop loses one slot to
the rehash-before-increment off-by-one), `size` stays within `maxFill`,
and every stored key was added. -/
def LongHashSetInv (s : LongHashSet) (A : List Nat) : Prop :=
  s.key.length = s.n ∧ s.used.length = s.n ∧ s.mask = s.n - 1 ∧
  (∃ k, 1 ≤ k ∧ s.n = 2 ^ k) ∧ s.maxFill = Hllv.maxFill s.n ∧
  s.usedCount ≤ s.size ∧ s.size ≤ s.usedCount + 1 ∧ s.size ≤ s.maxFill ∧
  (1 ≤ s.size → 1 ≤ s.usedCount) ∧
  (∀ i, s.used.getD i false = true → s.key.getD i 0 ∈ A)

/-- The fresh table satisfies the invariant for the empty key set. -/
theorem NewLongHashSet_inv : LongHashSetInv NewLongHashSet [] := by
  refine ⟨by decide, by decide, by decide, ⟨5, by decide, by decide⟩, by decide,
    by decide, by decide, by decide, by decide, ?_⟩
  intro i hi
  rw [show NewLongHashSet.used = List.replicate 32 false from rfl,
    getD_replicate_false] at hi
  exact Bool.noConfusion hi

/-- Folding the rehash reinsertion over a key list fills exactly one fresh
slot per key and preserves the bookkeeping fields. -/
theorem foldl_probeIns_spec (B : List Nat) (kk : Nat) :
    ∀ (L : List Nat) (t : LongHashSet),
      t.n = 2 ^ kk → t.mask = t.n - 1 →
      t.key.length = t.n → t.used.length = t.n →
      t.usedCount + L.length ≤ t.n - 1 →
      (∀ i, t.used.getD i false = true → t.key.getD i 0 ∈ B) →
      (∀ x ∈ L, x ∈ B) →
      ∃ r, L.foldl (fun t k => t.probeIns k t.n (murmur3Hash64 (k ^^^ t.mask) &&& t.mask)) t
          = r ∧
        r.n = t.n ∧ r.mask = t.mask ∧ r.maxFill = t.maxFill ∧ r.size = t.size ∧
        r.key.length = t.n ∧ r.used.length = t.n ∧
        r.usedCount = t.usedCount + L.length ∧
        (∀ i, r.used.getD i false = true → r.key.getD i 0 ∈ B) := by
  intro L
  induction L with
  | nil =>
    intro t h1 h2 h3 h4 h5 h6 h7
    exact ⟨t, rfl, rfl, rfl, rfl, rfl, h3, h4, by simp, h6⟩
  | cons x L ih =>
    intro t h1 h2 h3 h4 h5 h6 h7
    rw [List.foldl_cons]
    have hnpos : 0 < t.n := by rw [h1]; exact Nat.two_pow_pos kk
    have hposlt : murmur3Hash64 (x ^^^ t.mask) &&& t.mask < t.n := by
      rw [h2, h1, Nat.and_pow_two_sub_one_eq_mod]
      exact Nat.mod_lt _ (by rw [← h1]; exact hnpos)
    have hcnt : t.used.count true < t.n := by
      have : t.usedCount + (x :: L).length ≤ t.n - 1 := h5
      simp only [List.length_cons] at this
      unfold LongHashSet.usedCount at this
      omega
    obtain ⟨j, hj, hfree⟩ :=
      exists_cyclic_free t.used t.n _ h4 hposlt hcnt
    obtain ⟨p, hp, hpfree, heq⟩ :=
      probeIns_free t x kk h1 h2 t.n _ hposlt ⟨j, hj, hfree⟩
    rw [heq]
    have hlen1 : (t.key.set p x).length = t.n := by rw [List.length_set]; exact h3
    have hlen2 : (t.used.set p true).length = t.n := by rw [List.length_set]; exact h4
    have hucount :
        ({ t with key := t.key.set p x, used := t.used.set p true } : LongHashSet).usedCount
          = t.usedCount + 1 := by
      unfold LongHashSet.usedCount
      exact count_set_true t.used p (by omega) hpfree
    have hmem1 : ∀ i,
        ({ t with key := t.key.set p x, used := t.used.set p true } : LongHashSet).used.getD i false = true →
        ({ t with key := t.key.set p x, used := t.used.set p true } : LongHashSet).key.getD i 0 ∈ B := by
      intro i hi
      dsimp only at hi ⊢
      by_cases hip : i = p
      · subst hip
        rw [getD_set_self t.key i x 0 (by omega)]
        exact h7 x (List.mem_cons_self x L)
      · rw [getD_set_ne t.used p i true false (fun he => hip he.symm)] at hi
        rw [getD_set_ne t.key p i x 0 (fun he => hip he.symm)]
        exact h6 i hi
    have hroomrec :
        ({ t with key := t.key.set p x, used := t.used.set p true } : LongHashSet).usedCount
          + L.length ≤
        ({ t with key := t.key.set p x, used := t.used.set p true } : LongHashSet).n - 1 := by
      rw [hucount]
      show t.usedCount + 1 + L.length ≤ t.n - 1
      simp only [List.length_cons] at h5
      omega
    obtain ⟨r, hr, hrn, hrmask, hrmf, hrsize, hrkl, hrul, hruc, hrmem⟩ :=
      ih { t with key := t.key.set p x, used := t.used.set p true }
        h1 h2 hlen1 hlen2 hroomrec
        hmem1 (fun y hy => h7 y (List.mem_cons_of_mem x hy))
    refine ⟨r, hr, hrn, hrmask, hrmf, hrsize, hrkl, hrul, ?_, hrmem⟩
    rw [hruc, hucount]
    simp only [List.length_cons]
    omega

/-- `rehash` migrates exactly `size` keys into fresh slots of the new
table (the used-slot count becomes `size`, dropping the extra occupied
slot when the table held `size + 1`). -/
theorem rehash_spec (s : LongHashSet) (B : List Nat) (newN kk : Nat)
    (hpow : newN = 2 ^ kk)
    (hused : s.used.length = s.n)
    (hcnt : s.size ≤ s.usedCount)
    (hroom : s.size + 2 ≤ newN)
    (hmem : ∀ i, s.used.getD i false = true → s.key.getD i 0 ∈ B) :
    (s.rehash newN).n = newN ∧ (s.rehash newN).mask = newN - 1 ∧
    (s.rehash newN).maxFill = Hllv.maxFill newN ∧ (s.rehash newN).size = s.size ∧
    (s.rehash newN).key.length = newN ∧ (s.rehash newN).used.length = newN ∧
    (s.rehash newN).usedCount = s.size ∧
    (∀ i, (s.rehash newN).used.getD i false = true →
      (s.rehash newN).key.getD i 0 ∈ B) := by
  have hLlen : (s.elemsAsc.take s.size).length = s.size := by
    rw [List.length_take]
    have := elemsAsc_length s hused
    omega
  have hLmem : ∀ x ∈ s.elemsAsc.take s.size, x ∈ B := by
    intro x hx
    obtain ⟨i, hi, hk⟩ := elemsAsc_mem s x (List.mem_of_mem_take hx)
    exact hk ▸ hmem i hi
  have hbase0 : (List.replicate newN false).count true = 0 := count_replicate_false newN
  obtain ⟨r, hr, hrn, hrmask, hrmf, hrsize, hrkl, hrul, hruc, hrmem⟩ :=
    foldl_probeIns_spec B kk (s.elemsAsc.take s.size)
      { key := List.replicate newN 0, used := List.replicate newN false,
        n := newN, maxFill := Hllv.maxFill newN, mask := newN - 1, size := s.size }
      hpow rfl (by simp) (by simp)
      (by
        dsimp only
        unfold LongHashSet.usedCount
        dsimp only
        rw [hbase0, hLlen]
        omega)
      (by
        intro i hi
        dsimp only at hi
        rw [getD_replicate_false] at hi
        exact Bool.noConfusion hi)
      hLmem
  have hrn2 : r.n = newN := hrn
  have hrmask2 : r.mask = newN - 1 := hrmask
  have hrmf2 : r.maxFill = Hllv.maxFill newN := hrmf
  have hrsize2 : r.size = s.size := hrsize
  have hrkl2 : r.key.length = newN := hrkl
  have hrul2 : r.used.length = newN := hrul
  have hruc2 : r.usedCount = s.size := by
    rw [hruc, hLlen]
    show (List.replicate newN false).count true + s.size = s.size
    rw [hbase0]
    omega
  unfold LongHashSet.rehash
  rw [hr]
  exact ⟨hrn2, hrmask2, hrmf2, hrsize2, hrkl2, hrul2, hruc2, hrmem⟩

/-- `Add` of a key not previously added always inserts: it returns `true`,
increments `size`, and preserves the consistency invariant (through the
rehash when one fires). -/
theorem addB_fresh (s : LongHashSet) (k : Nat) (A : List Nat)
    (hinv : LongHashSetInv s A) (hk : k ∉ A) (hbound : s.size + 1 ≤ 2 ^ 30) :
    ∃ s', s.addB k = (s', true) ∧ LongHashSetInv s' (k :: A) ∧
      s'.size = s.size + 1 := by
  obtain ⟨hkl, hul, hmask, ⟨kk, hkk1, hpow⟩, hmf, huc1, huc2, hszmf, hucpos, hmem⟩ := hinv
  have hnpos : 0 < s.n := by rw [hpow]; exact Nat.two_pow_pos kk
  have hn2 : 2 ≤ s.n := by
    rw [hpow]
    calc (2 : Nat) = 2 ^ 1 := by norm_num
      _ ≤ 2 ^ kk := Nat.pow_le_pow_right (by omega) hkk1
  have hmfn : Hllv.maxFill s.n ≤ s.n - 1 := Nat.min_le_right _ _
  have hmf1 : 1 ≤ Hllv.maxFill s.n := by
    unfold Hllv.maxFill
    omega
  have huc1' : s.used.count true ≤ s.size := huc1
  have huc2' : s.size ≤ s.used.count true + 1 := huc2
  have hcntlt : s.used.count true < s.n := by omega
  have hposlt : murmur3Hash64 (k ^^^ s.mask) &&& s.mask < s.n := by
    rw [hmask, hpow, Nat.and_pow_two_sub_one_eq_mod]
    exact Nat.mod_lt _ (by rw [← hpow]; exact hnpos)
  obtain ⟨j, hj, hfree⟩ := exists_cyclic_free s.used s.n _ hul hposlt hcntlt
  have hfresh : ∀ i, s.used.getD i false = true → s.key.getD i 0 ≠ k := by
    intro i hi he
    exact hk (he ▸ hmem i hi)
  obtain ⟨p, hp, hpfree, heq⟩ :=
    probeAdd_fresh s k kk hpow hmask hfresh s.n _ hposlt ⟨j, hj, hfree⟩
  have hpl : p < s.used.length := by omega
  have hpkl : p < s.key.length := by omega
  unfold LongHashSet.addB
  simp only [heq]
  set s1 : LongHashSet := { s with key := s.key.set p k, used := s.used.set p true }
    with hs1
  have hucs1 : s1.usedCount = s.usedCount + 1 := by
    show (s.used.set p true).count true = s.used.count true + 1
    exact count_set_true s.used p hpl hpfree
  have hmem1 : ∀ i, s1.used.getD i false = true → s1.key.getD i 0 ∈ k :: A := by
    intro i hi
    show (s.key.set p k).getD i 0 ∈ k :: A
    have hi' : (s.used.set p true).getD i false = true := hi
    by_cases hip : i = p
    · subst hip
      rw [getD_set_self s.key i k 0 hpkl]
      exact List.mem_cons_self k A
    · rw [getD_set_ne s.key p i k 0 (fun he => hip he.symm)]
      rw [getD_set_ne s.used p i true false (fun he => hip he.symm)] at hi'
      exact List.mem_cons_of_mem k (hmem i hi')
  by_cases hre : s1.size ≥ s1.maxFill
  · rw [if_pos hre]
    have hre' : s.size ≥ s.maxFill := hre
    have hsz1 : 1 ≤ s.size := by omega
    obtain ⟨kk2, hkk2, hpow2⟩ := arraySize_pow (s.size + 1) (by omega)
    have hge := arraySize_ge (s.size + 1)
    have hmfge := arraySize_maxFill_ge (s.size + 1)
    have hused1 : s1.used.length = s1.n := by
      show (s.used.set p true).length = s.n
      rw [List.length_set]
      exact hul
    have hcnt1 : s1.size ≤ s1.usedCount := by
      rw [hucs1]
      show s.size ≤ s.usedCount + 1
      exact huc2
    obtain ⟨hrn, hrmask, hrmf, hrsize, hrkl, hrul, hruc, hrmem⟩ :=
      rehash_spec s1 (k :: A) (arraySize (s1.size + 1)) kk2
        (by show arraySize (s.size + 1) = 2 ^ kk2; exact hpow2)
        hused1 hcnt1
        (by show s1.size + 2 ≤ arraySize (s.size + 1); show s.size + 2 ≤ _; omega)
        hmem1
    have hrsize' : (s1.rehash (arraySize (s1.size + 1))).size = s.size := hrsize
    refine ⟨{ s1.rehash (arraySize (s1.size + 1)) with
        size := (s1.rehash (arraySize (s1.size + 1))).size + 1 }, rfl, ?_, by
          show (s1.rehash (arraySize (s1.size + 1))).size + 1 = s.size + 1
          rw [hrsize']⟩
    have hsz2 : arraySize (s1.size + 1) = arraySize (s.size + 1) := rfl
    refine ⟨?_, ?_, ?_, ⟨kk2, by omega, ?_⟩, ?_, ?_, ?_, ?_, ?_, ?_⟩
    · show (s1.rehash (arraySize (s1.size + 1))).key.length
        = (s1.rehash (arraySize (s1.size + 1))).n
      rw [hrkl, hrn]
    · show (s1.rehash (arraySize (s1.size + 1))).used.length
        = (s1.rehash (arraySize (s1.size + 1))).n
      rw [hrul, hrn]
    · show (s1.rehash (arraySize (s1.size + 1))).mask
        = (s1.rehash (arraySize (s1.size + 1))).n - 1
      rw [hrmask, hrn]
    · show (s1.rehash (arraySize (s1.size + 1))).n = 2 ^ kk2
      rw [hrn, hsz2]
      exact hpow2
    · show (s1.rehash (arraySize (s1.size + 1))).maxFill
        = Hllv.maxFill (s1.rehash (arraySize (s1.size + 1))).n
      rw [hrmf, hrn]
    · show (s1.rehash (arraySize (s1.size + 1))).usedCount
        ≤ (s1.rehash (arraySize (s1.size + 1))).size + 1
      rw [hruc, hrsize']
      show s.size ≤ s.size + 1
      omega
    · show (s1.rehash (arraySize (s1.size + 1))).size + 1
        ≤ (s1.rehash (arraySize (s1.size + 1))).usedCount + 1
      have h1 : (s1.rehash (arraySize (s1.size + 1))).usedCount = s1.size := hruc
      have h2 : (s1.rehash (arraySize (s1.size + 1))).size = s.size := hrsize'
      have h3 : s1.size = s.size := rfl
      omega
    · show (s1.rehash (arraySize (s1.size + 1))).size + 1
        ≤ (s1.rehash (arraySize (s1.size + 1))).maxFill
      rw [hrsize', hrmf, hsz2]
      exact hmfge
    · intro _
      show 1 ≤ (s1.rehash (arraySize (s1.size + 1))).usedCount
      rw [hruc]
      show 1 ≤ s.size
      omega
    · intro i hi
      exact hrmem i hi
  · rw [if_neg hre]
    have hre' : ¬ s.size ≥ s.maxFill := hre
    refine ⟨{ s1 with size := s1.size + 1 }, rfl, ?_, rfl⟩
    refine ⟨?_, ?_, ?_, ⟨kk, hkk1, ?_⟩, ?_, ?_, ?_, ?_, ?_, ?_⟩
    · show (s.key.set p k).length = s.n
      rw [List.length_set]
      exact hkl
    · show (s.used.set p true).length = s.n
      rw [List.length_set]
      exact hul
    · exact hmask
    · exact hpow
    · exact hmf
    · show (s.used.set p true).count true ≤ s.size + 1
      rw [count_set_true s.used p hpl hpfree]
      omega
    · show s.size + 1 ≤ (s.used.set p true).count true + 1
      rw [count_set_true s.used p hpl hpfree]
      omega
    · show s.size + 1 ≤ s.maxFill
      omega
    · intro _
      show 1 ≤ (s.used.set p true).count true
      rw [count_set_true s.used p hpl hpfree]
      omega
    · intro i hi
      exact hmem1 i hi

/-- The constructor's downward scan finds a used slot whenever one exists
at or below the start position. -/
theorem scanDown_some (s : LongHashSet) :
    ∀ fuel pos, pos < fuel →
      (∃ q, q ≤ pos ∧ s.used.getD q false = true) →
      ∃ p, s.scanDown fuel pos = some p := by
  intro fuel
  induction fuel with
  | zero => intro pos h _; omega
  | succ fuel ih =>
    intro pos hpos hex
    obtain ⟨q, hq, hqt⟩ := hex
    unfold LongHashSet.scanDown
    by_cases hu : s.used.getD pos false = true
    · rw [if_pos hu]
      exact ⟨pos, rfl⟩
    · rw [if_neg hu]
      have hqp : q ≠ pos := fun he => hu (he ▸ hqt)
      rw [if_neg (show ¬ pos = 0 by omega)]
      exact ih (pos - 1) (by omega) ⟨q, by omega, hqt⟩

/-- The iterator constructor succeeds on every table whose `size` is
honest about emptiness, and its counter starts at `size`. -/
theorem NewLongHashSetIterator_some (s : LongHashSet)
    (h1 : s.size ≠ 0 → ∃ q, q < s.n ∧ s.used.getD q false = true) :
    ∃ it, NewLongHashSetIterator s = some it ∧ it.c = s.size := by
  unfold NewLongHashSetIterator
  by_cases h0 : s.size = 0
  · rw [if_pos h0]
    exact ⟨⟨s.n, s.size⟩, rfl, rfl⟩
  · rw [if_neg h0]
    obtain ⟨q, hq, hqt⟩ := h1 h0
    obtain ⟨p, hp⟩ := scanDown_some s s.n (s.n - 1) (by omega) ⟨q, by omega, hqt⟩
    rw [hp]
    exact ⟨⟨p, s.size⟩, rfl, rfl⟩

/-- The serializer write loop of `ToBytes` runs to completion: the counter
`c` decreases by one per iteration, so with fuel `c` it performs exactly
`c` `writeWord` calls. -/
theorem iterWriteLoop_spec (s : LongHashSet) :
    ∀ fuel (it : LongHashSetIterator) ser, it.c ≤ fuel →
      ∃ ws : List Nat, ws.length = it.c ∧
        s.iterWriteLoop fuel it ser =
          some (ws.foldl bigEndianAscendingWordSerializer.writeWord ser) := by
  intro fuel
  induction fuel with
  | zero =>
    intro it ser hc
    refine ⟨[], by simp only [List.length_nil]; omega, ?_⟩
    unfold LongHashSet.iterWriteLoop
    rw [if_pos (by omega)]
    rfl
  | succ fuel ih =>
    intro it ser hc
    by_cases h0 : it.c = 0
    · refine ⟨[], by simp only [List.length_nil]; omega, ?_⟩
      unfold LongHashSet.iterWriteLoop
      rw [if_pos h0]
      rfl
    · unfold LongHashSet.iterWriteLoop
      rw [if_neg h0]
      unfold LongHashSetIterator.next
      rw [if_neg h0]
      dsimp only
      obtain ⟨ws, hlen, heq⟩ :=
        ih ⟨if it.c - 1 ≠ 0 then s.nextWalk it.pos else it.pos, it.c - 1⟩
          (ser.writeWord (s.key.getD it.pos 0))
          (by show it.c - 1 ≤ fuel; omega)
      refine ⟨s.key.getD it.pos 0 :: ws, ?_, ?_⟩
      · rw [List.length_cons, hlen]
        show it.c - 1 + 1 = it.c
        omega
      · rw [List.foldl_cons]
        exact heq

/-- `writeWordLoop` only rewrites bytes in place: the buffer length and
the word bookkeeping fields never change. -/
theorem writeWordLoop_fields (word : Nat) :
    ∀ fuel s blw,
      (writeWordLoop word fuel s blw).wordLength = s.wordLength ∧
      (writeWordLoop word fuel s blw).wordCount = s.wordCount ∧
      (writeWordLoop word fuel s blw).wordsWritten = s.wordsWritten ∧
      (writeWordLoop word fuel s blw).bytes.length = s.bytes.length := by
  intro fuel
  induction fuel with
  | zero => intro s blw; exact ⟨rfl, rfl, rfl, rfl⟩
  | succ fuel ih =>
    intro s blw
    unfold writeWordLoop
    split
    · exact ⟨rfl, rfl, rfl, rfl⟩
    · refine ⟨?_, ?_, ?_, ?_⟩
      · rw [(ih _ _).1]
        show (if s.bitsLeftInByte = 0 then
            { s with byteIndex := s.byteIndex + 1, bitsLeftInByte := 8 }
          else s).wordLength = s.wordLength
        split <;> rfl
      · rw [(ih _ _).2.1]
        show (if s.bitsLeftInByte = 0 then
            { s with byteIndex := s.byteIndex + 1, bitsLeftInByte := 8 }
          else s).wordCount = s.wordCount
        split <;> rfl
      · rw [(ih _ _).2.2.1]
        show (if s.bitsLeftInByte = 0 then
            { s with byteIndex := s.byteIndex + 1, bitsLeftInByte := 8 }
          else s).wordsWritten = s.wordsWritten
        split <;> rfl
      · rw [(ih _ _).2.2.2]
        show ((if s.bitsLeftInByte = 0 then
            { s with byteIndex := s.byteIndex + 1, bitsLeftInByte := 8 }
          else s).bytes.set _ _).length = s.bytes.length
        rw [List.length_set]
        split <;> rfl

/-- A `writeWord` before the promised count advances `wordsWritten` by one
and leaves the buffer length and `wordCount` unchanged. -/
theorem writeWord_step (s : bigEndianAscendingWordSerializer) (k : Nat)
    (h : s.wordsWritten ≠ s.wordCount) :
    (s.writeWord k).wordsWritten = s.wordsWritten + 1 ∧
    (s.writeWord k).wordCount = s.wordCount ∧
    (s.writeWord k).bytes.length = s.bytes.length := by
  unfold bigEndianAscendingWordSerializer.writeWord
  rw [if_neg h]
  obtain ⟨h1, h2, h3, h4⟩ := writeWordLoop_fields k s.wordLength s s.wordLength
  exact ⟨by rw [show ({ writeWordLoop k s.wordLength s s.wordLength with
      wordsWritten := (writeWordLoop k s.wordLength s s.wordLength).wordsWritten + 1
    } : bigEndianAscendingWordSerializer).wordsWritten
      = (writeWordLoop k s.wordLength s s.wordLength).wordsWritten + 1 from rfl, h3],
    by rw [show ({ writeWordLoop k s.wordLength s s.wordLength with
      wordsWritten := (writeWordLoop k s.wordLength s s.wordLength).wordsWritten + 1
    } : bigEndianAscendingWordSerializer).wordCount
      = (writeWordLoop k s.wordLength s s.wordLength).wordCount from rfl, h2],
    by rw [show ({ writeWordLoop k s.wordLength s s.wordLength with
      wordsWritten := (writeWordLoop k s.wordLength s s.wordLength).wordsWritten + 1
    } : bigEndianAscendingWordSerializer).bytes
      = (writeWordLoop k s.wordLength s s.wordLength).bytes from rfl, h4]⟩

/-- Writing exactly the promised number of words keeps the buffer length
and completes the word count. -/
theorem foldl_writeWord_fields :
    ∀ (ws : List Nat) (s : bigEndianAscendingWordSerializer),
      s.wordsWritten + ws.length ≤ s.wordCount →
      ((ws.foldl bigEndianAscendingWordSerializer.writeWord s).wordsWritten
          = s.wordsWritten + ws.length ∧
        (ws.foldl bigEndianAscendingWordSerializer.writeWord s).wordCount
          = s.wordCount ∧
        (ws.foldl bigEndianAscendingWordSerializer.writeWord s).bytes.length
          = s.bytes.length) := by
  intro ws
  induction ws with
  | nil => intro s h; exact ⟨by simp, rfl, rfl⟩
  | cons x ws ih =>
    intro s h
    simp only [List.length_cons] at h
    rw [List.foldl_cons]
    obtain ⟨h1, h2, h3⟩ := writeWord_step s x (by omega)
    obtain ⟨g1, g2, g3⟩ := ih (s.writeWord x) (by omega)
    refine ⟨?_, ?_, ?_⟩
    · rw [g1, h1, List.length_cons]
      omega
    · rw [g2, h2]
    · rw [g3, h3]

/-- The EXPLICIT payload of a consistent table always serializes: exactly
`size` words are written (the loop is driven by the iterator counter, not
by the table occupancy), so the buffer is `8·size + 3` bytes. -/
theorem explicitToBytesPayload_spec (es : LongHashSet) (A : List Nat)
    (hinv : LongHashSetInv es A) :
    ∃ bytes, explicitToBytesPayload es = some bytes ∧
      bytes.length = 8 * es.size + 3 := by
  obtain ⟨hkl, hul, hmask, ⟨kk, hkk1, hpow⟩, hmf, huc1, huc2, hszmf, hucpos, hmem⟩ := hinv
  obtain ⟨it, hit, hitc⟩ := NewLongHashSetIterator_some es (by
    intro h0
    have huc : 1 ≤ es.used.count true := hucpos (by omega)
    obtain ⟨q, hq, hqt⟩ := exists_true_of_count_pos es.used (by omega)
    exact ⟨q, by omega, hqt⟩)
  unfold explicitToBytesPayload
  rw [hit]
  dsimp only
  obtain ⟨ws, hwslen, hloop⟩ := iterWriteLoop_spec es it.c it
    (newBigEndianAscendingWordSerializer 64 es.size) (le_refl _)
  rw [hloop]
  have hinit_wc : (newBigEndianAscendingWordSerializer 64 es.size).wordCount
      = es.size := rfl
  have hinit_ww : (newBigEndianAscendingWordSerializer 64 es.size).wordsWritten
      = 0 := rfl
  have hinit_len : (newBigEndianAscendingWordSerializer 64 es.size).bytes.length
      = 8 * es.size + 3 := by
    show (List.replicate (if 64 * es.size % 8 ≠ 0 then 64 * es.size / 8 + 1 + 3
      else 64 * es.size / 8 + 3) 0).length = 8 * es.size + 3
    rw [List.length_replicate, if_neg (by omega)]
    omega
  obtain ⟨f1, f2, f3⟩ := foldl_writeWord_fields ws
    (newBigEndianAscendingWordSerializer 64 es.size)
    (by rw [hinit_ww, hinit_wc, hwslen, hitc]; omega)
  rw [Option.some_bind]
  unfold bigEndianAscendingWordSerializer.getBytes
  rw [f1, f2, hinit_ww, hinit_wc]
  rw [if_neg (show ¬ 0 + ws.length < es.size by rw [hwslen, hitc]; omega)]
  refine ⟨_, rfl, ?_⟩
  rw [f3, hinit_len]

/-- `writeMetadata` rewrites the three header bytes in place, so the
buffer length is unchanged. -/
theorem writeMetadata_length (bytes : List Nat) (h : Hll) :
    (writeMetadata bytes h).length = bytes.length := by
  unfold writeMetadata
  simp [List.length_set]

/-- A successful `NewHll2(..., EMPTY)` starts with EMPTY storage, and its
explicit threshold is bounded (auto mode by `MAXIMUM_EXPLICIT_THRESHOLD =
2^17`, manual mode by `2^(18-1)`). -/
theorem NewHll2_explicit_base (tbl : TwoToL) (log2m regwidth : Nat)
    (expthresh : Int) (sparseon : Bool) (h : Hll)
    (hok : NewHll2 tbl log2m regwidth expthresh sparseon EMPTY = .ok h) :
    h.storage = .emptyS ∧ h.explicitThreshold ≤ 2 ^ 30 := by
  unfold NewHll2 at hok
  split at hok
  · exact Res.noConfusion hok
  split at hok
  · exact Res.noConfusion hok
  dsimp only at hok
  split at hok
  · exact Res.noConfusion hok
  · exact Res.noConfusion hok
  rename_i eAuto eOff eThresh heq
  unfold Hll.initStorage at hok
  rw [if_pos rfl] at hok
  injection hok with hh
  subst hh
  refine ⟨rfl, ?_⟩
  show eThresh ≤ 2 ^ 30
  split at heq
  · injection heq with h2
    injection h2 with ha h2
    injection h2 with hb hc
    rw [← hc]
    split
    · decide
    · rename_i hnle
      have hMX : MAXIMUM_EXPLICIT_THRESHOLD = 131072 := rfl
      omega
  · split at heq
    · injection heq with h2
      injection h2 with ha h2
      injection h2 with hb hc
      omega
    · split at heq
      · rename_i hrange
        injection heq with h2
        injection h2 with ha h2
        injection h2 with hb hc
        rw [← hc, Nat.one_shiftLeft]
        calc 2 ^ (expthresh.toNat - 1) ≤ 2 ^ 17 :=
            Nat.pow_le_pow_right (by omega) (by omega)
          _ ≤ 2 ^ 30 := by norm_num
      · exact Res.noConfusion heq

/-- Folding `Add` over fresh distinct keys on an EXPLICIT estimator that
stays within its threshold: no promotion fires, the table stays
consistent, and `size` counts the adds. -/
theorem foldl_add_explicitS (l2 rw2 : Nat) (eo ea : Bool) (et swl : Nat)
    (so : Bool) (sth mm mb vm pm : Nat) (am sc lc : ℚ) (hetB : et ≤ 2 ^ 30) :
    ∀ (rest A : List Nat) (es : LongHashSet),
      rest.Nodup → (∀ x ∈ rest, x ∉ A) →
      LongHashSetInv es A → es.size = A.length →
      A.length + rest.length ≤ et →
      ∃ es', rest.foldl Hll.add
          ⟨.explicitS es, l2, rw2, eo, ea, et, swl, so, sth, mm, mb, vm, pm, am, sc, lc⟩ =
          ⟨.explicitS es', l2, rw2, eo, ea, et, swl, so, sth, mm, mb, vm, pm, am, sc, lc⟩ ∧
        LongHashSetInv es' (rest.reverse ++ A) ∧
        es'.size = A.length + rest.length := by
  intro rest
  induction rest with
  | nil =>
    intro A es _ _ hinv hsz hlen
    exact ⟨es, rfl, by simpa using hinv, by simpa using hsz⟩
  | cons x rest ih =>
    intro A es hnd hfresh hinv hsz hlen
    rw [List.foldl_cons]
    obtain ⟨es1, haddB, hinv1, hsz1⟩ := addB_fresh es x A hinv
      (hfresh x (List.mem_cons_self x rest))
      (by rw [hsz]; simp only [List.length_cons] at hlen; omega)
    have hadd : es.add x = es1 := by
      unfold LongHashSet.add
      rw [haddB]
    have hstep : Hll.add
        ⟨.explicitS es, l2, rw2, eo, ea, et, swl, so, sth, mm, mb, vm, pm, am, sc, lc⟩ x
        = ⟨.explicitS es1, l2, rw2, eo, ea, et, swl, so, sth, mm, mb, vm, pm, am, sc, lc⟩ := by
      dsimp only [Hll.add]
      rw [hadd]
      rw [if_neg (show ¬ es1.size > et by
        rw [hsz1, hsz]
        simp only [List.length_cons] at hlen
        omega)]
    rw [hstep]
    obtain ⟨es', hfold, hinv', hsz'⟩ := ih (x :: A) es1
      ((List.nodup_cons.1 hnd).2)
      (by
        intro y hy hmem
        rcases List.mem_cons.1 hmem with h1 | h1
        · subst h1
          exact (List.nodup_cons.1 hnd).1 hy
        · exact hfresh y (List.mem_cons_of_mem x hy) h1)
      hinv1
      (by rw [hsz1, hsz]; rfl)
      (by simp only [List.length_cons] at hlen ⊢; omega)
    refine ⟨es', hfold, ?_, ?_⟩
    · have hA : (x :: rest).reverse ++ A = rest.reverse ++ (x :: A) := by
        rw [List.reverse_cons, List.append_assoc]
        rfl
      rw [hA]
      exact hinv'
    · rw [hsz']
      simp only [List.length_cons]
      omega

/-! ### Concrete claim scenarios -/

/-- Spec scenario 1: the freshly constructed empty estimator `new(14, 5)`. -/
def emptyScenario : Option Hll := (NewHll 14 5).get?

/-- A threshold-overshoot state: `NewHll2(4, 5, 3, true, EMPTY)` has
`explicitThreshold = 4` but `sparseThreshold = 1`; the five hashes
17, 34, 51, 68, 85 land in five distinct registers (indices 1..5) with
non-zero `p(w)`, so the fifth `Add` promotes EXPLICIT → SPARSE and replays
all five hashes into the sparse map with no sparse-threshold check. -/
def overshootScenario : Option Hll :=
  ((NewHll2 twoToLInit 4 5 3 true EMPTY).get?).map
    (fun h => [17, 34, 51, 68, 85].foldl Hll.add h)

/-- The SPARSE map size of a state (0 when not SPARSE). -/
def Hll.sparseSize (h : Hll) : Nat :=
  match h.storage with
  | .sparseS sp => sp.size
  | _ => 0

/-- The EXPLICIT set size of a state (0 when not EXPLICIT). -/
def Hll.explicitSize (h : Hll) : Nat :=
  match h.storage with
  | .explicitS es => es.size
  | _ => 0

/-- Destination of the C10 union: a FULL estimator with `log2m = 5`
(`m = 32` registers). -/
def unionOOBLeft : Option Hll := (NewHll2 twoToLInit 5 5 0 false FULL).get?

/-- Source of the C10 union: a FULL estimator with `log2m = 4` (`m = 16`
registers; its BitVector backing array has only 2 words). -/
def unionOOBRight : Option Hll := (NewHll2 twoToLInit 4 5 0 false FULL).get?

/-- The FULL-with-FULL arm of `homogeneousUnion` evaluates
`other.probabilisticStorage.getRegister(i)` for every `i < this.m`;
`getRegister i` reads the word at index
`(i·registerWidth + registerWidth − 1) >>> 6`.  This predicate says some
such read falls past the end of the other vector's word array — in Go an
unguarded index-out-of-range panic. -/
def fullUnionReadsOOB (h other : Hll) : Bool :=
  match other.storage with
  | .fullS bv => (List.range h.m).any
      (fun i => bv.words.length ≤ (i * bv.registerWidth + bv.registerWidth - 1) >>> 6)
  | _ => false

/-! ### Claims -/

/-- C1: for every freshly constructed estimator with the EXPLICIT
representation enabled (a successful `NewHll2(..., EMPTY)` with
`explicitThreshold > 0`), after adding any nonempty list of `n` distinct
64-bit hash values with `n ≤ explicitThreshold`, the representation is
EXPLICIT, `Cardinality()` returns exactly `n`, and `ToBytes()` returns
exactly `3 + 8·n` bytes — one 64-bit word per added hash after the 3-byte
header.  Every fresh hash inserts (incrementing `size`), no promotion
fires while `size ≤ explicitThreshold`, and the serializer writes exactly
`size` words because the `ToBytes` loop is driven by the iterator counter
initialised to `size`, not by the table occupancy (which drops to
`size - 1` at the first rehash). -/
theorem claim_C1 (tbl : TwoToL) (log2m regwidth : Nat) (expthresh : Int)
    (sparseon : Bool) (h : Hll) (hashes : List Nat)
    (hok : NewHll2 tbl log2m regwidth expthresh sparseon EMPTY = .ok h)
    (hthr : 0 < h.explicitThreshold)
    (hnodup : hashes.Nodup) (hbound : ∀ x ∈ hashes, x < U64)
    (hne : hashes ≠ []) (hlen : hashes.length ≤ h.explicitThreshold) :
    (hashes.foldl Hll.add h).hllType = EXPLICIT ∧
    (hashes.foldl Hll.add h).cardinality = some hashes.length ∧
    ((hashes.foldl Hll.add h).toBytes).map List.length =
      some (3 + 8 * hashes.length) := by
  obtain ⟨hst, hetB⟩ := NewHll2_explicit_base tbl log2m regwidth expthresh sparseon h hok
  obtain ⟨st, l2, rw2, eo, ea, et, swl, so, sth, mm, mb, vm, pm, am, sc, lc⟩ := h
  cases hst
  cases hashes with
  | nil => exact absurd rfl hne
  | cons x rest =>
    obtain ⟨es1, haddB, hinv1, hsz1⟩ := addB_fresh NewLongHashSet x []
      NewLongHashSet_inv (by simp) (by decide)
    have hstep0 : Hll.add
        ⟨.emptyS, l2, rw2, eo, ea, et, swl, so, sth, mm, mb, vm, pm, am, sc, lc⟩ x
        = ⟨.explicitS (NewLongHashSet.add x), l2, rw2, eo, ea, et, swl, so, sth,
            mm, mb, vm, pm, am, sc, lc⟩ := by
      dsimp only [Hll.add]
      rw [if_pos hthr]
    have hadd0 : NewLongHashSet.add x = es1 := by
      unfold LongHashSet.add
      rw [haddB]
    rw [List.foldl_cons, hstep0, hadd0]
    have hlen' : (x :: rest).length ≤ et := hlen
    simp only [List.length_cons] at hlen'
    obtain ⟨es', hfold, hinv', hsz'⟩ :=
      foldl_add_explicitS l2 rw2 eo ea et swl so sth mm mb vm pm am sc lc hetB
        rest [x] es1 ((List.nodup_cons.1 hnodup).2)
        (by
          intro y hy hmem
          rcases List.mem_cons.1 hmem with h1 | h1
          · subst h1
            exact (List.nodup_cons.1 hnodup).1 hy
          · exact absurd h1 (List.not_mem_nil y))
        hinv1
        (by rw [hsz1]; rfl)
        (by simp only [List.length_cons, List.length_nil]; omega)
    rw [hfold]
    refine ⟨rfl, ?_, ?_⟩
    · show some es'.size = some (x :: rest).length
      rw [hsz']
      simp only [List.length_cons, List.length_singleton, List.length_nil]
      rw [Nat.add_comm]
    · show (Hll.toBytes ⟨.explicitS es', l2, rw2, eo, ea, et, swl, so, sth,
        mm, mb, vm, pm, am, sc, lc⟩).map List.length = some (3 + 8 * (x :: rest).length)
      obtain ⟨bytes, hpay, hblen⟩ := explicitToBytesPayload_spec es' _ hinv'
      unfold Hll.toBytes
      dsimp only
      rw [hpay, Option.map_some', Option.map_some', writeMetadata_length, hblen, hsz']
      refine congrArg some ?_
      simp only [List.length_cons, List.length_singleton, List.length_nil]
      omega

/-- C7: serializing the freshly constructed empty estimator `NewHll(14, 5)`
yields exactly the three bytes `0x11` (schema version 1, EMPTY ordinal 1),
`0x8E` (`((5−1) << 5) | 14`) and `0x7F` (`(1 << 6) | 63`, sparse on with
the 'auto' cutoff sentinel). -/
theorem claim_C7 :
    emptyScenario.bind Hll.toBytes = some [0x11, 0x8E, 0x7F] := by decide

/-- C4 (counterexample): the claim "no state in which a threshold is
exceeded is ever observable between operations" fails on the code.  After
five `Add` calls on `NewHll2(4, 5, 3, true, EMPTY)` the returned state is
SPARSE with map size 5 while `sparseThreshold = 1`: the EXPLICIT → SPARSE
promotion replay (part_001 lines 293–299) performs no sparse-threshold
check. -/
theorem claim_C4_counterexample :
    overshootScenario.map Hll.hllType = some SPARSE ∧
    overshootScenario.map (fun h => h.sparseThreshold) = some 1 ∧
    overshootScenario.map Hll.sparseSize = some 5 := by
  refine ⟨by decide, by decide, by decide⟩

/-- Fallback record for extracting concrete states out of `Res`/`Option`. -/
def defaultHll : Hll :=
  ⟨.emptyS, 0, 0, false, false, 0, 0, false, 0, 0, 0, 0, 0, 0, 0, 0⟩

/-- A concrete validly constructed estimator for the C4 witness. -/
def c4wState : Hll := ((NewHll2 twoToLInit 4 5 3 true EMPTY).get?).getD defaultHll

/-- C4 (amended): after any `Add`, and after any `Union` of estimators with
matching thresholds, the EXPLICIT size never exceeds `explicitThreshold`,
while the SPARSE size is bounded by
`max sparseThreshold (explicitThreshold + 1)` rather than by
`sparseThreshold` alone: the EXPLICIT → SPARSE promotion replay performs no
sparse-threshold check, so it can leave up to `explicitThreshold + 1`
entries in the sparse map (see the counterexample), and only the next
insertion promotes further.  All other crossings do promote before the
operation returns. -/
theorem claim_C4_amended :
    (∀ (h : Hll) (v : Nat), h.sizeInvB = true → (h.add v).sizeInvB = true) ∧
    (∀ (h o : Hll), h.sizeInvB = true → o.sizeInvB = true →
      o.explicitThreshold = h.explicitThreshold →
      o.sparseThreshold = h.sparseThreshold →
      (h.union o).sizeInvB = true) :=
  ⟨add_sizeInvB, union_sizeInvB⟩

/-- C4 (witness): the amended invariant instantiated on a concrete
estimator, an `Add` and a self-`Union`. -/
theorem claim_C4_witness :
    (c4wState.add 17).sizeInvB = true ∧
    (c4wState.union c4wState).sizeInvB = true :=
  ⟨claim_C4_amended.1 c4wState 17 (by decide),
   claim_C4_amended.2 c4wState c4wState (by decide) (by decide) rfl rfl⟩

/-- C10: `Union` performs no parameter-compatibility check (its definition
dispatches only on the type ordinals and merges unconditionally, mirroring
the Go source whose only comment is `TODO: verify HLLs are compatible`),
and in the FULL-with-FULL case it iterates `i = 0 .. this.m − 1` calling
`other.probabilisticStorage.getRegister(i)`.  For the two validly
constructed FULL estimators with `log2m = 5` (m = 32) and `log2m = 4`
(2 backing words), some read touches a word index past the end of the
other's word array, with no guarding branch. -/
theorem claim_C10 :
    unionOOBLeft.map Hll.hllType = some FULL ∧
    unionOOBRight.map Hll.hllType = some FULL ∧
    (unionOOBLeft.bind (fun a => unionOOBRight.map (fun b =>
      fullUnionReadsOOB a b))) = some true := by
  refine ⟨by decide, by decide, by decide⟩

/-- C5: representation rank is monotone.  The type ordinals already carry
the rank order EMPTY(1) < EXPLICIT(2) < SPARSE(3) < FULL(4), and no
sequence of `Add` / `Union` operations ever lowers `hllType`: each single
operation is monotone (`add_hllType_mono`, `union_hllType_mono`), hence so
is any fold of operations.  (Skipping over a type — e.g. EMPTY directly to
FULL when thresholds are zero — only moves the ordinal further up.) -/
theorem claim_C5 (h : Hll) (ops : List HllOp) :
    h.hllType ≤ (ops.foldl Hll.applyOp h).hllType := by
  induction ops generalizing h with
  | nil => exact le_refl _
  | cons op rest ih =>
    refine le_trans ?_ (ih (h.applyOp op))
    cases op with
    | addOp v => exact add_hllType_mono h v
    | unionOp o => exact union_hllType_mono h o

/-- C8 (counterexample): the claim "returns an error for any byte slice
whose header type ordinal is not in {1..4}" fails: for the 3-byte input
`[0x15, 0x8E, 0x7F]` (type ordinal 5, valid parameters) `NewHllFromBytes`
panics inside `initializeStorage` instead of returning a typed error. -/
theorem claim_C8_counterexample :
    (NewHllFromBytes twoToLInit [0x15, 0x8E, 0x7F]).isCrash = true ∧
    (NewHllFromBytes twoToLInit [0x15, 0x8E, 0x7F]).isErr = false := by
  refine ⟨by decide, by decide⟩

/-- C8 (amended): `NewHllFromBytes` returns a typed error for every byte
slice shorter than the 3-byte header, but an out-of-range type ordinal is
NOT surfaced as an error: whenever the header is present, the log2m field
is in the accepted range [4, 30], the cutoff field encodes a legal
explicit threshold (0, 63, or 1..18), and the type ordinal is outside
{1..4}, the constructor panics inside `initializeStorage` (modelled as
`.crash`) instead of returning an error. -/
theorem claim_C8_amended :
    (∀ (tbl : TwoToL) (bs : List Nat), bs.length < 3 →
      (NewHllFromBytes tbl bs).isErr = true) ∧
    (∀ (tbl : TwoToL) (bs : List Nat), 3 ≤ bs.length →
      (typeOrdinal (bs.getD 0 0) = 0 ∨ 5 ≤ typeOrdinal (bs.getD 0 0)) →
      4 ≤ registerCountLog2 (bs.getD 1 0) →
      registerCountLog2 (bs.getD 1 0) ≤ 30 →
      (explicitCutoff (bs.getD 2 0) = 0 ∨ explicitCutoff (bs.getD 2 0) = 63 ∨
        (1 ≤ explicitCutoff (bs.getD 2 0) ∧ explicitCutoff (bs.getD 2 0) ≤ 18)) →
      (NewHllFromBytes tbl bs).isCrash = true) := by
  have h3 : HEADER_BYTE_COUNT = 3 := rfl
  constructor
  · intro tbl bs hlen
    unfold NewHllFromBytes
    rw [if_pos (by omega)]
    rfl
  · intro tbl bs hlen hord hl2a hl2b hcut
    have hrw8 : registerWidth (bs.getD 1 0) ≤ 8 := by
      have hand : (bs.getD 1 0 >>> 5) &&& 0x7 ≤ 0x7 := Nat.and_le_right
      unfold registerWidth
      omega
    have hrw1 : 1 ≤ registerWidth (bs.getD 1 0) := by
      unfold registerWidth
      omega
    have he := expthresh_ranges (explicitCutoff (bs.getD 2 0)) hcut
    have hcrash := NewHll2_crash tbl (registerCountLog2 (bs.getD 1 0))
      (registerWidth (bs.getD 1 0))
      (if explicitCutoff (bs.getD 2 0) = EXPLICIT_AUTO then (-1 : Int)
       else if explicitCutoff (bs.getD 2 0) = EXPLICIT_OFF then 0
       else (if explicitCutoff (bs.getD 2 0) = EXPLICIT_OFF ∨
            explicitCutoff (bs.getD 2 0) = EXPLICIT_AUTO then (-1 : Int)
         else (explicitCutoff (bs.getD 2 0) : Int) - 1) + 1)
      (sparseEnabled (bs.getD 2 0)) (typeOrdinal (bs.getD 0 0))
      ⟨hl2a, hl2b⟩ ⟨hrw1, hrw8⟩ he hord
    unfold NewHllFromBytes
    rw [if_neg (by omega)]
    dsimp only
    split
    · rename_i msg heq
      rw [heq] at hcrash
      simp [Res.isCrash] at hcrash
    · rfl
    · rename_i hll heq
      rw [heq] at hcrash
      simp [Res.isCrash] at hcrash

/-- C8 (witness): the two parts of the amended statement at concrete
inputs: a 1-byte slice yields `.err`, and the 3-byte header
`[0x10, 0x8E, 0x7F]` (type ordinal 0, log2m 14, regwidth 5, cutoff 63)
yields `.crash`. -/
theorem claim_C8_witness :
    (NewHllFromBytes twoToLInit [0x10]).isErr = true ∧
    (NewHllFromBytes twoToLInit [0x10, 0x8E, 0x7F]).isCrash = true :=
  ⟨claim_C8_amended.1 twoToLInit [0x10] (by decide),
   claim_C8_amended.2 twoToLInit [0x10, 0x8E, 0x7F] (by decide) (by decide)
     (by decide) (by decide) (by decide)⟩

/-- C2: the word codec round-trips.  For every `wordLength ∈ [1, 64]`,
every `bytePadding`, and every sequence of `N` words each below
`2^wordLength`: serializing via `writeWord` `N` times then `getBytes`
yields a buffer of exactly `bytePadding + ⌈N·w/8⌉` bytes, and
`readWord2 k` on that buffer (same word length and padding) returns the
`k`-th original word for every `k < N`. -/
theorem claim_C2 (w pad : Nat) (ws : List Nat)
    (hw1 : 1 ≤ w) (hw64 : w ≤ 64) (hws : ∀ x ∈ ws, x < 2 ^ w) :
    ∃ bytes,
      (ws.foldl bigEndianAscendingWordSerializer.writeWord
        (newBigEndianAscendingWordSerializer2 w ws.length pad)).getBytes
        = some bytes ∧
      bytes.length = pad + (ws.length * w + 7) / 8 ∧
      ∀ k, k < ws.length →
        (newBigEndianAscendingWordDeserializer w pad bytes).readWord2 k =
          some (ws.getD k 0) := by
  have hlen0 :
      (newBigEndianAscendingWordSerializer2 w ws.length pad).bytes.length
        = pad + (ws.length * w + 7) / 8 := by
    unfold newBigEndianAscendingWordSerializer2
    dsimp only
    rw [List.length_replicate, Nat.mul_comm w ws.length]
    split <;> omega
  have hfold := foldl_writeWord_spec w pad (pad + (ws.length * w + 7) / 8)
    hw64 ws [] (newBigEndianAscendingWordSerializer2 w ws.length pad)
    rfl (by
      simp only [List.length_nil, Nat.zero_add]
      rfl) rfl hlen0
    (by
      left
      refine ⟨?_, ?_⟩
      · show pad = pad + [].length * w / 8
        simp
      · show 8 = 8 - [].length * w % 8
        simp)
    (by
      simp only [List.length_nil, Nat.zero_add]
      omega)
    (by
      intro i b hi hb
      simp at hi)
    (by
      intro t ht
      exact byteBit_replicate_zero _ _ _)
  obtain ⟨f1, f2, f3, f4, f5⟩ := hfold
  refine ⟨(ws.foldl bigEndianAscendingWordSerializer.writeWord
      (newBigEndianAscendingWordSerializer2 w ws.length pad)).bytes,
    ?_, f4, ?_⟩
  · unfold bigEndianAscendingWordSerializer.getBytes
    rw [if_neg (by
      rw [f3, f2]
      exact lt_irrefl _)]
  · intro k hk
    have hmul : (k + 1) * w ≤ ws.length * w :=
      Nat.mul_le_mul_right _ (by omega)
    rw [Nat.succ_mul] at hmul
    obtain ⟨v, hv, hvlt, hvbits⟩ := readWord2_spec w pad
      (ws.foldl bigEndianAscendingWordSerializer.writeWord
        (newBigEndianAscendingWordSerializer2 w ws.length pad)).bytes k
      hw1 hw64 (by rw [f4]; omega)
    rw [hv]
    congr 1
    apply Nat.eq_of_testBit_eq
    intro b
    rw [hvbits b]
    by_cases hb : b < w
    · have hc := f5 k (w - 1 - b) (by simpa using hk) (by omega)
      rw [List.nil_append] at hc
      rw [hc, show w - 1 - (w - 1 - b) = b from by omega]
      simp [hb]
    · have hwsk : ws.getD k 0 < 2 ^ w := by
        rw [getD_eq_getElem ws k 0 (by simpa using hk)]
        exact hws _ (List.getElem_mem _)
      have hfalse : (ws.getD k 0).testBit b = false :=
        Nat.testBit_eq_false_of_lt (lt_of_lt_of_le hwsk
          (Nat.pow_le_pow_right (by norm_num) (by omega)))
      rw [List.getD_eq_getElem?_getD] at hfalse
      simp [hb, hfalse]

/-- C2 (witness): the round trip at `wordLength 5`, the serializer's
3-byte padding, and the words `[1, 2, 3]`. -/
theorem claim_C2_witness :
    ∃ bytes,
      (([1, 2, 3] : List Nat).foldl
        bigEndianAscendingWordSerializer.writeWord
        (newBigEndianAscendingWordSerializer2 5
          ([1, 2, 3] : List Nat).length 3)).getBytes = some bytes ∧
      bytes.length = 3 + (([1, 2, 3] : List Nat).length * 5 + 7) / 8 ∧
      ∀ k, k < ([1, 2, 3] : List Nat).length →
        (newBigEndianAscendingWordDeserializer 5 3 bytes).readWord2 k =
          some (([1, 2, 3] : List Nat).getD k 0) :=
  claim_C2 5 3 [1, 2, 3] (by decide) (by decide) (by decide)

/-- C3: for a well-formed `BitVector` (as `NewBitVector` constructs it),
any register index `i < count` and any value `v ≤ 2^regwidth − 1`:
`setMaxRegister i v` leaves the word contents identical to what
`setRegister i (max current v)` produces, afterwards `getRegister i` reads
`max current v`, every register other than `i` is unchanged (the case of a
register straddling a 64-bit word boundary included), and the returned
flag is true iff `v ≥ current`. -/
theorem claim_C3 (bv : BitVector) (i v : Nat)
    (hwf : bv.wfB = true) (hi : i < bv.count)
    (hv : v ≤ 2 ^ bv.registerWidth - 1) :
    (bv.setMaxRegister i v).1 = bv.setRegister i (max (bv.getRegister i) v) ∧
    (bv.setMaxRegister i v).1.getRegister i = max (bv.getRegister i) v ∧
    (∀ j, j ≠ i →
      (bv.setMaxRegister i v).1.getRegister j = bv.getRegister j) ∧
    ((bv.setMaxRegister i v).2 = true ↔ bv.getRegister i ≤ v) := by
  have hpos : 0 < 2 ^ bv.registerWidth := Nat.pow_pos (by norm_num)
  have hv' : v < 2 ^ bv.registerWidth := by omega
  have hcur := BitVector.getRegister_lt bv i hwf
  rw [BitVector.setMaxRegister_eq]
  by_cases hlt : bv.getRegister i < v
  · rw [if_pos hlt]
    dsimp only
    rw [max_eq_right (le_of_lt hlt)]
    exact ⟨rfl, BitVector.getRegister_setRegister_self bv i v hwf hi hv',
      fun j hj => BitVector.getRegister_setRegister_ne bv i j v hwf hi hv' hj,
      by simp⟩
  · rw [if_neg hlt]
    dsimp only
    rw [max_eq_left (by omega)]
    exact ⟨(BitVector.setRegister_getRegister_id bv i hwf hi).symm, rfl,
      fun j hj => rfl, by simp⟩

/-- C3 (witness): the specification instantiated on the concrete vector of
16 five-bit registers and the write `setMaxRegister 3 7`. -/
theorem claim_C3_witness :
    ((NewBitVector 5 16).setMaxRegister 3 7).1 =
      (NewBitVector 5 16).setRegister 3
        (max ((NewBitVector 5 16).getRegister 3) 7) ∧
    ((NewBitVector 5 16).setMaxRegister 3 7).1.getRegister 3 =
      max ((NewBitVector 5 16).getRegister 3) 7 ∧
    (∀ j, j ≠ 3 →
      ((NewBitVector 5 16).setMaxRegister 3 7).1.getRegister j =
        (NewBitVector 5 16).getRegister j) ∧
    (((NewBitVector 5 16).setMaxRegister 3 7).2 = true ↔
      (NewBitVector 5 16).getRegister 3 ≤ 7) :=
  claim_C3 (NewBitVector 5 16) 3 7 (by decide) (by decide) (by decide)

/-- C1 (witness): `NewHll2(13, 5, 6, true, EMPTY)` (threshold `2^5 = 32`)
with the 26 distinct hashes 0..25 — enough adds to cross the hash set's
first rehash (at the 25th insertion), where the table occupancy drops to
`size - 1`. -/
theorem claim_C1_witness :
    (((List.range 26).foldl Hll.add
        (((NewHll2 zeroTwoToL 13 5 6 true EMPTY).get?).getD defaultHll)).hllType
      = EXPLICIT) ∧
    (((List.range 26).foldl Hll.add
        (((NewHll2 zeroTwoToL 13 5 6 true EMPTY).get?).getD defaultHll)).cardinality
      = some (List.range 26).length) ∧
    ((((List.range 26).foldl Hll.add
        (((NewHll2 zeroTwoToL 13 5 6 true EMPTY).get?).getD defaultHll)).toBytes).map
          List.length
      = some (3 + 8 * (List.range 26).length)) :=
  claim_C1 zeroTwoToL 13 5 6 true
    (((NewHll2 zeroTwoToL 13 5 6 true EMPTY).get?).getD defaultHll)
    (List.range 26) (by rfl) (by decide) (by decide) (by decide) (by decide)
    (by decide)

end Hllv
